import Mathlib

/-!
# HPACK codec of `proxy/hdrs/HPACK.cc`

A shallow embedding of the HPACK (RFC 7541) integer codec, of the string codec,
of the dynamic header table and of the header field encoders and decoders of
`proxy/hdrs/HPACK.cc`, followed by theorems about them. The packet handler of
`iocore/net/QUICPacketHandler.cc` is embedded after the definitions of the
codec, in the namespace `QUIC`; the theorems about it are at the end.

Conventions of the embedding.

* Memory is a function from addresses to the `uint8_t` stored there; pointers
  (`buf_start`, `buf_end`, `p`) are addresses. A buffer is the address range
  `[buf_start, buf_end)`.
* `uint32_t` arithmetic that can wrap is written with an explicit `% 2 ^ 32`.
* A function that returns `int64_t` returns `Int`; reference parameters that
  the function writes (`dst`, `header`) are returned next to the result.
* Loops are recursive functions on a counter that bounds the number of
  iterations; for each loop a lemma shows that the counter handed over by the
  caller is never exhausted before the loop of the source would stop.
* The bytes a decoder reads are listed by a companion function (`decode_integer_reads`
  and the like) that follows the control flow of the decoder and collects the
  addresses it dereferences.
-/

namespace HPACK

/-! ## Memory -/

/-- Byte-addressed memory: the `uint8_t` stored at each address. -/
abbrev Mem := Nat → Nat

/-- The assignment `*p = v`. -/
def store (mem : Mem) (p v : Nat) : Mem := fun a => if a = p then v else mem a

/-- The `len` bytes of memory starting at address `p`. -/
def bytesAt (mem : Mem) (p len : Nat) : List Nat := (List.range len).map fun i => mem (p + i)

/-- A memory holding the bytes `bs` from address `base` on, and zero elsewhere. -/
def ofBytes (base : Nat) (bs : List Nat) : Mem :=
  fun a => if a < base then 0 else bs.getD (a - base) 0

/-! ## Constants -/

/-- The constant `ADDITIONAL_OCTETS` (HPACK.cc:31). -/
def ADDITIONAL_OCTETS : Nat := 32

/-- The constant `HEADER_FIELD_LIMIT_LENGTH` (HPACK.cc:33). -/
def HEADER_FIELD_LIMIT_LENGTH : Nat := 4096

/-- The constant `UINT32_MAX`. -/
def UINT32_MAX : Nat := 4294967295

/-- The enumerator `TS_HPACK_STATIC_TABLE_ENTRY_NUM` (HPACK.cc:102): the 62nd
enumerator of an enumeration that starts at 0. -/
def TS_HPACK_STATIC_TABLE_ENTRY_NUM : Nat := 62

/-! ## Integer codec (HPACK.cc:270-295 and 443-466) -/

/-- The loop `while (value >= 128)` of `encode_integer` (HPACK.cc:282-288),
entered with write pointer `p`. The first argument bounds the number of
iterations. The result is the memory and, unless the loop left through
`return -1` (`none`), the pointer and the value after the loop. -/
def encode_integer_loop (buf_end : Nat) : Nat → Mem → Nat → Nat → Mem × Option (Nat × Nat)
  | 0, mem, p, value => (mem, some (p, value))
  | fuel + 1, mem, p, value =>
    if value ≥ 128 then
      if p ≥ buf_end then (mem, none)
      else
        encode_integer_loop buf_end fuel (store mem p ((value &&& 0x7F) ||| 0x80)) (p + 1)
          (value >>> 7)
    else (mem, some (p, value))

/-- The function `encode_integer` (HPACK.cc:270-295): the returned `int64_t`
and the memory it leaves. The loop counter is `value`, which suffices because
`value >> 7 < value` whenever `value >= 128`. -/
def encode_integer (mem : Mem) (buf_start buf_end value n : Nat) : Int × Mem :=
  if buf_start ≥ buf_end then (-1, mem)
  else
    let p := buf_start
    if value < (1 <<< n) - 1 then
      let mem := store mem p ((mem p ||| value) % 256)
      let p := p + 1
      ((p : Int) - buf_start, mem)
    else
      let mem := store mem p ((mem p ||| ((1 <<< n) - 1)) % 256)
      let p := p + 1
      let value := value - ((1 <<< n) - 1)
      match encode_integer_loop buf_end value mem p value with
      | (mem, none) => (-1, mem)
      | (mem, some (p, value)) =>
        if p + 1 ≥ buf_end then (-1, mem)
        else
          let mem := store mem p value
          let p := p + 1
          ((p : Int) - buf_start, mem)

/-- The `do ... while (*p & 0x80)` loop of `decode_integer` (HPACK.cc:451-462),
entered with read pointer `p`, accumulator `dst` and shift `m`. The first
argument bounds the number of iterations. The result is the pointer after the
loop, or `none` when the loop left through `return -1`, and the final `dst`.
For `m >= 32` the shifts of the source are undefined in C++; the embedding
gives them their mathematical value. -/
def decode_integer_loop (mem : Mem) (buf_end : Nat) : Nat → Nat → Nat → Nat → Option Nat × Nat
  | 0, _, dst, _ => (none, dst)
  | fuel + 1, p, dst, m =>
    let p := p + 1
    if p ≥ buf_end then (none, dst)
    else
      let added_value := mem p &&& 0x7f
      if (UINT32_MAX >>> m) < added_value then (none, dst)
      else
        let dst := (dst + added_value <<< m) % 2 ^ 32
        let m := m + 7
        if mem p &&& 0x80 ≠ 0 then decode_integer_loop mem buf_end fuel p dst m
        else (some p, dst)

/-- The function `decode_integer` (HPACK.cc:443-466): the returned `int64_t`
and the value left in `dst`. The loop counter is `buf_end - buf_start`: every
iteration advances `p`, and the loop returns -1 once `p` reaches `buf_end`. -/
def decode_integer (mem : Mem) (buf_start buf_end n : Nat) : Int × Nat :=
  let p := buf_start
  let dst := mem p &&& ((1 <<< n) - 1)
  if dst = (1 <<< n) - 1 then
    match decode_integer_loop mem buf_end (buf_end - buf_start) p dst 0 with
    | (none, dst) => (-1, dst)
    | (some p, dst) => ((p : Int) - buf_start + 1, dst)
  else ((p : Int) - buf_start + 1, dst)

/-! ## Header fields and the static table (HPACK.cc:105-171) -/

/-- A header field as the codec sees it through `name_get` and `value_get`
(of `MIMEField` and of `MIMEFieldWrapper`): the bytes of its name and of its
value. -/
structure MIMEField where
  /-- The bytes `name_get` returns. -/
  name : List Nat
  /-- The bytes `value_get` returns. -/
  value : List Nat
deriving DecidableEq

/-- The bytes of a C string literal (ASCII). -/
def c_str (s : String) : List Nat := s.toList.map Char.toNat

/-- The array `STATIC_TABLE` (HPACK.cc:105-171), entry 0 included. -/
def STATIC_TABLE : List (String × String) :=
  [ ("", ""),
    (":authority", ""),
    (":method", "GET"),
    (":method", "POST"),
    (":path", "/"),
    (":path", "/index.html"),
    (":scheme", "http"),
    (":scheme", "https"),
    (":status", "200"),
    (":status", "204"),
    (":status", "206"),
    (":status", "304"),
    (":status", "400"),
    (":status", "404"),
    (":status", "500"),
    ("accept-charset", ""),
    ("accept-encoding", "gzip, deflate"),
    ("accept-language", ""),
    ("accept-ranges", ""),
    ("accept", ""),
    ("access-control-allow-origin", ""),
    ("age", ""),
    ("allow", ""),
    ("authorization", ""),
    ("cache-control", ""),
    ("content-disposition", ""),
    ("content-encoding", ""),
    ("content-language", ""),
    ("content-length", ""),
    ("content-location", ""),
    ("content-range", ""),
    ("content-type", ""),
    ("cookie", ""),
    ("date", ""),
    ("etag", ""),
    ("expect", ""),
    ("expires", ""),
    ("from", ""),
    ("host", ""),
    ("if-match", ""),
    ("if-modified-since", ""),
    ("if-none-match", ""),
    ("if-range", ""),
    ("if-unmodified-since", ""),
    ("last-modified", ""),
    ("link", ""),
    ("location", ""),
    ("max-forwards", ""),
    ("proxy-authenticate", ""),
    ("proxy-authorization", ""),
    ("range", ""),
    ("referer", ""),
    ("refresh", ""),
    ("retry-after", ""),
    ("server", ""),
    ("set-cookie", ""),
    ("strict-transport-security", ""),
    ("transfer-encoding", ""),
    ("user-agent", ""),
    ("vary", ""),
    ("via", ""),
    ("www-authenticate", "") ]

/-! ## The dynamic table (HPACK.cc:173-256) -/

/-- The state of an `Http2HeaderTable`: the vector `_headers` (index 0 is the
entry inserted last) and the two `uint32_t` members. The MIME heap `_mhdr`,
which only stores the fields that `_headers` points to, is not modelled. -/
structure Http2HeaderTable where
  /-- The vector `_headers`, newest entry first. -/
  _headers : List MIMEField
  /-- The member `_current_size`. -/
  _current_size : Nat
  /-- The member `_settings_header_table_size`, the maximum size. -/
  _settings_header_table_size : Nat
deriving DecidableEq

/-- Modelled from the spec: the constructor of `Http2HeaderTable` is declared in
HPACK.h, which is not part of the sources at hand. A fresh table has no entries,
current size 0 and the default maximum size 4096. -/
def Http2HeaderTable.fresh : Http2HeaderTable := ⟨[], 0, 4096⟩

/-- Modelled from the spec: `get_current_entry_num` is declared in HPACK.h, which
is not part of the sources at hand. It is the number of entries of the dynamic
table. -/
def get_current_entry_num (t : Http2HeaderTable) : Nat := t._headers.length

/-- Modelled from the spec: `get_header` is declared in HPACK.h, which is not part
of the sources at hand. `get_header(j)` is the `j`-th entry of the dynamic table
counted from 1 (the newest entry is entry 1); it is only defined for `j` in
range. -/
def get_header (t : Http2HeaderTable) (j : Nat) (h : 1 ≤ j ∧ j ≤ get_current_entry_num t) :
    MIMEField :=
  t._headers.get ⟨j - 1, by unfold get_current_entry_num at h; omega⟩

/-- The function `Http2HeaderTable::get_header_from_indexing_tables`
(HPACK.cc:173-199): the returned `int` and the content of `field` afterwards. -/
def get_header_from_indexing_tables (t : Http2HeaderTable) (index : Nat) (field : MIMEField) :
    Int × MIMEField :=
  if index = 0 then (-1, field)
  else if h1 : index < TS_HPACK_STATIC_TABLE_ENTRY_NUM then
    let e := STATIC_TABLE.get ⟨index, h1⟩
    (0, ⟨c_str e.1, c_str e.2⟩)
  else if h2 : index < TS_HPACK_STATIC_TABLE_ENTRY_NUM + get_current_entry_num t then
    let m_field := get_header t (index - TS_HPACK_STATIC_TABLE_ENTRY_NUM + 1) (by omega)
    (0, ⟨m_field.name, m_field.value⟩)
  else (-1, field)

/-- The `uint32_t` value of `ADDITIONAL_OCTETS + name_len + value_len` for a
field (HPACK.cc:215, 230 and 245). -/
def header_size (field : MIMEField) : Nat :=
  (ADDITIONAL_OCTETS + field.name.length + field.value.length) % 2 ^ 32

/-- The eviction loop shared, up to the name of the size variable, by
`set_header_table_size` (HPACK.cc:209-219, on the local `old_size`) and
`add_header_field` (HPACK.cc:239-249, on `_current_size`): while the size
variable exceeds `limit`, take `_headers.last()`, subtract its size (in
`uint32_t`) and remove it. The first argument bounds the number of iterations
and is the number of entries. `none` stands for the undefined behaviour of
reading the fields of `_headers.last()` when `_headers` is empty. -/
def evict_loop (limit : Nat) : Nat → List MIMEField → Nat → Option (List MIMEField × Nat)
  | 0, headers, size => if size > limit then none else some (headers, size)
  | fuel + 1, headers, size =>
    if size > limit then
      match headers.getLast? with
      | none => none
      | some last_field =>
        evict_loop limit fuel headers.dropLast ((size + 2 ^ 32 - header_size last_field) % 2 ^ 32)
    else some (headers, size)

/-- The function `Http2HeaderTable::set_header_table_size` (HPACK.cc:205-222):
the table afterwards, or `none` when the loop reads the last entry of an empty
`_headers`. -/
def set_header_table_size (t : Http2HeaderTable) (new_size : Nat) : Option Http2HeaderTable :=
  let old_size := t._settings_header_table_size
  match evict_loop new_size t._headers.length t._headers old_size with
  | none => none
  | some (headers, _) => some ⟨headers, t._current_size, new_size⟩

/-- The function `Http2HeaderTable::add_header_field` (HPACK.cc:224-256): the
table afterwards, or `none` when the loop reads the last entry of an empty
`_headers`. -/
def add_header_field (t : Http2HeaderTable) (field : MIMEField) : Option Http2HeaderTable :=
  let header_size := header_size field
  if header_size > t._settings_header_table_size then
    some ⟨[], t._current_size, t._settings_header_table_size⟩
  else
    let current_size := (t._current_size + header_size) % 2 ^ 32
    match evict_loop t._settings_header_table_size t._headers.length t._headers current_size with
    | none => none
    | some (headers, current_size) =>
      some ⟨field :: headers, current_size, t._settings_header_table_size⟩

/-- The function `decode_indexed_header_field` (HPACK.cc:505-518): the returned
`int64_t`, the content of `header` afterwards and the table afterwards. -/
def decode_indexed_header_field (header : MIMEField) (mem : Mem) (buf_start buf_end : Nat)
    (header_table : Http2HeaderTable) : Int × MIMEField × Http2HeaderTable :=
  let (len, index) := decode_integer mem buf_start buf_end 7
  if len = -1 then (-1, header, header_table)
  else
    let (r, header) := get_header_from_indexing_tables header_table index header
    if r = -1 then (-1, header, header_table)
    else (len, header, header_table)

/-! ## String codec and header field codec (HPACK.cc:297-424 and 468-570) -/

/-- The call `memcpy(p, src, src_len)`: the bytes `src` are stored from address
`p` on. -/
def memcpy (mem : Mem) (p : Nat) (src : List Nat) : Mem :=
  fun a => if p ≤ a ∧ a < p + src.length then src.getD (a - p) 0 else mem a

/-- The function `encode_string` (HPACK.cc:297-312) for the string `value` (its
length is `value_len`): the returned `int64_t` and the memory it leaves. The
`size_t` length is handed to `encode_integer` as a `uint32_t`. -/
def encode_string (mem : Mem) (buf_start buf_end : Nat) (value : List Nat) : Int × Mem :=
  let p := buf_start
  let (len, mem) := encode_integer mem p buf_end (value.length % 2 ^ 32) 7
  if len = -1 then (-1, mem)
  else
    let p := p + len.toNat
    if buf_end < p ∨ buf_end - p < value.length then (-1, mem)
    else
      let mem := memcpy mem p value
      let p := p + value.length
      ((p : Int) - buf_start, mem)

/-- The function `encode_indexed_header_field` (HPACK.cc:314-333): the returned
`int64_t` and the memory it leaves. -/
def encode_indexed_header_field (mem : Mem) (buf_start buf_end index : Nat) : Int × Mem :=
  if buf_start ≥ buf_end then (-1, mem)
  else
    let p := buf_start
    let (len, mem) := encode_integer mem p buf_end index 7
    if len = -1 then (-1, mem)
    else if p + 1 ≥ buf_end then (-1, mem)
    else
      let mem := store mem p ((mem p ||| 0x80) % 256)
      let p := p + len.toNat
      ((p : Int) - buf_start, mem)

/-- The enumeration `HEADER_INDEXING_TYPE`. Its declaration is in HPACK.h, which
is not part of the sources at hand; the three enumerators are the ones the
source names (HPACK.cc:343-353). -/
inductive HEADER_INDEXING_TYPE where
  | INC_INDEXING
  | WITHOUT_INDEXING
  | NEVER_INDEXED
deriving DecidableEq

/-- The values of `prefix` the `switch` of `encode_literal_header_field` with an
index selects (HPACK.cc:342-357). -/
def HEADER_INDEXING_TYPE.prefix_bits : HEADER_INDEXING_TYPE → Nat
  | INC_INDEXING => 6
  | WITHOUT_INDEXING => 4
  | NEVER_INDEXED => 4

/-- The values of `flag` the `switch` of both `encode_literal_header_field`
selects (HPACK.cc:342-357 and 388-400). -/
def HEADER_INDEXING_TYPE.flag : HEADER_INDEXING_TYPE → Nat
  | INC_INDEXING => 0x40
  | WITHOUT_INDEXING => 0x00
  | NEVER_INDEXED => 0x10

/-- The function `encode_literal_header_field` with a name index
(HPACK.cc:335-378): the returned `int64_t` and the memory it leaves. The
`default` branch of the `switch` is not reached by an enumerator. -/
def encode_literal_header_field_with_index (mem : Mem) (buf_start buf_end : Nat)
    (header : MIMEField) (index : Nat) (type : HEADER_INDEXING_TYPE) : Int × Mem :=
  let p := buf_start
  let (len, mem) := encode_integer mem p buf_end index type.prefix_bits
  if len = -1 then (-1, mem)
  else if p + 1 ≥ buf_end then (-1, mem)
  else
    let mem := store mem p ((mem p ||| type.flag) % 256)
    let p := p + len.toNat
    let (len, mem) := encode_string mem p buf_end header.value
    if len = -1 then (-1, mem)
    else
      let p := p + len.toNat
      ((p : Int) - buf_start, mem)

/-- The function `encode_literal_header_field` with an inline name
(HPACK.cc:380-424): the returned `int64_t` and the memory it leaves. The
`default` branch of the `switch` is not reached by an enumerator. -/
def encode_literal_header_field (mem : Mem) (buf_start buf_end : Nat) (header : MIMEField)
    (type : HEADER_INDEXING_TYPE) : Int × Mem :=
  let p := buf_start
  if p + 1 ≥ buf_end then (-1, mem)
  else
    let mem := store mem p type.flag
    let p := p + 1
    let (len, mem) := encode_string mem p buf_end header.name
    if len = -1 then (-1, mem)
    else
      let p := p + len.toNat
      let (len, mem) := encode_string mem p buf_end header.value
      if len = -1 then (-1, mem)
      else
        let p := p + len.toNat
        ((p : Int) - buf_start, mem)

/-- The type of `huffman_decode`, which is declared in HPACKHuffman.h and is not
part of the sources at hand; the functions that call it take it as a parameter.
`huffman_decode mem src src_len` is the decoded string, or `none` when the
function returns -1. -/
abbrev HuffmanDecode := Mem → Nat → Nat → Option (List Nat)

/-- The function `decode_string` (HPACK.cc:470-502): the returned `int64_t` and
the string left in `(*c_str, c_str_length)`. The callers pass an empty string
and read it only when the result is not -1; on -1 the empty string is
returned. -/
def decode_string (huffman_decode : HuffmanDecode) (mem : Mem) (buf_start buf_end : Nat) :
    Int × List Nat :=
  let p := buf_start
  let isHuffman := mem p &&& 0x80 ≠ 0
  let (len, encoded_string_len) := decode_integer mem p buf_end 7
  if len = -1 then (-1, [])
  else
    let p := p + len.toNat
    if encoded_string_len > HEADER_FIELD_LIMIT_LENGTH ∨ buf_start + encoded_string_len ≥ buf_end then
      (-1, [])
    else if isHuffman then
      match huffman_decode mem p encoded_string_len with
      | none => (-1, [])
      | some c_str => ((p : Int) + encoded_string_len - buf_start, c_str)
    else
      ((p : Int) + encoded_string_len - buf_start, bytesAt mem p encoded_string_len)

/-- The function `decode_literal_header_field` (HPACK.cc:521-570): the returned
`int64_t`, the content of `header` afterwards and the table afterwards; `none`
when `add_header_field` reads the last entry of an empty `_headers`. The result
of `get_header_from_indexing_tables` is not looked at (HPACK.cc:546). -/
def decode_literal_header_field (huffman_decode : HuffmanDecode) (header : MIMEField)
    (mem : Mem) (buf_start buf_end : Nat) (header_table : Http2HeaderTable) :
    Option (Int × MIMEField × Http2HeaderTable) :=
  let p := buf_start
  let isIncremental := mem p &&& 0x40 ≠ 0
  let (len, index) :=
    if mem p &&& 0x40 ≠ 0 then decode_integer mem p buf_end 6
    else if mem p &&& 0x10 ≠ 0 then decode_integer mem p buf_end 4
    else decode_integer mem p buf_end 4
  if len = -1 then some (-1, header, header_table)
  else
    let p := p + len.toNat
    let named : Option (Nat × MIMEField) :=
      if index ≠ 0 then
        some (p, (get_header_from_indexing_tables header_table index header).2)
      else
        let (len, c_name) := decode_string huffman_decode mem p buf_end
        if len = -1 then none
        else some (p + len.toNat, ⟨c_name, header.value⟩)
    match named with
    | none => some (-1, header, header_table)
    | some (p, header) =>
      let (len, c_value) := decode_string huffman_decode mem p buf_end
      if len = -1 then some (-1, header, header_table)
      else
        let p := p + len.toNat
        let header : MIMEField := ⟨header.name, c_value⟩
        if isIncremental then
          match add_header_field header_table header with
          | none => none
          | some header_table => some ((p : Int) - buf_start, header, header_table)
        else some ((p : Int) - buf_start, header, header_table)

/-- The function `update_header_table_size` (HPACK.cc:572-590): the returned
`int64_t` and the table afterwards; `none` when `set_header_table_size` reads
the last entry of an empty `_headers`. -/
def update_header_table_size (mem : Mem) (buf_start buf_end : Nat)
    (header_table : Http2HeaderTable) : Option (Int × Http2HeaderTable) :=
  if buf_start = buf_end then some (-1, header_table)
  else
    let len : Int := 0
    if mem buf_start &&& 0xe0 = 0x20 then
      let (len, size) := decode_integer mem buf_start buf_end 5
      if len = -1 then some (-1, header_table)
      else
        match set_header_table_size header_table size with
        | none => none
        | some header_table => some (len, header_table)
    else some (len, header_table)

/-! ## The bytes the decoders read (HPACK.cc:443-502 and 521-570) -/

/-- The addresses at which the loop of `decode_integer` reads `*p`
(HPACK.cc:454 and 463), in the order of the reads of distinct addresses; the
arguments are those of `decode_integer_loop`, without `dst`. -/
def decode_integer_loop_reads (mem : Mem) (buf_end : Nat) : Nat → Nat → Nat → List Nat
  | 0, _, _ => []
  | fuel + 1, p, m =>
    let p := p + 1
    if p ≥ buf_end then []
    else
      let added_value := mem p &&& 0x7f
      if (UINT32_MAX >>> m) < added_value then [p]
      else
        let m := m + 7
        if mem p &&& 0x80 ≠ 0 then p :: decode_integer_loop_reads mem buf_end fuel p m
        else [p]

/-- The addresses `decode_integer` (HPACK.cc:443-466) reads: `*p` at `buf_start`
(HPACK.cc:448), before any comparison with `buf_end`, and then those of its
loop. -/
def decode_integer_reads (mem : Mem) (buf_start buf_end n : Nat) : List Nat :=
  let p := buf_start
  let dst := mem p &&& ((1 <<< n) - 1)
  if dst = (1 <<< n) - 1 then
    p :: decode_integer_loop_reads mem buf_end (buf_end - buf_start) p 0
  else [p]

/-- The addresses `decode_string` (HPACK.cc:470-502) reads: `*p` at `buf_start`
for `isHuffman` (HPACK.cc:476), those of `decode_integer`, and, when the two
tests of HPACK.cc:482 pass, the `encoded_string_len` bytes from `p` on that are
handed to `huffman_decode` or to `memcpy`. -/
def decode_string_reads (mem : Mem) (buf_start buf_end : Nat) : List Nat :=
  let p := buf_start
  let reads := p :: decode_integer_reads mem p buf_end 7
  let (len, encoded_string_len) := decode_integer mem p buf_end 7
  if len = -1 then reads
  else
    let p := p + len.toNat
    if encoded_string_len > HEADER_FIELD_LIMIT_LENGTH ∨ buf_start + encoded_string_len ≥ buf_end then
      reads
    else reads ++ (List.range encoded_string_len).map fun i => p + i

/-- The addresses `decode_literal_header_field` (HPACK.cc:521-570) reads: `*p`
at `buf_start` for the tests of the bits 0x40 and 0x10, those of
`decode_integer`, those of `decode_string` for the name when the index is 0, and
those of `decode_string` for the value. -/
def decode_literal_header_field_reads (huffman_decode : HuffmanDecode) (mem : Mem)
    (buf_start buf_end : Nat) : List Nat :=
  let p := buf_start
  let n := if mem p &&& 0x40 ≠ 0 then 6 else if mem p &&& 0x10 ≠ 0 then 4 else 4
  let reads := p :: decode_integer_reads mem p buf_end n
  let (len, index) := decode_integer mem p buf_end n
  if len = -1 then reads
  else
    let p := p + len.toNat
    let named : Option Nat × List Nat :=
      if index ≠ 0 then (some p, reads)
      else
        let reads := reads ++ decode_string_reads mem p buf_end
        let (len, _) := decode_string huffman_decode mem p buf_end
        if len = -1 then (none, reads)
        else (some (p + len.toNat), reads)
    match named with
    | (none, reads) => reads
    | (some p, reads) => reads ++ decode_string_reads mem p buf_end

end HPACK

/-!
# QUIC packet handler of `iocore/net/QUICPacketHandler.cc`

A shallow embedding of `QUICPacketHandler::close_conenction`, of
`QUICPacketHandler::_send_packet`, of `QUICPacketHandlerIn::_recv_packet` and of
`QUICPacketHandlerIn::acceptEvent`.

Conventions of the embedding.

* Objects the handler only passes on (addresses, threads, UDP connections) are
  numbers. A connection ID and a stateless reset token are the bytes they hold.
* The collaborators whose code is in other files (the connection table, the
  packet parser, the token generator, the event processor, the allocator of
  connections, the clock) are the fields of `Collaborators`. They act on a state
  `W` of their own, which the handler threads through its calls in the order of
  the source.
* What a function hands to the outside (a datagram to send, a poll event to
  push, a packet to free, a connection it has created) is returned as the list
  of these actions, in the order of the source.
* Debug output (`QUICDebugDS`, `is_debug_tag_set`) is left out.
-/

namespace QUIC

/-! ## Data of the packet handler -/

/-- A `QUICConnectionId`: the bytes of the connection ID. -/
abbrev QUICConnectionId := List Nat

/-- A `QUICStatelessResetToken`: the bytes of the token. -/
abbrev QUICStatelessResetToken := List Nat

/-- An `IpEndpoint`: the address family `sa.sa_family` and the rest of the
address, by a number. -/
structure IpEndpoint where
  sa_family : Nat
  sa : Nat
deriving DecidableEq

/-- An `EThread *`, by a number. -/
abbrev EThread := Nat

/-- A `UDPConnection *`, by a number. -/
abbrev UDPConnection := Nat

/-- What `_recv_packet` reads of a `UDPPacket`: the addresses `from` and `to`
(written `from_` and `to_`), the connection `getConnection()` and the bytes at
`getIOBlockChain()->buf()`. -/
structure UDPPacket where
  from_ : IpEndpoint
  to_ : IpEndpoint
  getConnection : UDPConnection
  buf : List Nat
deriving DecidableEq

/-- The values of `options.ip_proto`. -/
inductive ip_protocol_t where
  | USE_TCP
  | USE_UDP
deriving DecidableEq

/-- The values `set_context` is called with. -/
inductive NetVConnectionContext_t where
  | NET_VCONNECTION_UNSET
  | NET_VCONNECTION_IN
  | NET_VCONNECTION_OUT
deriving DecidableEq

/-- What the packet handler reads and writes of a `QUICNetVConnection`. The
fields `peer_cid`, `original_cid` and `udp_con` are the first three arguments
of `init`; `con` is the remote address of `vc->con`; `started` records the call
of `start`; `ip_proto` and `ip_family` are the fields of `options`. The mutex
and the action of the connection are left out. -/
structure QUICNetVConnection where
  peer_cid : QUICConnectionId
  original_cid : QUICConnectionId
  udp_con : UDPConnection
  id : Nat
  con : IpEndpoint
  submit_time : Nat
  thread : EThread
  is_transparent : Bool
  context : NetVConnectionContext_t
  started : Bool
  ip_proto : ip_protocol_t
  ip_family : Nat
  in_closed_queue : Int
deriving DecidableEq

/-- The packets `QUICPacketFactory` builds for the handler: a stateless reset
packet is determined by the connection ID and the token it is created from. -/
inductive QUICPacket where
  | stateless_reset (cid : QUICConnectionId) (token : QUICStatelessResetToken)
deriving DecidableEq

/-- What the packet handler hands to the outside. -/
inductive Action where
  /-- The call `udp_con->send(c, udp_packet)` of `_send_packet`, where
  `udp_packet` is the datagram to `addr` that `packet.store` fills, in a block
  allocated for `pmtu` bytes. -/
  | send (udp_con : UDPConnection) (addr : IpEndpoint) (packet : QUICPacket) (pmtu : Nat)
  /-- The call `udp_packet->free()`. -/
  | free (udp_packet : UDPPacket)
  /-- A connection obtained from `allocate_vc`, as `_recv_packet` leaves it. -/
  | create (vc : QUICNetVConnection)
  /-- The call `get_QUICPollCont(eth)->inQueue.push(qe)` for the poll event
  `qe` initialised with `qc` and `udp_packet`. -/
  | push (eth : EThread) (qc : QUICNetVConnection) (udp_packet : UDPPacket)
  /-- The call `this_ethread()->schedule_every(_closed_con_collector, period)`,
  `period` in milliseconds. -/
  | schedule_every (period : Nat)
deriving DecidableEq

/-- The collaborators of the packet handler, on their state `W`. -/
structure Collaborators (W : Type) where
  /-- The call `_ctable->lookup(buf, {from, to, SOCK_DGRAM})`. -/
  lookup : W → List Nat → IpEndpoint → IpEndpoint → Option QUICNetVConnection
  /-- The call `QUICPacket::destination_connection_id(buf)`. -/
  destination_connection_id : List Nat → QUICConnectionId
  /-- The call `QUICPacket::source_connection_id(buf)`. -/
  source_connection_id : List Nat → QUICConnectionId
  /-- The value `params->server_id()` of the configuration. -/
  server_id : Nat
  /-- The token `token.generate(cid, server_id)` leaves in `token`. -/
  generate : QUICConnectionId → Nat → QUICStatelessResetToken
  /-- The call `eventProcessor.assign_thread(ET_NET)`. -/
  assign_thread : W → EThread × W
  /-- The call `getNetProcessor()->allocate_vc(nullptr)`. -/
  allocate_vc : W → QUICNetVConnection × W
  /-- The call `net_next_connection_number()`. -/
  net_next_connection_number : W → Nat × W
  /-- The call `Thread::get_hrtime()`. -/
  get_hrtime : W → Nat
  /-- The effect of `vc->start()` on the collaborators. -/
  start : W → QUICNetVConnection → W

/-- Modelled from the spec: `QUICTypeUtil::has_long_header`, whose code is not
part of the sources at hand. A long-header packet is one whose byte 0 has the
high bit set. -/
def has_long_header (buf : List Nat) : Bool := buf.getD 0 0 &&& 0x80 ≠ 0

/-! ## `close_conenction` (QUICPacketHandler.cc:61-68) -/

/-- The state `close_conenction` works on: the connections, by their address,
and the queue `_closed_con_collector->closedQueue` of addresses of
connections. -/
structure QUICPacketHandler where
  conns : Nat → QUICNetVConnection
  closedQueue : List Nat

/-- Modelled from the spec: `ink_atomic_swap(&conn->in_closed_queue, value)`,
whose code is not part of the sources at hand. The swap stores `value` in the
flag of the connection at address `conn` and returns the value the flag had, in
one step. -/
def ink_atomic_swap (conns : Nat → QUICNetVConnection) (conn : Nat) (value : Int) :
    Int × (Nat → QUICNetVConnection) :=
  ((conns conn).in_closed_queue,
    fun a => if a = conn then { conns conn with in_closed_queue := value } else conns a)

/-- The function `QUICPacketHandler::close_conenction`
(QUICPacketHandler.cc:61-68) for the connection at address `conn`. -/
def QUICPacketHandler.close_conenction (h : QUICPacketHandler) (conn : Nat) :
    QUICPacketHandler :=
  let (isin, conns) := ink_atomic_swap h.conns conn 1
  if isin = 0 then ⟨conns, conn :: h.closedQueue⟩
  else ⟨conns, h.closedQueue⟩

/-- The point a call of `close_conenction` has reached: before the swap, after
the swap that returned `isin`, or returned. -/
inductive CloseCall where
  | called (conn : Nat)
  | swapped (conn : Nat) (isin : Int)
  | returned
deriving DecidableEq

/-- One step of a call of `close_conenction`: the swap (line 64), or the test
of `isin` with the push (lines 65-67). A call that has returned stays so. -/
def CloseCall.step (h : QUICPacketHandler) : CloseCall → QUICPacketHandler × CloseCall
  | .called conn =>
    let (isin, conns) := ink_atomic_swap h.conns conn 1
    (⟨conns, h.closedQueue⟩, .swapped conn isin)
  | .swapped conn isin =>
    if isin = 0 then (⟨h.conns, conn :: h.closedQueue⟩, .returned)
    else (h, .returned)
  | .returned => (h, .returned)

/-- Calls of `close_conenction` that run at the same time: the state they share
and the point each call has reached. -/
structure Closing where
  handler : QUICPacketHandler
  calls : List CloseCall

/-- The call number `i` takes its next step. -/
def Closing.step (s : Closing) (i : Nat) : Closing :=
  match s.calls[i]? with
  | none => s
  | some c => ⟨(c.step s.handler).1, s.calls.set i (c.step s.handler).2⟩

/-- The calls take steps in the order `schedule` lists them. -/
def Closing.run (s : Closing) (schedule : List Nat) : Closing :=
  schedule.foldl Closing.step s

/-- The invariant of calls of `close_conenction` that run at the same time, for
the connection `c` and the connections `conns` the calls were made for: the flag
of `c` is 0 or 1; `c` is in the queue, or a call has swapped its flag from 0 and
has not pushed it yet, exactly when the flag is 1, and not both; while the flag
is 0 every call for `c` is still before its swap; every call before its swap is
a call for one of `conns`; and the flag is 1 only if `c` is one of `conns`. -/
def closing_inv (conns : List Nat) (c : Nat) (s : Closing) : Prop :=
  ((s.handler.conns c).in_closed_queue = 0 ∨ (s.handler.conns c).in_closed_queue = 1) ∧
  s.handler.closedQueue.count c + s.calls.count (CloseCall.swapped c 0) =
    (if (s.handler.conns c).in_closed_queue = 0 then 0 else 1) ∧
  ((s.handler.conns c).in_closed_queue = 0 →
    s.calls.count (CloseCall.called c) = conns.count c) ∧
  (∀ d, CloseCall.called d ∈ s.calls → d ∈ conns) ∧
  ((s.handler.conns c).in_closed_queue = 1 → c ∈ conns)

/-! ## `_send_packet` and `_recv_packet` (QUICPacketHandler.cc:70-92 and 182-264) -/

/-- The function `QUICPacketHandler::_send_packet` (QUICPacketHandler.cc:70-92):
the packet is stored in a new datagram to `addr`, which is handed to
`udp_con->send`. -/
def QUICPacketHandler._send_packet (packet : QUICPacket) (udp_con : UDPConnection)
    (addr : IpEndpoint) (pmtu : Nat) : List Action :=
  [Action.send udp_con addr packet pmtu]

/-- The fields of the acceptor that `acceptEvent` and `_recv_packet` read and
write: the option `opt.f_inbound_transparent`, and whether `_collector_event`
is set (not `nullptr`). -/
structure QUICPacketHandlerIn where
  f_inbound_transparent : Bool
  _collector_event_set : Bool
deriving DecidableEq

/-- The function `QUICPacketHandlerIn::_recv_packet`
(QUICPacketHandler.cc:182-264): the actions it takes and the state of the
collaborators afterwards. -/
def QUICPacketHandlerIn._recv_packet {W : Type} (P : Collaborators W) (handler : QUICPacketHandlerIn)
    (w : W) (udp_packet : UDPPacket) : List Action × W :=
  let buf := udp_packet.buf
  let vc := P.lookup w buf udp_packet.from_ udp_packet.to_
  if (vc.isNone && !has_long_header buf) ||
      (match vc with
       | some vc => decide (vc.in_closed_queue ≠ 0)
       | none => false) then
    let con := udp_packet.from_
    let cid := P.destination_connection_id buf
    let token := P.generate cid P.server_id
    let packet := QUICPacket.stateless_reset cid token
    (QUICPacketHandler._send_packet packet udp_packet.getConnection con 1200 ++
      [Action.free udp_packet], w)
  else
    match vc with
    | none =>
      let con := udp_packet.from_
      let (eth, w) := P.assign_thread w
      let original_cid := P.destination_connection_id buf
      let peer_cid := P.source_connection_id buf
      let (vc, w) := P.allocate_vc w
      let vc := { vc with peer_cid := peer_cid, original_cid := original_cid,
                          udp_con := udp_packet.getConnection }
      let (id, w) := P.net_next_connection_number w
      let vc := { vc with id := id }
      let vc := { vc with con := con }
      let vc := { vc with submit_time := P.get_hrtime w }
      let vc := { vc with thread := eth }
      let vc := { vc with is_transparent := handler.f_inbound_transparent }
      let vc := { vc with context := NetVConnectionContext_t.NET_VCONNECTION_IN }
      let w := P.start w vc
      let vc := { vc with started := true }
      let vc := { vc with ip_proto := ip_protocol_t.USE_UDP }
      let vc := { vc with ip_family := udp_packet.from_.sa_family }
      ([Action.create vc, Action.push eth vc udp_packet], w)
    | some vc =>
      let eth := vc.thread
      ([Action.push eth vc udp_packet], w)

/-! ## `acceptEvent` (QUICPacketHandler.cc:140-174) -/

/-- The events `acceptEvent` tells apart; `other` stands for every other event
number. The numbers themselves are defined in files that are not part of the
sources at hand. -/
inductive NetEvent where
  | NET_EVENT_DATAGRAM_OPEN
  | NET_EVENT_DATAGRAM_READ_READY
  | NET_EVENT_DATAGRAM_ERROR
  | other (event : Int)
deriving DecidableEq

/-- The argument `void *data` of `acceptEvent`: the pointer as a number
(`(long)data`, 0 for `nullptr`), and the packets of the queue it points to when
it is read as a `Queue<UDPPacket> *`. -/
structure EventData where
  value : Int
  queue : List UDPPacket
deriving DecidableEq

/-- The constant `ECONNABORTED` of `errno.h` (its value on Linux). -/
def ECONNABORTED : Int := 103

/-- The conversion `(int)(intptr_t)data` of a 64-bit number to `int`. -/
def int_of_intptr (v : Int) : Int := (v + 2 ^ 31) % 2 ^ 32 - 2 ^ 31

/-- How a call of `acceptEvent` ends: it returns `EVENT_CONT`, with the
acceptor, the actions taken and the state of the collaborators afterwards; or
an `ink_release_assert` fails; or `ink_abort` is called, with the number it
prints as `errno`. Both of the latter end the process. -/
inductive AcceptResult (W : Type) where
  | EVENT_CONT (handler : QUICPacketHandlerIn) (actions : List Action) (w : W)
  | ink_release_assert
  | ink_abort (errno : Int)

/-- The loop `while ((packet_r = queue->dequeue())) _recv_packet(event, packet_r)`
of `acceptEvent` (QUICPacketHandler.cc:159-161). -/
def recv_loop {W : Type} (P : Collaborators W) (handler : QUICPacketHandlerIn) :
    W → List UDPPacket → List Action × W
  | w, [] => ([], w)
  | w, packet_r :: queue =>
    let (actions, w) := QUICPacketHandlerIn._recv_packet P handler w packet_r
    let (rest, w) := recv_loop P handler w queue
    (actions ++ rest, w)

/-- The function `QUICPacketHandlerIn::acceptEvent`
(QUICPacketHandler.cc:140-174). -/
def QUICPacketHandlerIn.acceptEvent {W : Type} (P : Collaborators W)
    (handler : QUICPacketHandlerIn) (w : W) (event : NetEvent) (data : EventData) :
    AcceptResult W :=
  if ¬ (event = NetEvent.NET_EVENT_DATAGRAM_OPEN ∨ event = NetEvent.NET_EVENT_DATAGRAM_READ_READY ∨
      event = NetEvent.NET_EVENT_DATAGRAM_ERROR) then AcceptResult.ink_release_assert
  else if ¬ (if event = NetEvent.NET_EVENT_DATAGRAM_OPEN then data.value ≠ 0 else True) then
    AcceptResult.ink_release_assert
  else if ¬ (if event = NetEvent.NET_EVENT_DATAGRAM_READ_READY then data.value ≠ 0 else True) then
    AcceptResult.ink_release_assert
  else if event = NetEvent.NET_EVENT_DATAGRAM_OPEN then
    AcceptResult.EVENT_CONT handler [] w
  else if event = NetEvent.NET_EVENT_DATAGRAM_READ_READY then
    let (scheduled, handler) :=
      if handler._collector_event_set = false then
        ([Action.schedule_every 100], { handler with _collector_event_set := true })
      else ([], handler)
    let (actions, w) := recv_loop P handler w data.queue
    AcceptResult.EVENT_CONT handler (scheduled ++ actions) w
  else
    let _nothing : Unit := if data.value = -ECONNABORTED then () else ()
    AcceptResult.ink_abort (-(int_of_intptr data.value))

/-! ## Sample data for the examples -/

/-- A connection for the examples: every field empty or zero, in particular
`in_closed_queue`. -/
def sample_connection : QUICNetVConnection :=
  ⟨[], [], 0, 0, ⟨0, 0⟩, 0, 0, false, NetVConnectionContext_t.NET_VCONNECTION_UNSET, false,
    ip_protocol_t.USE_TCP, 0, 0⟩

/-- Collaborators for the examples, whose state is a counter. The table holds
an open connection (on thread 9) for the packets whose second byte is 7 and a
closed one for those whose second byte is 8; the destination connection ID is
the second and third byte of a packet, the source connection ID the fourth and
fifth; the token is the server ID 11 followed by the connection ID; the threads
are assigned in turn from 40 on. -/
def sample_collaborators : Collaborators Nat where
  lookup := fun _ buf _ _ =>
    if buf.getD 1 0 = 7 then some { sample_connection with thread := 9 }
    else if buf.getD 1 0 = 8 then some { sample_connection with in_closed_queue := 1 }
    else none
  destination_connection_id := fun buf => (buf.drop 1).take 2
  source_connection_id := fun buf => (buf.drop 3).take 2
  server_id := 11
  generate := fun cid server_id => server_id :: cid
  assign_thread := fun w => (40 + w, w + 1)
  allocate_vc := fun w => (sample_connection, w)
  net_next_connection_number := fun w => (100 + w, w)
  get_hrtime := fun w => 1000 + w
  start := fun w _ => w

end QUIC

namespace HPACK

/-! ## Reference definitions, worded as the specification -/

/-- Reference: the continuation bytes of RFC 7541 section 5.1 for `v`, as the
specification words them: while `v >= 128` emit `(v mod 128) | 0x80` and go on
with `v div 128`; emit the final `v`. -/
def rfc_digits (v : Nat) : List Nat :=
  if v ≥ 128 then ((v % 128) ||| 0x80) :: rfc_digits (v / 128) else [v]
decreasing_by omega

/-- Reference: the RFC 7541 prefix-integer encoding of `value` with an `n`-bit
prefix on a zero destination byte, as the specification words it. -/
def rfc_encode_integer (value n : Nat) : List Nat :=
  if value < 2 ^ n - 1 then [value]
  else (2 ^ n - 1) :: rfc_digits (value - (2 ^ n - 1))

/-- Reference: the value RFC 7541 section 5.1 gives to continuation bytes: the
sum of `(b_k & 0x7F) * 2 ^ (7 * k)`. -/
def rfc_continuation_value : List Nat → Nat
  | [] => 0
  | b :: bs => (b &&& 0x7F) + 2 ^ 7 * rfc_continuation_value bs

/-- Reference: the value RFC 7541 section 5.1 gives to an encoded integer with
an `n`-bit prefix: the prefix value plus the value of the continuation bytes. -/
def rfc_integer_value (n : Nat) : List Nat → Nat
  | [] => 0
  | b :: bs => (b &&& (2 ^ n - 1)) + rfc_continuation_value bs

/-- Reference: the size of an entry, `len(name) + len(value) + 32`. -/
def entry_size (f : MIMEField) : Nat := f.name.length + f.value.length + 32

/-- Reference: the sum of the sizes of the entries of a list. -/
def entries_size (hs : List MIMEField) : Nat := (hs.map entry_size).sum

/-- Reference: the wire form of a string without Huffman coding (RFC 7541
section 5.2): the length on a 7-bit prefix with the bit `H` clear, then the
bytes of the string. -/
def rfc_encode_string (s : List Nat) : List Nat := rfc_encode_integer s.length 7 ++ s

/-- Reference: an integer on an `n`-bit prefix whose first byte carries the
pattern `flag` in its high bits. -/
def rfc_encode_flagged_integer (flag value n : Nat) : List Nat :=
  match rfc_encode_integer value n with
  | [] => []
  | b :: bs => (b ||| flag) :: bs

/-- Reference: the indexed header field representation (RFC 7541 section 6.1):
the index on a 7-bit prefix, with the bit 0x80 of the first byte set. -/
def rfc_indexed_header_field (index : Nat) : List Nat := rfc_encode_flagged_integer 0x80 index 7

/-- Reference: the pattern and the prefix width of the three literal
representations (RFC 7541 section 6.2): `01` and 6 bits with incremental
indexing, `0000` and 4 bits without indexing, `0001` and 4 bits never indexed. -/
def rfc_literal_pattern : HEADER_INDEXING_TYPE → Nat × Nat
  | .INC_INDEXING => (0x40, 6)
  | .WITHOUT_INDEXING => (0x00, 4)
  | .NEVER_INDEXED => (0x10, 4)

/-- Reference: a literal header field with an indexed name (RFC 7541 section
6.2): the name index on the prefix of the representation, then the value as a
string. -/
def rfc_literal_indexed_name (type : HEADER_INDEXING_TYPE) (index : Nat) (value : List Nat) :
    List Nat :=
  rfc_encode_flagged_integer (rfc_literal_pattern type).1 index (rfc_literal_pattern type).2 ++
    rfc_encode_string value

/-- Reference: a literal header field with a new name (RFC 7541 section 6.2):
the pattern with index 0, then the name and the value as strings. -/
def rfc_literal_new_name (type : HEADER_INDEXING_TYPE) (name value : List Nat) : List Nat :=
  (rfc_literal_pattern type).1 :: (rfc_encode_string name ++ rfc_encode_string value)

/-- Reference: the static table of RFC 7541 Appendix A, entries 1 to 61 in
order (the entry of index `i` is at position `i - 1`). -/
def rfc7541_appendix_a : List (String × String) :=
  [ (":authority", ""),
    (":method", "GET"),
    (":method", "POST"),
    (":path", "/"),
    (":path", "/index.html"),
    (":scheme", "http"),
    (":scheme", "https"),
    (":status", "200"),
    (":status", "204"),
    (":status", "206"),
    (":status", "304"),
    (":status", "400"),
    (":status", "404"),
    (":status", "500"),
    ("accept-charset", ""),
    ("accept-encoding", "gzip, deflate"),
    ("accept-language", ""),
    ("accept-ranges", ""),
    ("accept", ""),
    ("access-control-allow-origin", ""),
    ("age", ""),
    ("allow", ""),
    ("authorization", ""),
    ("cache-control", ""),
    ("content-disposition", ""),
    ("content-encoding", ""),
    ("content-language", ""),
    ("content-length", ""),
    ("content-location", ""),
    ("content-range", ""),
    ("content-type", ""),
    ("cookie", ""),
    ("date", ""),
    ("etag", ""),
    ("expect", ""),
    ("expires", ""),
    ("from", ""),
    ("host", ""),
    ("if-match", ""),
    ("if-modified-since", ""),
    ("if-none-match", ""),
    ("if-range", ""),
    ("if-unmodified-since", ""),
    ("last-modified", ""),
    ("link", ""),
    ("location", ""),
    ("max-forwards", ""),
    ("proxy-authenticate", ""),
    ("proxy-authorization", ""),
    ("range", ""),
    ("referer", ""),
    ("refresh", ""),
    ("retry-after", ""),
    ("server", ""),
    ("set-cookie", ""),
    ("strict-transport-security", ""),
    ("transfer-encoding", ""),
    ("user-agent", ""),
    ("vary", ""),
    ("via", ""),
    ("www-authenticate", "") ]

/-- Reference: the dynamic table size update (RFC 7541 section 6.3): the new
maximum size on a 5-bit prefix, under the pattern `001`. -/
def rfc_table_size_update (max_size : Nat) : List Nat := rfc_encode_flagged_integer 0x20 max_size 5

/-! ## Lemmas on memory and on the reference encoding -/

theorem store_same (mem : Mem) (p v : Nat) : store mem p v p = v := by
  simp [store]

theorem store_other (mem : Mem) (p v a : Nat) (h : a ≠ p) : store mem p v a = mem a := by
  simp [store, h]

theorem bytesAt_zero (mem : Mem) (p : Nat) : bytesAt mem p 0 = [] := by
  simp [bytesAt]

theorem bytesAt_length (mem : Mem) (p k : Nat) : (bytesAt mem p k).length = k := by
  simp [bytesAt]

theorem bytesAt_succ (mem : Mem) (p k : Nat) :
    bytesAt mem p (k + 1) = mem p :: bytesAt mem (p + 1) k := by
  unfold bytesAt
  rw [List.range_succ_eq_map]
  simp only [List.map_cons, List.map_map, Nat.add_zero]
  congr 1
  apply List.map_congr_left
  intro i _
  simp only [Function.comp_apply]
  congr 1
  omega

theorem bytesAt_snoc (mem : Mem) (p k : Nat) :
    bytesAt mem p (k + 1) = bytesAt mem p k ++ [mem (p + k)] := by
  unfold bytesAt
  rw [List.range_succ, List.map_append]
  rfl

theorem bytesAt_congr (mem mem' : Mem) (p k : Nat)
    (h : ∀ a, p ≤ a → a < p + k → mem' a = mem a) : bytesAt mem' p k = bytesAt mem p k := by
  unfold bytesAt
  apply List.map_congr_left
  intro i hi
  rw [List.mem_range] at hi
  exact h (p + i) (by omega) (by omega)

theorem rfc_digits_eq (v : Nat) :
    rfc_digits v = if v ≥ 128 then ((v % 128) ||| 0x80) :: rfc_digits (v / 128) else [v] := by
  rw [rfc_digits]

theorem rfc_digits_length_pos (v : Nat) : 0 < (rfc_digits v).length := by
  rw [rfc_digits_eq]
  split <;> simp

theorem and_127 (v : Nat) : v &&& 0x7F = v % 128 :=
  Nat.and_pow_two_sub_one_eq_mod v 7

theorem shr_7 (v : Nat) : v >>> 7 = v / 128 := by
  rw [Nat.shiftRight_eq_div_pow]

/-- What the loop of `encode_integer` leaves when it does not return -1. -/
theorem encode_integer_loop_some (buf_end : Nat) :
    ∀ (fuel : Nat) (mem : Mem) (p v : Nat), v ≤ fuel →
      ∀ (mem' : Mem) (p' v' : Nat),
        encode_integer_loop buf_end fuel mem p v = (mem', some (p', v')) →
        p ≤ p' ∧ v' < 128 ∧ (p < p' → p' ≤ buf_end) ∧
        (∀ a, a < p ∨ p' ≤ a → mem' a = mem a) ∧
        rfc_digits v = bytesAt mem' p (p' - p) ++ [v'] := by
  intro fuel
  induction fuel with
  | zero =>
    intro mem p v hv mem' p' v' h
    simp only [encode_integer_loop, Prod.mk.injEq, Option.some.injEq] at h
    obtain ⟨rfl, rfl, rfl⟩ := h
    have : v = 0 := by omega
    subst this
    refine ⟨le_refl _, by omega, by omega, fun _ _ => rfl, ?_⟩
    rw [rfc_digits_eq]; simp [bytesAt_zero]
  | succ fuel ih =>
    intro mem p v hv mem' p' v' h
    rw [encode_integer_loop] at h
    by_cases h128 : v ≥ 128
    · rw [if_pos h128] at h
      by_cases hp : p ≥ buf_end
      · rw [if_pos hp] at h
        simp at h
      · rw [if_neg hp] at h
        have hv' : v >>> 7 ≤ fuel := by rw [shr_7]; omega
        obtain ⟨h1, h2, h3, h4, h5⟩ := ih _ _ _ hv' _ _ _ h
        refine ⟨by omega, h2, fun _ => ?_, ?_, ?_⟩
        · by_cases hpp : p + 1 < p'
          · exact h3 hpp
          · omega
        · intro a ha
          rw [h4 a (by omega), store_other]
          omega
        · rw [rfc_digits_eq, if_pos h128]
          have hk : p' - p = (p' - (p + 1)) + 1 := by omega
          rw [hk, bytesAt_succ, h4 p (by omega), store_same, and_127, ← shr_7, h5]
          rfl
    · rw [if_neg h128] at h
      simp only [Prod.mk.injEq, Option.some.injEq] at h
      obtain ⟨rfl, rfl, rfl⟩ := h
      refine ⟨le_refl _, by omega, by omega, fun _ _ => rfl, ?_⟩
      rw [rfc_digits_eq, if_neg h128]; simp [bytesAt_zero]

/-- The loop of `encode_integer` returns -1 exactly when the continuation bytes
before the last one do not fit between `p` and `buf_end`. -/
theorem encode_integer_loop_none (buf_end : Nat) :
    ∀ (fuel : Nat) (mem : Mem) (p v : Nat), v ≤ fuel →
      ((encode_integer_loop buf_end fuel mem p v).2 = none ↔
        (1 < (rfc_digits v).length ∧ buf_end < p + ((rfc_digits v).length - 1))) := by
  intro fuel
  induction fuel with
  | zero =>
    intro mem p v hv
    have : v = 0 := by omega
    subst this
    rw [rfc_digits_eq]
    simp [encode_integer_loop]
  | succ fuel ih =>
    intro mem p v hv
    rw [encode_integer_loop, rfc_digits_eq]
    by_cases h128 : v ≥ 128
    · rw [if_pos h128, if_pos h128]
      have hpos := rfc_digits_length_pos (v / 128)
      by_cases hp : p ≥ buf_end
      · rw [if_pos hp]
        simp only [List.length_cons, true_iff]
        omega
      · rw [if_neg hp]
        have hv' : v >>> 7 ≤ fuel := by rw [shr_7]; omega
        rw [ih _ _ _ hv', shr_7]
        simp only [List.length_cons]
        omega
    · rw [if_neg h128, if_neg h128]
      simp

theorem rfc_encode_integer_length (value n : Nat) :
    (rfc_encode_integer value n).length =
      if value < 2 ^ n - 1 then 1 else 1 + (rfc_digits (value - (2 ^ n - 1))).length := by
  unfold rfc_encode_integer
  split <;> simp [Nat.add_comm]

theorem pow_le_256 (n : Nat) (hn : n ≤ 8) : 2 ^ n ≤ 256 := by
  calc 2 ^ n ≤ 2 ^ 8 := Nat.pow_le_pow_right (by decide) hn
    _ = 256 := by norm_num

/-- The result of `encode_integer` on a buffer whose first byte is zero, in
terms of the reference encoding: when it succeeds and when it fails. -/
theorem encode_integer_spec (mem : Mem) (buf_start buf_end value n : Nat) (hn : n ≤ 8)
    (h0 : mem buf_start = 0) :
    let r := encode_integer mem buf_start buf_end value n
    let enc := rfc_encode_integer value n
    (r.1 = -1 ↔ (buf_end ≤ buf_start ∨ (2 ^ n - 1 ≤ value ∧ buf_end ≤ buf_start + enc.length))) ∧
    (r.1 ≠ -1 → r.1 = enc.length ∧ bytesAt r.2 buf_start enc.length = enc ∧
      (∀ a, a < buf_start ∨ buf_start + enc.length ≤ a → r.2 a = mem a)) := by
  intro r enc
  have h256 := pow_le_256 n hn
  have hpos : 0 < 2 ^ n := Nat.pow_pos (by decide)
  have hlen := rfc_encode_integer_length value n
  by_cases hb : buf_start ≥ buf_end
  · have hr : r = (-1, mem) := by
      show encode_integer mem buf_start buf_end value n = _
      unfold encode_integer
      rw [if_pos hb]
    rw [hr]
    simp only [true_iff, ne_eq, not_true_eq_false, false_implies, and_true]
    left; omega
  · by_cases hv : value < 2 ^ n - 1
    · have hr : r = (((buf_start + 1 : Nat) : Int) - buf_start, store mem buf_start value) := by
        show encode_integer mem buf_start buf_end value n = _
        unfold encode_integer
        rw [if_neg hb, Nat.one_shiftLeft]
        simp only [hv, if_true, h0, Nat.zero_or]
        rw [Nat.mod_eq_of_lt (by omega)]
      have henc : enc = [value] := by
        show rfc_encode_integer value n = _
        unfold rfc_encode_integer
        rw [if_pos hv]
      rw [hr, henc]
      simp only [List.length_singleton]
      refine ⟨?_, fun _ => ⟨?_, ?_, ?_⟩⟩
      · constructor
        · intro h; push_cast at h; omega
        · intro h; omega
      · push_cast; omega
      · rw [bytesAt_succ, bytesAt_zero, store_same]
      · intro a ha
        rw [store_other]; omega
    · -- the value does not fit the prefix
      have henc : enc = (2 ^ n - 1) :: rfc_digits (value - (2 ^ n - 1)) := by
        show rfc_encode_integer value n = _
        unfold rfc_encode_integer
        rw [if_neg hv]
      have hr : r =
          match encode_integer_loop buf_end (value - (2 ^ n - 1))
              (store mem buf_start (2 ^ n - 1)) (buf_start + 1) (value - (2 ^ n - 1)) with
          | (mem, none) => (-1, mem)
          | (mem, some (p, value)) =>
            if p + 1 ≥ buf_end then (-1, mem)
            else (((p + 1 : Nat) : Int) - buf_start, store mem p value) := by
        show encode_integer mem buf_start buf_end value n = _
        unfold encode_integer
        rw [if_neg hb, Nat.one_shiftLeft]
        simp only [hv, if_false, h0, Nat.zero_or]
        rw [Nat.mod_eq_of_lt (by omega)]
      generalize hloop : encode_integer_loop buf_end (value - (2 ^ n - 1))
              (store mem buf_start (2 ^ n - 1)) (buf_start + 1) (value - (2 ^ n - 1)) = res at hr
      have hnone := encode_integer_loop_none buf_end _ (store mem buf_start (2 ^ n - 1))
        (buf_start + 1) _ (le_refl (value - (2 ^ n - 1)))
      rw [hloop] at hnone
      have hdpos := rfc_digits_length_pos (value - (2 ^ n - 1))
      rw [henc]
      simp only [List.length_cons]
      obtain ⟨mem1, o⟩ := res
      cases o with
      | none =>
        simp only at hr
        rw [hr]
        simp only [true_iff, ne_eq, not_true_eq_false, false_implies, and_true]
        have := hnone.mp rfl
        right; omega
      | some pv =>
        obtain ⟨p', v'⟩ := pv
        simp only at hr
        have hno : ¬ (1 < (rfc_digits (value - (2 ^ n - 1))).length ∧
            buf_end < buf_start + 1 + ((rfc_digits (value - (2 ^ n - 1))).length - 1)) := by
          intro h
          have := hnone.mpr h
          simp at this
        obtain ⟨h1, h2, h3, h4, h5⟩ := encode_integer_loop_some buf_end _ _ _ _
          (le_refl (value - (2 ^ n - 1))) _ _ _ hloop
        have hdl : (rfc_digits (value - (2 ^ n - 1))).length = p' - (buf_start + 1) + 1 := by
          rw [h5]; simp [bytesAt_length]
        by_cases hp : p' + 1 ≥ buf_end
        · rw [if_pos hp] at hr
          rw [hr]
          simp only [true_iff, ne_eq, not_true_eq_false, false_implies, and_true]
          right; omega
        · rw [if_neg hp] at hr
          rw [hr]
          refine ⟨?_, fun _ => ⟨?_, ?_, ?_⟩⟩
          · constructor
            · intro h; push_cast at h; omega
            · intro h; omega
          · simp only; rw [hdl]; push_cast; omega
          · simp only
            rw [bytesAt_succ, store_other _ _ _ _ (by omega), h4 _ (by omega), store_same]
            congr 1
            rw [hdl, bytesAt_snoc, h5]
            congr 1
            · apply bytesAt_congr
              intro a _ _
              rw [store_other]; omega
            · have : buf_start + 1 + (p' - (buf_start + 1)) = p' := by omega
              rw [this, store_same]
          · intro a ha
            simp only
            rw [hdl] at ha
            rw [store_other _ _ _ _ (by omega), h4 _ (by omega), store_other _ _ _ _ (by omega)]

theorem byte_bits : ∀ b, b < 128 →
    (b ||| 0x80) &&& 0x7f = b ∧ (b ||| 0x80) &&& 0x80 ≠ 0 ∧ b &&& 0x7f = b ∧ b &&& 0x80 = 0 := by
  decide

theorem le_shiftRight_of_mul_lt (a m : Nat) (h : a * 2 ^ m < 2 ^ 32) :
    ¬ (UINT32_MAX >>> m) < a := by
  rw [Nat.shiftRight_eq_div_pow, not_lt, Nat.le_div_iff_mul_le (Nat.pow_pos (by decide))]
  unfold UINT32_MAX
  omega

/-- The loop of `decode_integer` on the reference continuation bytes of `v`:
it stops on the last of them with `dst + v * 2 ^ m`, as long as that fits 32
bits. -/
theorem decode_integer_loop_digits (mem : Mem) (buf_end : Nat) :
    ∀ (v fuel p dst m : Nat),
      bytesAt mem (p + 1) (rfc_digits v).length = rfc_digits v →
      dst + v * 2 ^ m < 2 ^ 32 →
      p + (rfc_digits v).length < buf_end →
      (rfc_digits v).length ≤ fuel →
      decode_integer_loop mem buf_end fuel p dst m =
        (some (p + (rfc_digits v).length), dst + v * 2 ^ m) := by
  intro v
  induction v using Nat.strong_induction_on with
  | _ v ih =>
    intro fuel p dst m hb hd hp hf
    have hpos := rfc_digits_length_pos v
    obtain ⟨fuel, rfl⟩ : ∃ f, fuel = f + 1 := ⟨fuel - 1, by omega⟩
    rw [rfc_digits_eq] at hb hp hf ⊢
    by_cases h128 : v ≥ 128
    · simp only [if_pos h128, List.length_cons] at hb hp hf ⊢
      rw [bytesAt_succ] at hb
      injection hb with hb1 hb2
      have hlt : v % 128 < 128 := Nat.mod_lt _ (by decide)
      obtain ⟨e1, e2, -, -⟩ := byte_bits _ hlt
      have hdm := Nat.div_add_mod v 128
      have hmul : v * 2 ^ m = v % 128 * 2 ^ m + v / 128 * 2 ^ (m + 7) := by
        conv_lhs => rw [← hdm]
        rw [pow_add]; ring
      have hle : v % 128 * 2 ^ m < 2 ^ 32 := by omega
      rw [decode_integer_loop]
      simp only
      have hmod : (dst + v % 128 * 2 ^ m) % 2 ^ 32 = dst + v % 128 * 2 ^ m :=
        Nat.mod_eq_of_lt (by omega)
      rw [if_neg (by omega), hb1, e1, if_neg (le_shiftRight_of_mul_lt _ _ hle), if_pos e2,
        Nat.shiftLeft_eq, hmod]
      rw [ih (v / 128) (by omega) fuel (p + 1) (dst + v % 128 * 2 ^ m) (m + 7) hb2 (by omega)
        (by omega) (by omega)]
      have e : p + 1 + (rfc_digits (v / 128)).length = p + ((rfc_digits (v / 128)).length + 1) := by
        omega
      rw [e, hmul, Nat.add_assoc]
    · simp only [if_neg h128, List.length_singleton] at hb hp hf ⊢
      rw [bytesAt_succ] at hb
      injection hb with hb1 hb2
      obtain ⟨-, -, e3, e4⟩ := byte_bits v (by omega)
      have hle : v * 2 ^ m < 2 ^ 32 := by omega
      rw [decode_integer_loop]
      simp only
      have hmod : (dst + v * 2 ^ m) % 2 ^ 32 = dst + v * 2 ^ m := Nat.mod_eq_of_lt hd
      rw [if_neg (by omega), hb1, e3, if_neg (le_shiftRight_of_mul_lt _ _ hle), e4,
        Nat.shiftLeft_eq, hmod]
      simp

/-- Decoding the reference encoding: `decode_integer` over a buffer that holds
exactly the reference encoding of a 32-bit `value` returns its length and
`value`. -/
theorem decode_integer_rfc (mem : Mem) (buf_start value n : Nat) (hn1 : 1 ≤ n) (hn8 : n ≤ 8)
    (hv : value < 2 ^ 32)
    (hb : bytesAt mem buf_start (rfc_encode_integer value n).length = rfc_encode_integer value n) :
    decode_integer mem buf_start (buf_start + (rfc_encode_integer value n).length) n =
      (((rfc_encode_integer value n).length : Int), value) := by
  have h256 := pow_le_256 n hn8
  have hpos : 1 < 2 ^ n := Nat.one_lt_two_pow (by omega)
  unfold rfc_encode_integer at hb ⊢
  simp only [decode_integer, Nat.one_shiftLeft, Nat.and_pow_two_sub_one_eq_mod]
  by_cases hlt : value < 2 ^ n - 1
  · simp only [if_pos hlt, List.length_singleton] at hb ⊢
    rw [bytesAt_succ] at hb
    injection hb with hb1 _
    rw [hb1, Nat.mod_eq_of_lt (by omega)]
    rw [if_neg (by omega)]
    simp
  · simp only [if_neg hlt, List.length_cons] at hb ⊢
    rw [bytesAt_succ] at hb
    injection hb with hb1 hb2
    rw [hb1]
    have hm : (2 ^ n - 1) % 2 ^ n = 2 ^ n - 1 := Nat.mod_eq_of_lt (by omega)
    simp only [hm, if_true]
    rw [decode_integer_loop_digits mem _ (value - (2 ^ n - 1)) _ buf_start (2 ^ n - 1) 0 hb2
      (by simp; omega) (by omega) (by omega)]
    simp only [pow_zero, mul_one]
    congr 1
    · push_cast; omega
    · omega

/-! ## Lemmas on the dynamic table -/

theorem header_size_eq (f : MIMEField) (h : entry_size f < 2 ^ 32) :
    header_size f = entry_size f := by
  unfold header_size entry_size ADDITIONAL_OCTETS at *
  rw [Nat.mod_eq_of_lt (by omega)]
  omega

theorem entries_size_nil : entries_size [] = 0 := rfl

theorem entries_size_append (a b : List MIMEField) :
    entries_size (a ++ b) = entries_size a + entries_size b := by
  simp [entries_size]

theorem entries_size_singleton (f : MIMEField) : entries_size [f] = entry_size f := by
  simp [entries_size]

theorem entry_size_pos (f : MIMEField) : 0 < entry_size f := by
  unfold entry_size; omega

/-- The eviction loop on a size variable that is the sum of the entries' sizes
plus `s`, with `s` within the limit: it keeps the longest prefix (newest
entries) whose sizes plus `s` stay within the limit, and never reads the last
entry of an empty list. -/
theorem evict_loop_accounted (limit s : Nat) (hs : s ≤ limit) :
    ∀ (fuel : Nat) (headers : List MIMEField) (size : Nat),
      fuel = headers.length → size = entries_size headers + s → size < 2 ^ 32 →
      ∃ k, k ≤ headers.length ∧
        evict_loop limit fuel headers size =
          some (headers.take k, entries_size (headers.take k) + s) ∧
        entries_size (headers.take k) + s ≤ limit ∧
        ∀ j, j ≤ headers.length → entries_size (headers.take j) + s ≤ limit → j ≤ k := by
  intro fuel
  induction fuel with
  | zero =>
    intro headers size hlen hsize _
    have hnil : headers = [] := List.length_eq_zero.mp hlen.symm
    subst hnil
    rw [entries_size_nil] at hsize
    refine ⟨0, le_refl _, ?_, ?_, ?_⟩
    · rw [evict_loop, if_neg (by omega)]
      simp [entries_size_nil, hsize]
    · simp [entries_size_nil]; exact hs
    · intro j hj _; simpa using hj
  | succ fuel ih =>
    intro headers size hlen hsize h32
    have hne : headers ≠ [] := by
      intro h; rw [h] at hlen; simp at hlen
    by_cases hgt : size > limit
    · have hsplit := List.dropLast_append_getLast hne
      have hlast : headers.getLast? = some (headers.getLast hne) := List.getLast?_eq_getLast _ hne
      have hes : entries_size headers =
          entries_size headers.dropLast + entry_size (headers.getLast hne) := by
        conv_lhs => rw [← hsplit]
        rw [entries_size_append, entries_size_singleton]
      have hhs : header_size (headers.getLast hne) = entry_size (headers.getLast hne) :=
        header_size_eq _ (by omega)
      have hsize' : (size + 2 ^ 32 - header_size (headers.getLast hne)) % 2 ^ 32 =
          entries_size headers.dropLast + s := by
        rw [hhs]
        have : size + 2 ^ 32 - entry_size (headers.getLast hne) =
            entries_size headers.dropLast + s + 2 ^ 32 := by omega
        rw [this, Nat.add_mod_right, Nat.mod_eq_of_lt (by omega)]
      have hdl : headers.dropLast.length = fuel := by
        rw [List.length_dropLast]; omega
      obtain ⟨k, hk, hev, hfit, hmax⟩ := ih headers.dropLast _ hdl.symm rfl (by omega)
      have htake : ∀ j, j ≤ headers.dropLast.length →
          headers.take j = headers.dropLast.take j := by
        intro j hj
        conv_lhs => rw [← hsplit]
        rw [List.take_append_of_le_length hj]
      refine ⟨k, by omega, ?_, ?_, ?_⟩
      · rw [evict_loop, if_pos hgt, hlast]
        simp only
        rw [hsize', hev, htake k hk]
      · rw [htake k hk]; exact hfit
      · intro j hj hjfit
        by_cases hjl : j ≤ headers.dropLast.length
        · rw [htake j hjl] at hjfit
          exact hmax j hjl hjfit
        · exfalso
          have : j = headers.length := by omega
          rw [this, List.take_length] at hjfit
          omega
    · refine ⟨headers.length, le_refl _, ?_, ?_, ?_⟩
      · rw [evict_loop, if_neg hgt, List.take_length, hsize]
      · rw [List.take_length]; omega
      · intro j hj _; exact hj

theorem header_size_replicate (k c : Nat) (h : 32 + k < 2 ^ 32) :
    header_size ⟨List.replicate k c, []⟩ = 32 + k := by
  simp only [header_size, ADDITIONAL_OCTETS, List.length_replicate, List.length_nil,
    Nat.add_zero]
  exact Nat.mod_eq_of_lt h

/-- The oversize branch of `add_header_field`. -/
theorem add_header_field_of_gt (t : Http2HeaderTable) (field : MIMEField) (s : Nat)
    (hs : header_size field = s) (h : s > t._settings_header_table_size) :
    add_header_field t field = some ⟨[], t._current_size, t._settings_header_table_size⟩ := by
  unfold add_header_field
  simp only
  rw [hs, if_pos h]

/-- A field that fits is added to a table without entries when no eviction is
called for. -/
theorem add_header_field_empty (cur max s : Nat) (field : MIMEField)
    (hs : header_size field = s) (h : s ≤ max) (hc : (cur + s) % 2 ^ 32 ≤ max) :
    add_header_field ⟨[], cur, max⟩ field = some ⟨[field], (cur + s) % 2 ^ 32, max⟩ := by
  unfold add_header_field
  simp only
  rw [hs, if_neg (by omega)]
  simp only [List.length_nil, evict_loop]
  rw [if_neg (by omega)]

/-- One round of the loop of `set_header_table_size` on a table with a single
entry. -/
theorem set_header_table_size_single (cur max new_size s : Nat) (field : MIMEField)
    (hs : header_size field = s) (h : max > new_size)
    (hc : (max + 2 ^ 32 - s) % 2 ^ 32 ≤ new_size) :
    set_header_table_size ⟨[field], cur, max⟩ new_size = some ⟨[], cur, new_size⟩ := by
  unfold set_header_table_size
  simp only [List.length_singleton, evict_loop]
  rw [if_pos h]
  simp only [List.getLast?_singleton, List.dropLast_single]
  rw [hs, if_neg (by omega)]

/-! ## The loop counters are never exhausted -/

/-- The loop of `encode_integer` does not depend on its counter once the counter
is at least `value`. -/
theorem encode_integer_loop_counter (buf_end : Nat) :
    ∀ (fuel fuel' : Nat) (mem : Mem) (p value : Nat), value ≤ fuel → value ≤ fuel' →
      encode_integer_loop buf_end fuel mem p value =
        encode_integer_loop buf_end fuel' mem p value := by
  intro fuel
  induction fuel with
  | zero =>
    intro fuel' mem p value h _
    have hv : value = 0 := by omega
    subst hv
    cases fuel' with
    | zero => rfl
    | succ f => simp [encode_integer_loop]
  | succ fuel ih =>
    intro fuel' mem p value h h'
    cases fuel' with
    | zero =>
      have hv : value = 0 := by omega
      subst hv
      simp [encode_integer_loop]
    | succ f =>
      rw [encode_integer_loop, encode_integer_loop]
      by_cases h128 : value ≥ 128
      · rw [if_pos h128, if_pos h128]
        by_cases hp : p ≥ buf_end
        · rw [if_pos hp, if_pos hp]
        · rw [if_neg hp, if_neg hp]
          have hs : value >>> 7 < value := by rw [shr_7]; omega
          exact ih f _ _ _ (by omega) (by omega)
      · rw [if_neg h128, if_neg h128]

/-- The loop of `decode_integer` does not depend on its counter once the counter
is at least the distance from `p` to `buf_end`. -/
theorem decode_integer_loop_counter (mem : Mem) (buf_end : Nat) :
    ∀ (fuel fuel' p dst m : Nat), buf_end - p ≤ fuel → buf_end - p ≤ fuel' →
      decode_integer_loop mem buf_end fuel p dst m =
        decode_integer_loop mem buf_end fuel' p dst m := by
  intro fuel
  induction fuel with
  | zero =>
    intro fuel' p dst m h _
    cases fuel' with
    | zero => rfl
    | succ f =>
      rw [decode_integer_loop, decode_integer_loop]
      simp only
      rw [if_pos (by omega)]
  | succ fuel ih =>
    intro fuel' p dst m h h'
    cases fuel' with
    | zero =>
      rw [decode_integer_loop, decode_integer_loop]
      simp only
      rw [if_pos (by omega)]
    | succ f =>
      rw [decode_integer_loop, decode_integer_loop]
      simp only
      by_cases hp : p + 1 ≥ buf_end
      · rw [if_pos hp, if_pos hp]
      · rw [if_neg hp, if_neg hp]
        split
        · rfl
        · split
          · exact ih f _ _ _ (by omega) (by omega)
          · rfl

/-- The eviction loop does not depend on its counter once the counter is at
least the number of entries. -/
theorem evict_loop_counter (limit : Nat) :
    ∀ (fuel fuel' : Nat) (headers : List MIMEField) (size : Nat),
      headers.length ≤ fuel → headers.length ≤ fuel' →
      evict_loop limit fuel headers size = evict_loop limit fuel' headers size := by
  intro fuel
  induction fuel with
  | zero =>
    intro fuel' headers size h _
    have hnil : headers = [] := List.length_eq_zero.mp (by omega)
    subst hnil
    cases fuel' with
    | zero => rfl
    | succ f =>
      rw [evict_loop, evict_loop]
      split <;> simp
  | succ fuel ih =>
    intro fuel' headers size h h'
    cases fuel' with
    | zero =>
      have hnil : headers = [] := List.length_eq_zero.mp (by omega)
      subst hnil
      rw [evict_loop, evict_loop]
      split <;> simp
    | succ f =>
      rw [evict_loop, evict_loop]
      split
      · cases hl : headers.getLast? with
        | none => rfl
        | some last_field =>
          simp only
          apply ih
          · rw [List.length_dropLast]; omega
          · rw [List.length_dropLast]; omega
      · rfl

/-! ## The integer codec: round trip, reference encoding, overflow -/

theorem rfc_digits_length_le : ∀ (k v : Nat), v < 128 ^ (k + 1) → (rfc_digits v).length ≤ k + 1 := by
  intro k
  induction k with
  | zero =>
    intro v hv
    rw [rfc_digits_eq, if_neg (by omega)]
    simp
  | succ k ih =>
    intro v hv
    rw [rfc_digits_eq]
    split
    · have : v / 128 < 128 ^ (k + 1) := by
        rw [Nat.div_lt_iff_lt_mul (by decide)]
        rw [pow_succ] at hv
        exact hv
      have := ih _ this
      simp only [List.length_cons]
      omega
    · simp

theorem rfc_encode_integer_length_le (value n : Nat) (hv : value < 2 ^ 32) :
    (rfc_encode_integer value n).length ≤ 6 := by
  rw [rfc_encode_integer_length]
  split
  · omega
  · have := rfc_digits_length_le 4 (value - (2 ^ n - 1)) (by norm_num; omega)
    omega

/-- C1 (integer round trip). For a prefix width `n` in 1..8, a value below
`2 ^ 32` and a zero-filled buffer: `encode_integer` succeeds when the buffer has
at least 7 bytes, and whenever it succeeds with length `len`, `decode_integer`
over exactly the `len` bytes written, with the same `n`, returns `len` as the
consumed length and the value that was encoded. -/
theorem integer_round_trip (mem : Mem) (buf_start buf_end value n : Nat)
    (hn1 : 1 ≤ n) (hn8 : n ≤ 8) (hv : value < 2 ^ 32)
    (hzero : ∀ a, buf_start ≤ a → a < buf_end → mem a = 0) :
    (buf_start + 6 < buf_end → (encode_integer mem buf_start buf_end value n).1 ≠ -1) ∧
    ∀ len : Nat, (encode_integer mem buf_start buf_end value n).1 = (len : Int) →
      decode_integer (encode_integer mem buf_start buf_end value n).2 buf_start
        (buf_start + len) n = ((len : Int), value) := by
  have hle := rfc_encode_integer_length_le value n hv
  by_cases hb : buf_start < buf_end
  · obtain ⟨hfail, hok⟩ :=
      encode_integer_spec mem buf_start buf_end value n hn8 (hzero _ (le_refl _) hb)
    refine ⟨fun hroom hneg => ?_, fun len hlen => ?_⟩
    · have := hfail.mp hneg
      omega
    · have hne : (encode_integer mem buf_start buf_end value n).1 ≠ -1 := by
        rw [hlen]; omega
      obtain ⟨h1, h2, -⟩ := hok hne
      have hl : len = (rfc_encode_integer value n).length := by
        rw [hlen] at h1; exact_mod_cast h1
      rw [hl]
      exact decode_integer_rfc _ buf_start value n hn1 hn8 hv h2
  · have hr : encode_integer mem buf_start buf_end value n = (-1, mem) := by
      unfold encode_integer
      rw [if_pos (by omega)]
    rw [hr]
    refine ⟨fun hroom => by omega, fun len hlen => ?_⟩
    simp only at hlen
    omega

/-- Witness of C1: the value 1337 with a 5-bit prefix in a zero-filled buffer of
128 bytes. -/
theorem integer_round_trip_witness :
    (encode_integer (fun _ => 0) 0 128 1337 5).1 = 3 ∧
    decode_integer (encode_integer (fun _ => 0) 0 128 1337 5).2 0 (0 + 3) 5 = (3, 1337) :=
  ⟨by decide,
    (integer_round_trip (fun _ => 0) 0 128 1337 5 (by decide) (by decide) (by decide)
      (fun _ _ _ => rfl)).2 3 (by decide)⟩

/-- C2 (encode_integer is the RFC 7541 prefix-integer encoding). For `n` in
1..8, a value below `2 ^ 32` and a zero-filled buffer: `encode_integer` succeeds
when the buffer has at least one byte more than the reference encoding, and
whenever it succeeds it returns the length of the reference encoding
`rfc_encode_integer value n` and has written exactly its bytes. -/
theorem encode_integer_refines_rfc (mem : Mem) (buf_start buf_end value n : Nat)
    (_hn1 : 1 ≤ n) (hn8 : n ≤ 8) (_hv : value < 2 ^ 32)
    (hzero : ∀ a, buf_start ≤ a → a < buf_end → mem a = 0) :
    (buf_start + (rfc_encode_integer value n).length < buf_end →
      (encode_integer mem buf_start buf_end value n).1 ≠ -1) ∧
    ((encode_integer mem buf_start buf_end value n).1 ≠ -1 →
      (encode_integer mem buf_start buf_end value n).1 =
        ((rfc_encode_integer value n).length : Int) ∧
      bytesAt (encode_integer mem buf_start buf_end value n).2 buf_start
        (rfc_encode_integer value n).length = rfc_encode_integer value n) := by
  by_cases hb : buf_start < buf_end
  · obtain ⟨hfail, hok⟩ :=
      encode_integer_spec mem buf_start buf_end value n hn8 (hzero _ (le_refl _) hb)
    refine ⟨fun hroom hneg => ?_, fun hne => ?_⟩
    · have := hfail.mp hneg
      omega
    · obtain ⟨h1, h2, -⟩ := hok hne
      exact ⟨h1, h2⟩
  · have hr : encode_integer mem buf_start buf_end value n = (-1, mem) := by
      unfold encode_integer
      rw [if_pos (by omega)]
    rw [hr]
    refine ⟨fun hroom => by omega, fun hne => ?_⟩
    simp at hne

/-- Witness of C2: the three examples of the regression test (10 and 1337 with a
5-bit prefix, 42 with an 8-bit prefix) in a zero-filled buffer of 128 bytes. -/
theorem encode_integer_refines_rfc_witness :
    (rfc_encode_integer 10 5 = [0x0A] ∧
      bytesAt (encode_integer (fun _ => 0) 0 128 10 5).2 0 (rfc_encode_integer 10 5).length =
        rfc_encode_integer 10 5) ∧
    (rfc_encode_integer 1337 5 = [0x1F, 0x9A, 0x0A] ∧
      bytesAt (encode_integer (fun _ => 0) 0 128 1337 5).2 0 (rfc_encode_integer 1337 5).length =
        rfc_encode_integer 1337 5) ∧
    (rfc_encode_integer 42 8 = [0x2A] ∧
      bytesAt (encode_integer (fun _ => 0) 0 128 42 8).2 0 (rfc_encode_integer 42 8).length =
        rfc_encode_integer 42 8) :=
  ⟨⟨by simp [rfc_encode_integer],
      ((encode_integer_refines_rfc (fun _ => 0) 0 128 10 5 (by decide) (by decide) (by decide)
        (fun _ _ _ => rfl)).2 (by decide)).2⟩,
    ⟨by simp [rfc_encode_integer, rfc_digits],
      ((encode_integer_refines_rfc (fun _ => 0) 0 128 1337 5 (by decide) (by decide) (by decide)
        (fun _ _ _ => rfl)).2 (by decide)).2⟩,
    ⟨by simp [rfc_encode_integer],
      ((encode_integer_refines_rfc (fun _ => 0) 0 128 42 8 (by decide) (by decide) (by decide)
        (fun _ _ _ => rfl)).2 (by decide)).2⟩⟩

/-- C3 (decode_integer on an integer above `2 ^ 32 - 1`). With a 7-bit prefix,
the bytes 7F FF FF FF FF 0F carry the RFC 7541 value
`127 + (2 ^ 32 - 1) = 4294967422`, which is greater than `UINT32_MAX`; the code
does not return -1 on them: it returns the length 6 and the wrapped-around value
126. -/
theorem decode_integer_wraps_around :
    rfc_integer_value 7 [0x7F, 0xFF, 0xFF, 0xFF, 0xFF, 0x0F] = 4294967422 ∧
    UINT32_MAX < rfc_integer_value 7 [0x7F, 0xFF, 0xFF, 0xFF, 0xFF, 0x0F] ∧
    decode_integer (ofBytes 0 [0x7F, 0xFF, 0xFF, 0xFF, 0xFF, 0x0F]) 0 6 7 = (6, 126) := by
  decide

/-! ## The dynamic table and the combined index space -/

/-- C4 (size bound of the dynamic table). Starting from a fresh table, adding a
field with a name of 4064 bytes and an empty value (size 4096, which fits) and
then calling `set_header_table_size(0)` leaves a table whose `_current_size` is
4096 and whose maximum size is 0: the loop of `set_header_table_size` counts the
local `old_size` down and never updates `_current_size`. -/
theorem size_bound_broken_by_set_header_table_size :
    (add_header_field Http2HeaderTable.fresh ⟨List.replicate 4064 97, []⟩).bind
        (fun t => set_header_table_size t 0) = some ⟨[], 4096, 0⟩ ∧
      ¬ (4096 ≤ 0) := by
  refine ⟨?_, by decide⟩
  have hs := header_size_replicate 4064 97 (by decide)
  have h1 := add_header_field_empty 0 4096 4096 ⟨List.replicate 4064 97, []⟩ hs
    (by decide) (by decide)
  have h2 := set_header_table_size_single ((0 + 4096) % 2 ^ 32)
    4096 0 4096 ⟨List.replicate 4064 97, []⟩ hs (by decide) (by decide)
  show (add_header_field ⟨[], 0, 4096⟩ _).bind _ = _
  rw [h1, Option.some_bind, h2]
  rfl

/-- C5 (eviction when the maximum size changes). The table that holds the single
entry (custom-key, custom-header), of size 55, is what `add_header_field` makes
of a fresh table; its current size 55 is at most 4041, yet
`set_header_table_size(4041)` evicts the entry: the loop starts from the old
maximum size 4096, not from the current size. -/
theorem set_header_table_size_evicts_below_limit :
    add_header_field Http2HeaderTable.fresh ⟨c_str "custom-key", c_str "custom-header"⟩ =
      some ⟨[⟨c_str "custom-key", c_str "custom-header"⟩], 55, 4096⟩ ∧
    entries_size [⟨c_str "custom-key", c_str "custom-header"⟩] ≤ 4041 ∧
    set_header_table_size ⟨[⟨c_str "custom-key", c_str "custom-header"⟩], 55, 4096⟩ 4041 =
      some ⟨[], 55, 4041⟩ := by
  decide

/-- C6 (`set_header_table_size(0)` on a fresh table). The loop starts from the
maximum size 4096, which exceeds 0, and reads `_headers.last()` although the
table has no entry: the call does not complete. -/
theorem set_header_table_size_zero_on_fresh :
    set_header_table_size Http2HeaderTable.fresh 0 = none := by
  decide

/-- C7 (oversize insertion). For every table and every field whose size
`len(name) + len(value) + 32` (a `uint32_t` value) is greater than the maximum
size of the table, `add_header_field` completes and leaves a table without
entries, so the field is not inserted; the two size members keep their
values. -/
theorem add_header_field_oversize (t : Http2HeaderTable) (field : MIMEField)
    (h32 : entry_size field < 2 ^ 32)
    (hbig : t._settings_header_table_size < entry_size field) :
    add_header_field t field = some ⟨[], t._current_size, t._settings_header_table_size⟩ := by
  exact add_header_field_of_gt t field (entry_size field) (header_size_eq field h32) hbig

/-- Witness of C7: a field of size 55 and a table whose maximum size is 54. -/
theorem add_header_field_oversize_witness :
    add_header_field ⟨[⟨c_str "a", c_str "b"⟩], 34, 54⟩
      ⟨c_str "custom-key", c_str "custom-header"⟩ = some ⟨[], 34, 54⟩ :=
  add_header_field_oversize ⟨[⟨c_str "a", c_str "b"⟩], 34, 54⟩
    ⟨c_str "custom-key", c_str "custom-header"⟩ (by decide) (by decide)

/-- C8 (fitting insertion). For every table whose current size is the sum of its
entries' sizes and every field of size `s = len(name) + len(value) + 32` with
`s` at most the maximum size (and `_current_size + s` within `uint32_t`),
`add_header_field` completes; the new list of entries is the field followed by
the `k` newest old entries in their old order, where `k` is the greatest number
of old entries whose sizes plus `s` do not exceed the maximum size; the current
size is again the sum of the sizes and the maximum size is unchanged. -/
theorem add_header_field_fits (t : Http2HeaderTable) (field : MIMEField)
    (hacc : t._current_size = entries_size t._headers)
    (hfit : entry_size field ≤ t._settings_header_table_size)
    (h32 : t._current_size + entry_size field < 2 ^ 32) :
    ∃ k, k ≤ t._headers.length ∧
      add_header_field t field =
        some ⟨field :: t._headers.take k, entries_size (field :: t._headers.take k),
          t._settings_header_table_size⟩ ∧
      entries_size (t._headers.take k) + entry_size field ≤ t._settings_header_table_size ∧
      ∀ j, j ≤ t._headers.length →
        entries_size (t._headers.take j) + entry_size field ≤ t._settings_header_table_size →
        j ≤ k := by
  have hhs : header_size field = entry_size field := header_size_eq field (by omega)
  have hmod : (t._current_size + entry_size field) % 2 ^ 32 =
      entries_size t._headers + entry_size field := by
    rw [Nat.mod_eq_of_lt h32, hacc]
  obtain ⟨k, hk, hev, hkfit, hmax⟩ :=
    evict_loop_accounted t._settings_header_table_size (entry_size field) hfit
      t._headers.length t._headers _ rfl rfl (by omega)
  refine ⟨k, hk, ?_, hkfit, hmax⟩
  unfold add_header_field
  simp only
  rw [hhs, if_neg (by omega), hmod, hev]
  simp only [Option.some.injEq, Http2HeaderTable.mk.injEq, true_and, and_true]
  have : field :: t._headers.take k = [field] ++ t._headers.take k := rfl
  rw [this, entries_size_append, entries_size_singleton]
  omega

/-- Witness of C8: a table with maximum size 100 holding two entries of size 34
receives a field of size 55; the older entry is evicted. -/
theorem add_header_field_fits_witness :
    ∃ k, k ≤ 2 ∧
      add_header_field ⟨[⟨c_str "c", c_str "d"⟩, ⟨c_str "a", c_str "b"⟩], 68, 100⟩
          ⟨c_str "custom-key", c_str "custom-header"⟩ =
        some ⟨⟨c_str "custom-key", c_str "custom-header"⟩ ::
            List.take k [⟨c_str "c", c_str "d"⟩, ⟨c_str "a", c_str "b"⟩],
          entries_size (⟨c_str "custom-key", c_str "custom-header"⟩ ::
            List.take k [⟨c_str "c", c_str "d"⟩, ⟨c_str "a", c_str "b"⟩]), 100⟩ ∧
      entries_size (List.take k [⟨c_str "c", c_str "d"⟩, ⟨c_str "a", c_str "b"⟩]) +
        entry_size ⟨c_str "custom-key", c_str "custom-header"⟩ ≤ 100 ∧
      ∀ j, j ≤ 2 →
        entries_size (List.take j [⟨c_str "c", c_str "d"⟩, ⟨c_str "a", c_str "b"⟩]) +
          entry_size ⟨c_str "custom-key", c_str "custom-header"⟩ ≤ 100 → j ≤ k :=
  add_header_field_fits ⟨[⟨c_str "c", c_str "d"⟩, ⟨c_str "a", c_str "b"⟩], 68, 100⟩
    ⟨c_str "custom-key", c_str "custom-header"⟩ (by decide) (by decide) (by decide)

/-- C9 (size accounting). Starting from a fresh table, adding
(custom-key, custom-header), of size 55, and then a field with a name of 4065
bytes, whose size 4097 is larger than the maximum size 4096, leaves a table
without entries whose `_current_size` is still 55, not the sum 0 of the sizes of
its entries: the oversize branch clears `_headers` and leaves `_current_size`
as it was. -/
theorem size_accounting_broken_by_oversize_add :
    (add_header_field Http2HeaderTable.fresh ⟨c_str "custom-key", c_str "custom-header"⟩).bind
        (fun t => add_header_field t ⟨List.replicate 4065 97, []⟩) = some ⟨[], 55, 4096⟩ ∧
      55 ≠ entries_size [] := by
  refine ⟨?_, by decide⟩
  have hs := header_size_replicate 4065 97 (by decide)
  have h1 : add_header_field Http2HeaderTable.fresh ⟨c_str "custom-key", c_str "custom-header"⟩ =
      some ⟨[⟨c_str "custom-key", c_str "custom-header"⟩], 55, 4096⟩ := by decide
  rw [h1, Option.some_bind]
  exact add_header_field_of_gt _ _ 4097 hs (by decide)

/-- The combined index space, on the index that `decode_integer` reads. For a
table holding `k` dynamic entries,
`get_header_from_indexing_tables(index)` returns 0 exactly when
`1 <= index <= 61 + k` and returns -1 exactly when `index` is 0 or greater than
`61 + k`; and `decode_indexed_header_field` returns -1 whenever the index that
`decode_integer` reads from the buffer is 0 or greater than `61 + k`. -/
theorem combined_index_space (t : Http2HeaderTable) (index : Nat) (field : MIMEField) :
    ((get_header_from_indexing_tables t index field).1 = 0 ↔
      1 ≤ index ∧ index ≤ 61 + t._headers.length) ∧
    ((get_header_from_indexing_tables t index field).1 = -1 ↔
      index = 0 ∨ 61 + t._headers.length < index) ∧
    ∀ (mem : Mem) (buf_start buf_end : Nat),
      (decode_integer mem buf_start buf_end 7).2 = index →
      (index = 0 ∨ 61 + t._headers.length < index) →
      (decode_indexed_header_field field mem buf_start buf_end t).1 = -1 := by
  have key : ((get_header_from_indexing_tables t index field).1 = 0 ↔
      1 ≤ index ∧ index ≤ 61 + t._headers.length) ∧
    ((get_header_from_indexing_tables t index field).1 = -1 ↔
      index = 0 ∨ 61 + t._headers.length < index) := by
    unfold get_header_from_indexing_tables get_current_entry_num TS_HPACK_STATIC_TABLE_ENTRY_NUM
    by_cases h0 : index = 0
    · simp [h0]
    · by_cases h1 : index < 62
      · simp only [h0, h1, if_false, dite_true]
        constructor
        · simp; omega
        · simp; omega
      · by_cases h2 : index < 62 + t._headers.length
        · simp only [h0, h1, h2, if_false, dite_true, dite_false]
          constructor
          · simp; omega
          · simp; omega
        · simp only [h0, h1, h2, if_false, dite_false]
          constructor
          · simp; omega
          · simp; omega
  refine ⟨key.1, key.2, ?_⟩
  intro mem buf_start buf_end hidx hbad
  have hneg := key.2.mpr hbad
  unfold decode_indexed_header_field
  simp only
  by_cases hl : (decode_integer mem buf_start buf_end 7).1 = -1
  · rw [if_pos hl]
  · rw [if_neg hl, hidx, if_pos hneg]

/-- C10 (combined index space). The six bytes FF 83 FF FF FF 0F are an indexed
field that carries the index 4294967298, far beyond the combined index space
1..61 of a fresh table; `decode_indexed_header_field` over them does not return
-1: `decode_integer` wraps the index to 2, and the call returns 6 with the entry
(:method, GET) of index 2. -/
theorem decode_indexed_header_field_accepts_wrapped_index :
    rfc_integer_value 7 [0xFF, 0x83, 0xFF, 0xFF, 0xFF, 0x0F] = 4294967298 ∧
    61 + get_current_entry_num Http2HeaderTable.fresh <
      rfc_integer_value 7 [0xFF, 0x83, 0xFF, 0xFF, 0xFF, 0x0F] ∧
    decode_integer (ofBytes 0 [0xFF, 0x83, 0xFF, 0xFF, 0xFF, 0x0F]) 0 6 7 = (6, 2) ∧
    decode_indexed_header_field ⟨[], []⟩ (ofBytes 0 [0xFF, 0x83, 0xFF, 0xFF, 0xFF, 0x0F]) 0 6
      Http2HeaderTable.fresh = (6, ⟨c_str ":method", c_str "GET"⟩, Http2HeaderTable.fresh) := by
  decide

/-! ## Lemmas on the decoders -/

/-- When the loop of `decode_integer` does not return -1, it stops on a byte
after `p` and before `buf_end`. -/
theorem decode_integer_loop_bounds (mem : Mem) (buf_end : Nat) :
    ∀ (fuel p dst m p' : Nat) (dst' : Nat),
      decode_integer_loop mem buf_end fuel p dst m = (some p', dst') → p < p' ∧ p' < buf_end := by
  intro fuel
  induction fuel with
  | zero =>
    intro p dst m p' dst' h
    simp [decode_integer_loop] at h
  | succ fuel ih =>
    intro p dst m p' dst' h
    rw [decode_integer_loop] at h
    simp only at h
    split at h
    · simp at h
    · split at h
      · simp at h
      · split at h
        · have := ih _ _ _ _ _ h
          omega
        · simp only [Prod.mk.injEq, Option.some.injEq] at h
          omega

/-- The result of `decode_integer` is -1 or a length between 1 and the size of
the buffer (1 when the buffer is empty and the prefix is not saturated). -/
theorem decode_integer_result (mem : Mem) (buf_start buf_end n : Nat) :
    (decode_integer mem buf_start buf_end n).1 = -1 ∨
      ∃ k : Nat, (decode_integer mem buf_start buf_end n).1 = (k : Int) ∧ 1 ≤ k ∧
        (k = 1 ∨ buf_start + k ≤ buf_end) := by
  unfold decode_integer
  simp only
  split
  · rcases hloop : decode_integer_loop mem buf_end (buf_end - buf_start) buf_start
      (mem buf_start &&& 1 <<< n - 1) 0 with ⟨o, d⟩
    cases o with
    | none => left; rfl
    | some p' =>
      right
      have hb := decode_integer_loop_bounds mem buf_end _ _ _ _ _ _ hloop
      refine ⟨p' - buf_start + 1, ?_, by omega, Or.inr (by omega)⟩
      simp only
      push_cast [Nat.cast_sub (le_of_lt hb.1)]
      ring
  · right
    exact ⟨1, by simp, le_refl _, Or.inl rfl⟩

theorem and_0x40_of_pattern (x : Nat) (h : x &&& 0xC0 = 0x40) : x &&& 0x40 ≠ 0 := by
  have e : x &&& 0x40 = (x &&& 0xC0) &&& 0x40 := by
    rw [Nat.and_assoc]; rfl
  rw [e, h]
  decide

/-- What `decode_literal_header_field` has done to the table when it returns a
length: with the bit 0x40 of the first byte set, the table is the result of
`add_header_field` on the header it returns; otherwise the table is unchanged. -/
theorem decode_literal_header_field_table (huffman_decode : HuffmanDecode) (header : MIMEField)
    (mem : Mem) (buf_start buf_end : Nat) (t : Http2HeaderTable) (len : Int)
    (header' : MIMEField) (t' : Http2HeaderTable)
    (hdec : decode_literal_header_field huffman_decode header mem buf_start buf_end t =
      some (len, header', t'))
    (hlen : len ≠ -1) :
    if mem buf_start &&& 0x40 ≠ 0 then add_header_field t header' = some t' else t' = t := by
  unfold decode_literal_header_field at hdec
  simp only at hdec
  generalize (if mem buf_start &&& 0x40 ≠ 0 then decode_integer mem buf_start buf_end 6
    else if mem buf_start &&& 0x10 ≠ 0 then decode_integer mem buf_start buf_end 4
    else decode_integer mem buf_start buf_end 4) = di at hdec
  obtain ⟨len0, index⟩ := di
  simp only at hdec
  split at hdec
  · simp only [Option.some.injEq, Prod.mk.injEq] at hdec
    exact absurd hdec.1.symm hlen
  · split at hdec
    · simp only [Option.some.injEq, Prod.mk.injEq] at hdec
      exact absurd hdec.1.symm hlen
    · split at hdec
      · simp only [Option.some.injEq, Prod.mk.injEq] at hdec
        exact absurd hdec.1.symm hlen
      · split at hdec
        · rename_i hinc
          rw [if_pos hinc]
          split at hdec
          · simp at hdec
          · rename_i tbl hadd
            simp only [Option.some.injEq, Prod.mk.injEq] at hdec
            obtain ⟨-, h2, h3⟩ := hdec
            rw [← h2, ← h3]
            exact hadd
        · rename_i hinc
          rw [if_neg hinc]
          simp only [Option.some.injEq, Prod.mk.injEq] at hdec
          exact hdec.2.2.symm

/-! ## Lemmas on the string codec -/

theorem bytesAt_add (mem : Mem) (p a b : Nat) :
    bytesAt mem p (a + b) = bytesAt mem p a ++ bytesAt mem (p + a) b := by
  induction b with
  | zero => simp [bytesAt_zero]
  | succ b ih =>
    rw [← Nat.add_assoc, bytesAt_snoc, ih, bytesAt_snoc, List.append_assoc, Nat.add_assoc]

theorem bytesAt_append (mem : Mem) (p : Nat) (l1 l2 : List Nat)
    (h : bytesAt mem p (l1 ++ l2).length = l1 ++ l2) :
    bytesAt mem p l1.length = l1 ∧ bytesAt mem (p + l1.length) l2.length = l2 := by
  rw [List.length_append, bytesAt_add] at h
  exact List.append_inj h (bytesAt_length _ _ _)

theorem bytesAt_of_append (mem : Mem) (p : Nat) (l1 l2 : List Nat)
    (h1 : bytesAt mem p l1.length = l1) (h2 : bytesAt mem (p + l1.length) l2.length = l2) :
    bytesAt mem p (l1 ++ l2).length = l1 ++ l2 := by
  rw [List.length_append, bytesAt_add, h1, h2]

theorem memcpy_outside (mem : Mem) (p : Nat) (src : List Nat) (a : Nat)
    (h : a < p ∨ p + src.length ≤ a) : memcpy mem p src a = mem a := by
  unfold memcpy
  rw [if_neg (by omega)]

theorem bytesAt_memcpy (mem : Mem) (p : Nat) (src : List Nat) :
    bytesAt (memcpy mem p src) p src.length = src := by
  apply List.ext_getElem
  · rw [bytesAt_length]
  · intro i h1 h2
    simp only [bytesAt, List.getElem_map, List.getElem_range, memcpy]
    rw [if_pos (by omega)]
    have : p + i - p = i := by omega
    rw [this, List.getD_eq_getElem _ _ h2]

/-- The shape of the reference encoding of an integer: a first byte that fits the
prefix, then nothing (the value fits the prefix) or the continuation bytes. -/
theorem rfc_encode_integer_cons (value n : Nat) :
    ∃ b bs, rfc_encode_integer value n = b :: bs ∧ b ≤ 2 ^ n - 1 ∧
      (value < 2 ^ n - 1 → b = value ∧ bs = []) ∧
      (2 ^ n - 1 ≤ value → b = 2 ^ n - 1 ∧ bs = rfc_digits (value - (2 ^ n - 1))) := by
  unfold rfc_encode_integer
  by_cases h : value < 2 ^ n - 1
  · rw [if_pos h]
    exact ⟨value, [], rfl, by omega, fun _ => ⟨rfl, rfl⟩, fun h' => by omega⟩
  · rw [if_neg h]
    exact ⟨_, _, rfl, le_refl _, fun h' => absurd h' h, fun _ => ⟨rfl, rfl⟩⟩

/-- Decoding the reference encoding in a larger buffer and under a flag:
`decode_integer` returns the length of the reference encoding of a 32-bit
`value` and `value` whenever the low `n` bits of the first byte and the bytes
after it are those of the reference encoding and the buffer holds them all. -/
theorem decode_integer_of_rfc (mem : Mem) (buf_start buf_end value n b : Nat) (bs : List Nat)
    (hn1 : 1 ≤ n) (hn8 : n ≤ 8) (hv : value < 2 ^ 32)
    (henc : rfc_encode_integer value n = b :: bs)
    (hfirst : mem buf_start &&& (2 ^ n - 1) = b)
    (hrest : bytesAt mem (buf_start + 1) bs.length = bs)
    (hend : buf_start + bs.length < buf_end) :
    decode_integer mem buf_start buf_end n = (((bs.length + 1 : Nat) : Int), value) := by
  have hpos : 1 < 2 ^ n := Nat.one_lt_two_pow (by omega)
  simp only [decode_integer, Nat.one_shiftLeft, hfirst]
  unfold rfc_encode_integer at henc
  by_cases hlt : value < 2 ^ n - 1
  · rw [if_pos hlt] at henc
    injection henc with hb hbs
    subst hb hbs
    rw [if_neg (by omega)]
    simp
  · rw [if_neg hlt] at henc
    injection henc with hb hbs
    subst hb
    rw [if_pos rfl]
    rw [← hbs] at hrest hend ⊢
    rw [decode_integer_loop_digits mem buf_end (value - (2 ^ n - 1)) _ buf_start (2 ^ n - 1) 0
      hrest (by simp; omega) hend (by omega)]
    simp only [pow_zero, mul_one]
    congr 1
    · push_cast; omega
    · omega

theorem rfc_encode_string_length (s : List Nat) :
    (rfc_encode_string s).length = (rfc_encode_integer s.length 7).length + s.length := by
  unfold rfc_encode_string
  rw [List.length_append]

theorem rfc_encode_integer_length_pos (value n : Nat) :
    0 < (rfc_encode_integer value n).length := by
  obtain ⟨b, bs, h, -⟩ := rfc_encode_integer_cons value n
  rw [h]; simp

/-- The result of `encode_string` on a buffer whose first byte is zero, in terms
of the reference wire form: it fails exactly when the buffer is shorter than the
wire form, and otherwise writes the wire form and nothing else. -/
theorem encode_string_spec (mem : Mem) (buf_start buf_end : Nat) (value : List Nat)
    (hlen : value.length < 2 ^ 32) (h0 : mem buf_start = 0) :
    let r := encode_string mem buf_start buf_end value
    let enc := rfc_encode_string value
    (r.1 = -1 ↔ buf_end < buf_start + enc.length) ∧
    (r.1 ≠ -1 → r.1 = enc.length ∧ bytesAt r.2 buf_start enc.length = enc ∧
      (∀ a, a < buf_start ∨ buf_start + enc.length ≤ a → r.2 a = mem a)) := by
  intro r enc
  have hel : enc.length = (rfc_encode_integer value.length 7).length + value.length :=
    rfc_encode_string_length value
  have hipos := rfc_encode_integer_length_pos value.length 7
  obtain ⟨hfail, hok⟩ := encode_integer_spec mem buf_start buf_end value.length 7 (by decide) h0
  have hmod : value.length % 2 ^ 32 = value.length := Nat.mod_eq_of_lt hlen
  rcases hri : encode_integer mem buf_start buf_end value.length 7 with ⟨li, mi⟩
  rw [hri] at hfail hok
  simp only at hfail hok
  have hr : r = if li = -1 then (-1, mi)
      else if buf_end < buf_start + li.toNat ∨ buf_end - (buf_start + li.toNat) < value.length
        then (-1, mi)
      else (((buf_start + li.toNat + value.length : Nat) : Int) - buf_start,
        memcpy mi (buf_start + li.toNat) value) := by
    show encode_string mem buf_start buf_end value = _
    unfold encode_string
    simp only [hmod, hri]
  by_cases hli : li = -1
  · rw [if_pos hli] at hr
    rw [hr]
    simp only [true_iff, ne_eq, not_true_eq_false, false_implies, and_true]
    have := hfail.mp hli
    norm_num at this
    omega
  · obtain ⟨h1, h2, h3⟩ := hok hli
    have hto : li.toNat = (rfc_encode_integer value.length 7).length := by
      rw [h1]; simp
    rw [if_neg hli, hto] at hr
    by_cases hroom : buf_end < buf_start + (rfc_encode_integer value.length 7).length ∨
        buf_end - (buf_start + (rfc_encode_integer value.length 7).length) < value.length
    · rw [if_pos hroom] at hr
      rw [hr]
      simp only [true_iff, ne_eq, not_true_eq_false, false_implies, and_true]
      omega
    · rw [if_neg hroom] at hr
      rw [hr]
      refine ⟨?_, fun _ => ⟨?_, ?_, ?_⟩⟩
      · constructor
        · intro h; simp only at h; push_cast at h; omega
        · intro h; omega
      · simp only; rw [hel]; push_cast; omega
      · simp only
        show bytesAt _ buf_start (rfc_encode_string value).length = rfc_encode_string value
        unfold rfc_encode_string
        apply bytesAt_of_append
        · refine Eq.trans (bytesAt_congr _ _ _ _ ?_) h2
          intro a _ ha
          exact memcpy_outside _ _ _ _ (Or.inl ha)
        · exact bytesAt_memcpy _ _ _
      · intro a ha
        simp only
        rw [memcpy_outside _ _ _ _ (by omega), h3 a (by omega)]

/-- Decoding the reference wire form of a string: `decode_string` on a buffer
that holds, from `buf_start` on, the wire form of a string of at most 4096 bytes
returns the length of the wire form and the string. -/
theorem decode_string_of_rfc (huffman_decode : HuffmanDecode) (mem : Mem)
    (buf_start buf_end : Nat) (s : List Nat) (hs : s.length ≤ 4096)
    (hb : bytesAt mem buf_start (rfc_encode_string s).length = rfc_encode_string s)
    (hend : buf_start + (rfc_encode_string s).length ≤ buf_end) :
    decode_string huffman_decode mem buf_start buf_end =
      (((rfc_encode_string s).length : Int), s) := by
  have hel := rfc_encode_string_length s
  unfold rfc_encode_string at hb
  obtain ⟨hb1, hb2⟩ := bytesAt_append mem buf_start _ _ hb
  obtain ⟨b, bs, henc, hble, -, -⟩ := rfc_encode_integer_cons s.length 7
  rw [henc] at hb1 hb2 hel
  simp only [List.length_cons] at hb1 hb2 hel
  rw [bytesAt_succ] at hb1
  injection hb1 with hfirst hrest
  have hb128 : b < 128 := by norm_num at hble; omega
  obtain ⟨-, -, e3, e4⟩ := byte_bits b hb128
  have hdec := decode_integer_of_rfc mem buf_start buf_end s.length 7 b bs (by decide) (by decide)
    (by omega) henc (by rw [hfirst]; exact e3) hrest (by omega)
  unfold decode_string
  simp only [hdec, hfirst, e4, HEADER_FIELD_LIMIT_LENGTH]
  rw [if_neg (by omega), if_neg (by omega)]
  simp only [ne_eq, not_true_eq_false, if_false, Int.toNat_ofNat, hb2]
  congr 1
  rw [hel]
  push_cast
  ring

theorem encode_integer_empty_buffer (mem : Mem) (buf_start buf_end value n : Nat)
    (h : buf_end ≤ buf_start) : encode_integer mem buf_start buf_end value n = (-1, mem) := by
  unfold encode_integer
  rw [if_pos (by omega)]

theorem encode_string_empty_buffer (mem : Mem) (buf_start buf_end : Nat) (value : List Nat)
    (h : buf_end ≤ buf_start) : encode_string mem buf_start buf_end value = (-1, mem) := by
  unfold encode_string
  simp only [encode_integer_empty_buffer mem buf_start buf_end _ 7 h, if_true]

/-- The statement of `encode_string_spec` for a zero-filled buffer, which may be
empty. -/
theorem encode_string_zero_filled (mem : Mem) (buf_start buf_end : Nat) (value : List Nat)
    (hlen : value.length < 2 ^ 32)
    (hzero : ∀ a, buf_start ≤ a → a < buf_end → mem a = 0) :
    ((encode_string mem buf_start buf_end value).1 = -1 ↔
      buf_end < buf_start + (rfc_encode_string value).length) ∧
    ((encode_string mem buf_start buf_end value).1 ≠ -1 →
      (encode_string mem buf_start buf_end value).1 = ((rfc_encode_string value).length : Int) ∧
      bytesAt (encode_string mem buf_start buf_end value).2 buf_start
        (rfc_encode_string value).length = rfc_encode_string value ∧
      (∀ a, a < buf_start ∨ buf_start + (rfc_encode_string value).length ≤ a →
        (encode_string mem buf_start buf_end value).2 a = mem a)) := by
  by_cases hb : buf_start < buf_end
  · exact encode_string_spec mem buf_start buf_end value hlen (hzero _ (le_refl _) hb)
  · rw [encode_string_empty_buffer mem buf_start buf_end value (by omega)]
    have := rfc_encode_string_length value
    have := rfc_encode_integer_length_pos value.length 7
    simp only [true_iff, ne_eq, not_true_eq_false, false_implies, and_true]
    omega

/-! ## Lemmas on the header field codec -/

theorem flag_bits_7 : ∀ b, b < 128 →
    (b ||| 0x80) % 256 = b ||| 0x80 ∧ (b ||| 0x80) &&& (2 ^ 7 - 1) = b := by
  decide

theorem rfc_encode_flagged_integer_eq (flag value n b : Nat) (bs : List Nat)
    (h : rfc_encode_integer value n = b :: bs) :
    rfc_encode_flagged_integer flag value n = (b ||| flag) :: bs := by
  unfold rfc_encode_flagged_integer
  rw [h]

theorem rfc_encode_flagged_integer_length (flag value n : Nat) :
    (rfc_encode_flagged_integer flag value n).length = (rfc_encode_integer value n).length := by
  obtain ⟨b, bs, h, -⟩ := rfc_encode_integer_cons value n
  rw [rfc_encode_flagged_integer_eq flag value n b bs h, h]
  simp

/-- The result of `encode_integer` followed by `*p |= flag` on the first byte, as
`encode_indexed_header_field` and `encode_literal_header_field` with an index do
it, on a buffer whose first byte is zero and for a flag above the prefix: the
memory holds the flagged reference encoding and is otherwise unchanged. -/
theorem encode_integer_then_flag (mem : Mem) (buf_start buf_end value n flag : Nat) (hn : n ≤ 8)
    (h0 : mem buf_start = 0)
    (hflag : ∀ b, b ≤ 2 ^ n - 1 → (b ||| flag) % 256 = b ||| flag)
    (hne : (encode_integer mem buf_start buf_end value n).1 ≠ -1) :
    let mi := (encode_integer mem buf_start buf_end value n).2
    let mem' := store mi buf_start ((mi buf_start ||| flag) % 256)
    bytesAt mem' buf_start (rfc_encode_flagged_integer flag value n).length =
      rfc_encode_flagged_integer flag value n ∧
    (∀ a, a < buf_start ∨ buf_start + (rfc_encode_flagged_integer flag value n).length ≤ a →
      mem' a = mem a) := by
  intro mi mem'
  obtain ⟨-, hok⟩ := encode_integer_spec mem buf_start buf_end value n hn h0
  obtain ⟨-, h2, h3⟩ := hok hne
  obtain ⟨b, bs, henc, hble, -, -⟩ := rfc_encode_integer_cons value n
  rw [rfc_encode_flagged_integer_eq flag value n b bs henc]
  rw [henc] at h2 h3
  simp only [List.length_cons] at h2 h3 ⊢
  rw [bytesAt_succ] at h2
  injection h2 with hfirst hrest
  constructor
  · rw [bytesAt_succ]
    congr 1
    · show store mi buf_start ((mi buf_start ||| flag) % 256) buf_start = _
      have hfirst' : mi buf_start = b := hfirst
      rw [store_same, hfirst', hflag b hble]
    · refine Eq.trans (bytesAt_congr _ _ _ _ ?_) hrest
      intro a ha _
      exact store_other _ _ _ _ (by omega)
  · intro a ha
    show store mi buf_start ((mi buf_start ||| flag) % 256) a = _
    rw [store_other _ _ _ _ (by omega)]
    exact h3 a ha

/-- The result of `encode_indexed_header_field` on a buffer whose first byte is
zero, in terms of the reference wire form. -/
theorem encode_indexed_header_field_spec (mem : Mem) (buf_start buf_end index : Nat)
    (h0 : mem buf_start = 0) :
    let r := encode_indexed_header_field mem buf_start buf_end index
    let enc := rfc_indexed_header_field index
    (r.1 = -1 ↔ buf_end ≤ buf_start + enc.length) ∧
    (r.1 ≠ -1 → r.1 = enc.length ∧ bytesAt r.2 buf_start enc.length = enc ∧
      (∀ a, a < buf_start ∨ buf_start + enc.length ≤ a → r.2 a = mem a)) := by
  intro r enc
  have hel : enc.length = (rfc_encode_integer index 7).length :=
    rfc_encode_flagged_integer_length 0x80 index 7
  have hlen := rfc_encode_integer_length index 7
  have hipos := rfc_encode_integer_length_pos index 7
  obtain ⟨hfail, hok⟩ := encode_integer_spec mem buf_start buf_end index 7 (by decide) h0
  have hflag : ∀ b, b ≤ 2 ^ 7 - 1 → (b ||| 0x80) % 256 = b ||| 0x80 :=
    fun b hb => (flag_bits_7 b (by norm_num at hb; omega)).1
  have hthen := encode_integer_then_flag mem buf_start buf_end index 7 0x80 (by decide) h0 hflag
  rcases hri : encode_integer mem buf_start buf_end index 7 with ⟨li, mi⟩
  rw [hri] at hfail hok hthen
  simp only at hfail hok hthen
  have hr : r = if buf_start ≥ buf_end then (-1, mem)
      else if li = -1 then (-1, mi)
      else if buf_start + 1 ≥ buf_end then (-1, mi)
      else (((buf_start + li.toNat : Nat) : Int) - buf_start,
        store mi buf_start ((mi buf_start ||| 0x80) % 256)) := by
    show encode_indexed_header_field mem buf_start buf_end index = _
    unfold encode_indexed_header_field
    simp only [hri]
  by_cases hb : buf_start ≥ buf_end
  · rw [if_pos hb] at hr
    rw [hr]
    simp only [true_iff, ne_eq, not_true_eq_false, false_implies, and_true]
    omega
  · rw [if_neg hb] at hr
    by_cases hli : li = -1
    · rw [if_pos hli] at hr
      rw [hr]
      simp only [true_iff, ne_eq, not_true_eq_false, false_implies, and_true]
      have := hfail.mp hli
      norm_num at this
      omega
    · obtain ⟨h1, -, -⟩ := hok hli
      have hto : li.toNat = (rfc_encode_integer index 7).length := by
        rw [h1]; simp
      have hnf : ¬ (buf_end ≤ buf_start ∨
          2 ^ 7 - 1 ≤ index ∧ buf_end ≤ buf_start + (rfc_encode_integer index 7).length) :=
        fun h => hli (hfail.mpr h)
      rw [if_neg hli, hto] at hr
      by_cases hp : buf_start + 1 ≥ buf_end
      · rw [if_pos hp] at hr
        rw [hr]
        simp only [true_iff, ne_eq, not_true_eq_false, false_implies, and_true]
        omega
      · rw [if_neg hp] at hr
        obtain ⟨g1, g2⟩ := hthen hli
        rw [hr]
        refine ⟨?_, fun _ => ⟨?_, g1, g2⟩⟩
        · constructor
          · intro h; simp only at h; push_cast at h; omega
          · intro h
            exfalso
            rw [hel, hlen] at h
            norm_num at hnf
            split at h
            · omega
            · rw [hlen] at hnf
              rename_i hlt
              rw [if_neg hlt] at hnf
              norm_num at hlt
              omega
        · simp only; rw [hel]; push_cast; omega

/-- Decoding the reference wire form of an indexed header field:
`decode_integer` reads the index from all its bytes, and
`decode_indexed_header_field` returns what `get_header_from_indexing_tables`
returns for that index. -/
theorem decode_indexed_header_field_of_rfc (header : MIMEField) (mem : Mem)
    (buf_start buf_end index : Nat) (t : Http2HeaderTable) (hi : index < 2 ^ 32)
    (hb : bytesAt mem buf_start (rfc_indexed_header_field index).length =
      rfc_indexed_header_field index)
    (hend : buf_start + (rfc_indexed_header_field index).length ≤ buf_end) :
    decode_integer mem buf_start buf_end 7 =
      (((rfc_indexed_header_field index).length : Int), index) ∧
    decode_indexed_header_field header mem buf_start buf_end t =
      if (get_header_from_indexing_tables t index header).1 = -1 then
        (-1, (get_header_from_indexing_tables t index header).2, t)
      else
        (((rfc_indexed_header_field index).length : Int),
          (get_header_from_indexing_tables t index header).2, t) := by
  obtain ⟨b, bs, henc, hble, -, -⟩ := rfc_encode_integer_cons index 7
  have heq : rfc_indexed_header_field index = (b ||| 0x80) :: bs :=
    rfc_encode_flagged_integer_eq 0x80 index 7 b bs henc
  rw [heq] at hb hend ⊢
  simp only [List.length_cons] at hb hend ⊢
  rw [bytesAt_succ] at hb
  injection hb with hfirst hrest
  have hdec := decode_integer_of_rfc mem buf_start buf_end index 7 b bs (by decide) (by decide)
    hi henc (by rw [hfirst]; exact (flag_bits_7 b (by norm_num at hble; omega)).2) hrest
    (by omega)
  refine ⟨hdec, ?_⟩
  unfold decode_indexed_header_field
  simp only [hdec]
  rw [if_neg (by omega)]

theorem rfc_literal_pattern_eq (type : HEADER_INDEXING_TYPE) :
    rfc_literal_pattern type = (type.flag, type.prefix_bits) := by
  cases type <;> rfl

theorem prefix_bits_le (type : HEADER_INDEXING_TYPE) :
    1 ≤ type.prefix_bits ∧ type.prefix_bits ≤ 8 := by
  cases type <;> decide

theorem literal_flag_bits_6 : ∀ b, b < 64 →
    (b ||| 0x40) % 256 = b ||| 0x40 ∧ (b ||| 0x40) &&& (2 ^ 6 - 1) = b ∧
      (b ||| 0x40) &&& 0x40 ≠ 0 := by
  decide

theorem literal_flag_bits_4 : ∀ b, b < 16 →
    ((b ||| 0x00) % 256 = b ||| 0x00 ∧ (b ||| 0x00) &&& (2 ^ 4 - 1) = b ∧
      (b ||| 0x00) &&& 0x40 = 0 ∧ (b ||| 0x00) &&& 0x10 = 0) ∧
    ((b ||| 0x10) % 256 = b ||| 0x10 ∧ (b ||| 0x10) &&& (2 ^ 4 - 1) = b ∧
      (b ||| 0x10) &&& 0x40 = 0 ∧ (b ||| 0x10) &&& 0x10 ≠ 0) := by
  decide

/-- The flag of a literal representation lies above its prefix. -/
theorem literal_flag_bits (type : HEADER_INDEXING_TYPE) (b : Nat)
    (hb : b ≤ 2 ^ type.prefix_bits - 1) :
    (b ||| type.flag) % 256 = b ||| type.flag ∧
    (b ||| type.flag) &&& (2 ^ type.prefix_bits - 1) = b ∧
    ((b ||| type.flag) &&& 0x40 ≠ 0 ↔ type = HEADER_INDEXING_TYPE.INC_INDEXING) := by
  cases type with
  | INC_INDEXING =>
    have hb' : b < 64 := by
      simp only [HEADER_INDEXING_TYPE.prefix_bits] at hb; norm_num at hb; omega
    obtain ⟨h1, h2, h3⟩ := literal_flag_bits_6 b hb'
    exact ⟨h1, h2, by simp [HEADER_INDEXING_TYPE.flag, h3]⟩
  | WITHOUT_INDEXING =>
    have hb' : b < 16 := by
      simp only [HEADER_INDEXING_TYPE.prefix_bits] at hb; norm_num at hb; omega
    obtain ⟨⟨h1, h2, h3, -⟩, -⟩ := literal_flag_bits_4 b hb'
    refine ⟨h1, h2, ?_⟩
    simp only [HEADER_INDEXING_TYPE.flag, h3, ne_eq, not_true_eq_false, false_iff]
    exact fun h => nomatch h
  | NEVER_INDEXED =>
    have hb' : b < 16 := by
      simp only [HEADER_INDEXING_TYPE.prefix_bits] at hb; norm_num at hb; omega
    obtain ⟨-, h1, h2, h3, -⟩ := literal_flag_bits_4 b hb'
    exact ⟨h1, h2, by simp [HEADER_INDEXING_TYPE.flag, h3]⟩

/-- The result of `encode_literal_header_field` with a name index on a
zero-filled buffer, in terms of the reference wire form: it fails exactly when
the buffer is shorter than the wire form, and otherwise writes the wire form. -/
theorem encode_literal_header_field_with_index_spec (mem : Mem) (buf_start buf_end : Nat)
    (header : MIMEField) (index : Nat) (type : HEADER_INDEXING_TYPE)
    (hlen : header.value.length < 2 ^ 32)
    (hzero : ∀ a, buf_start ≤ a → a < buf_end → mem a = 0) :
    let r := encode_literal_header_field_with_index mem buf_start buf_end header index type
    let enc := rfc_literal_indexed_name type index header.value
    (r.1 = -1 ↔ buf_end < buf_start + enc.length) ∧
    (r.1 ≠ -1 → r.1 = enc.length ∧ bytesAt r.2 buf_start enc.length = enc) := by
  intro r enc
  obtain ⟨hn1, hn8⟩ := prefix_bits_le type
  have henc : enc = rfc_encode_flagged_integer type.flag index type.prefix_bits ++
      rfc_encode_string header.value := by
    show rfc_literal_indexed_name type index header.value = _
    unfold rfc_literal_indexed_name
    rw [rfc_literal_pattern_eq]
  have hfl := rfc_encode_flagged_integer_length type.flag index type.prefix_bits
  have hel : enc.length = (rfc_encode_integer index type.prefix_bits).length +
      (rfc_encode_string header.value).length := by
    rw [henc, List.length_append, hfl]
  have hlen' := rfc_encode_integer_length index type.prefix_bits
  have hipos := rfc_encode_integer_length_pos index type.prefix_bits
  have hspos : 0 < (rfc_encode_string header.value).length := by
    rw [rfc_encode_string_length]
    have := rfc_encode_integer_length_pos header.value.length 7
    omega
  by_cases hb : buf_start < buf_end
  · have h0 := hzero _ (le_refl _) hb
    obtain ⟨hfail, hok⟩ := encode_integer_spec mem buf_start buf_end index type.prefix_bits hn8 h0
    have hthen := encode_integer_then_flag mem buf_start buf_end index type.prefix_bits type.flag
      hn8 h0 (fun b hb => (literal_flag_bits type b hb).1)
    rcases hri : encode_integer mem buf_start buf_end index type.prefix_bits with ⟨li, mi⟩
    rw [hri] at hfail hok hthen
    simp only at hfail hok hthen
    by_cases hli : li = -1
    · have hr : r = (-1, mi) := by
        show encode_literal_header_field_with_index mem buf_start buf_end header index type = _
        unfold encode_literal_header_field_with_index
        simp only [hri, hli, if_true]
      rw [hr]
      simp only [true_iff, ne_eq, not_true_eq_false, false_implies, and_true]
      have := hfail.mp hli
      omega
    · obtain ⟨h1, -, -⟩ := hok hli
      have hto : li.toNat = (rfc_encode_integer index type.prefix_bits).length := by
        rw [h1]; simp
      have hnf : ¬ (buf_end ≤ buf_start ∨ 2 ^ type.prefix_bits - 1 ≤ index ∧
          buf_end ≤ buf_start + (rfc_encode_integer index type.prefix_bits).length) :=
        fun h => hli (hfail.mpr h)
      by_cases hp : buf_start + 1 ≥ buf_end
      · have hr : r = (-1, mi) := by
          show encode_literal_header_field_with_index mem buf_start buf_end header index type = _
          unfold encode_literal_header_field_with_index
          simp only [hri, hli, if_false, hp, if_true]
        rw [hr]
        simp only [true_iff, ne_eq, not_true_eq_false, false_implies, and_true]
        omega
      · obtain ⟨g1, g2⟩ := hthen hli
        rw [hfl] at g1 g2
        have hroomi : buf_start + (rfc_encode_integer index type.prefix_bits).length ≤ buf_end := by
          rw [hlen'] at hnf ⊢
          split
          · omega
          · rename_i hlt
            rw [if_neg hlt] at hnf
            omega
        obtain ⟨sfail, sok⟩ := encode_string_zero_filled
          (store mi buf_start ((mi buf_start ||| type.flag) % 256))
          (buf_start + (rfc_encode_integer index type.prefix_bits).length) buf_end header.value
          hlen (fun a ha1 ha2 => by rw [g2 a (Or.inr ha1)]; exact hzero a (by omega) ha2)
        rcases hrs : encode_string (store mi buf_start ((mi buf_start ||| type.flag) % 256))
          (buf_start + (rfc_encode_integer index type.prefix_bits).length) buf_end header.value
          with ⟨ls, ms⟩
        rw [hrs] at sfail sok
        simp only at sfail sok
        have hr : r = if ls = -1 then (-1, ms)
            else (((buf_start + (rfc_encode_integer index type.prefix_bits).length + ls.toNat :
              Nat) : Int) - buf_start, ms) := by
          show encode_literal_header_field_with_index mem buf_start buf_end header index type = _
          unfold encode_literal_header_field_with_index
          simp only [hri, hli, if_false, hp, hto, hrs]
        by_cases hls : ls = -1
        · rw [if_pos hls] at hr
          rw [hr]
          simp only [true_iff, ne_eq, not_true_eq_false, false_implies, and_true]
          have := sfail.mp hls
          omega
        · obtain ⟨s1, s2, s3⟩ := sok hls
          have hnsf : ¬ buf_end < buf_start + (rfc_encode_integer index type.prefix_bits).length +
              (rfc_encode_string header.value).length := fun h => hls (sfail.mpr h)
          have hsto : ls.toNat = (rfc_encode_string header.value).length := by
            rw [s1]; simp
          rw [if_neg hls, hsto] at hr
          rw [hr]
          refine ⟨?_, fun _ => ⟨?_, ?_⟩⟩
          · constructor
            · intro h; simp only at h; push_cast at h; omega
            · intro h; omega
          · simp only; rw [hel]; push_cast; omega
          · simp only
            rw [henc]
            apply bytesAt_of_append
            · rw [hfl]
              refine Eq.trans (bytesAt_congr _ _ _ _ ?_) g1
              intro a _ ha
              exact s3 a (Or.inl ha)
            · rw [hfl]; exact s2
  · have hr : r = (-1, mem) := by
      show encode_literal_header_field_with_index mem buf_start buf_end header index type = _
      unfold encode_literal_header_field_with_index
      simp only [encode_integer_empty_buffer mem buf_start buf_end _ _ (by omega : buf_end ≤ buf_start),
        if_true]
    rw [hr]
    simp only [true_iff, ne_eq, not_true_eq_false, false_implies, and_true]
    omega

set_option maxRecDepth 4000 in
/-- The result of `encode_literal_header_field` with an inline name on a
zero-filled buffer, in terms of the reference wire form: it fails exactly when
the buffer is shorter than the wire form, and otherwise writes the wire form. -/
theorem encode_literal_header_field_spec (mem : Mem) (buf_start buf_end : Nat)
    (header : MIMEField) (type : HEADER_INDEXING_TYPE)
    (hnlen : header.name.length < 2 ^ 32) (hvlen : header.value.length < 2 ^ 32)
    (hzero : ∀ a, buf_start ≤ a → a < buf_end → mem a = 0) :
    let r := encode_literal_header_field mem buf_start buf_end header type
    let enc := rfc_literal_new_name type header.name header.value
    (r.1 = -1 ↔ buf_end < buf_start + enc.length) ∧
    (r.1 ≠ -1 → r.1 = enc.length ∧ bytesAt r.2 buf_start enc.length = enc) := by
  intro r enc
  have henc : enc = type.flag :: (rfc_encode_string header.name ++
      rfc_encode_string header.value) := by
    show rfc_literal_new_name type header.name header.value = _
    unfold rfc_literal_new_name
    rw [rfc_literal_pattern_eq]
  have hel : enc.length = 1 + (rfc_encode_string header.name).length +
      (rfc_encode_string header.value).length := by
    rw [henc, List.length_cons, List.length_append]; omega
  have hnpos : 0 < (rfc_encode_string header.name).length := by
    rw [rfc_encode_string_length]
    have := rfc_encode_integer_length_pos header.name.length 7
    omega
  have hvpos : 0 < (rfc_encode_string header.value).length := by
    rw [rfc_encode_string_length]
    have := rfc_encode_integer_length_pos header.value.length 7
    omega
  by_cases hp : buf_start + 1 ≥ buf_end
  · have hr : r = (-1, mem) := by
      show encode_literal_header_field mem buf_start buf_end header type = _
      unfold encode_literal_header_field
      simp only
      rw [if_pos hp]
    rw [hr]
    simp only [true_iff, ne_eq, not_true_eq_false, false_implies, and_true]
    omega
  · obtain ⟨nfail, nok⟩ := encode_string_zero_filled (store mem buf_start type.flag)
      (buf_start + 1) buf_end header.name hnlen
      (fun a ha1 ha2 => by rw [store_other _ _ _ _ (by omega)]; exact hzero a (by omega) ha2)
    rcases hrn : encode_string (store mem buf_start type.flag) (buf_start + 1) buf_end
      header.name with ⟨ln, mn⟩
    rw [hrn] at nfail nok
    simp only at nfail nok
    by_cases hln : ln = -1
    · have hr : r = (-1, mn) := by
        show encode_literal_header_field mem buf_start buf_end header type = _
        unfold encode_literal_header_field
        simp only
        rw [if_neg hp]
        simp only [hrn, hln, if_true]
      rw [hr]
      simp only [true_iff, ne_eq, not_true_eq_false, false_implies, and_true]
      have := nfail.mp hln
      omega
    · obtain ⟨n1, n2, n3⟩ := nok hln
      have hnnf : ¬ buf_end < buf_start + 1 + (rfc_encode_string header.name).length :=
        fun h => hln (nfail.mpr h)
      have hnto : ln.toNat = (rfc_encode_string header.name).length := by
        rw [n1]; simp
      obtain ⟨vfail, vok⟩ := encode_string_zero_filled mn
        (buf_start + 1 + (rfc_encode_string header.name).length) buf_end header.value hvlen
        (fun a ha1 ha2 => by
          rw [n3 a (Or.inr ha1), store_other _ _ _ _ (by omega)]
          exact hzero a (by omega) ha2)
      rcases hrv : encode_string mn (buf_start + 1 + (rfc_encode_string header.name).length)
        buf_end header.value with ⟨lv, mv⟩
      rw [hrv] at vfail vok
      simp only at vfail vok
      have hr : r = if lv = -1 then (-1, mv)
          else (((buf_start + 1 + (rfc_encode_string header.name).length + lv.toNat : Nat) : Int)
            - buf_start, mv) := by
        show encode_literal_header_field mem buf_start buf_end header type = _
        unfold encode_literal_header_field
        simp only
        rw [if_neg hp]
        simp only [hrn, hln, if_false, hnto, hrv]
      by_cases hlv : lv = -1
      · rw [if_pos hlv] at hr
        rw [hr]
        simp only [true_iff, ne_eq, not_true_eq_false, false_implies, and_true]
        have := vfail.mp hlv
        omega
      · obtain ⟨v1, v2, v3⟩ := vok hlv
        have hvnf : ¬ buf_end < buf_start + 1 + (rfc_encode_string header.name).length +
            (rfc_encode_string header.value).length := fun h => hlv (vfail.mpr h)
        have hvto : lv.toNat = (rfc_encode_string header.value).length := by
          rw [v1]; simp
        rw [if_neg hlv, hvto] at hr
        rw [hr]
        refine ⟨?_, fun _ => ⟨?_, ?_⟩⟩
        · constructor
          · intro h; simp only at h; push_cast at h; omega
          · intro h; omega
        · simp only; rw [hel]; push_cast; omega
        · simp only
          rw [henc, List.length_cons, bytesAt_succ]
          congr 1
          · rw [v3 _ (by omega), n3 _ (by omega), store_same]
          · apply bytesAt_of_append
            · refine Eq.trans (bytesAt_congr _ _ _ _ ?_) n2
              intro a _ ha
              exact v3 a (Or.inl ha)
            · exact v2

/-- The first step of `decode_literal_header_field` on the reference wire form of
a literal representation: the bit 0x40 of the first byte tells incremental
indexing, and the index is read on the prefix of the representation. -/
theorem decode_literal_index_of_rfc (mem : Mem) (buf_start buf_end index : Nat)
    (type : HEADER_INDEXING_TYPE) (hi : index < 2 ^ 32)
    (hb : bytesAt mem buf_start
        (rfc_encode_flagged_integer type.flag index type.prefix_bits).length =
      rfc_encode_flagged_integer type.flag index type.prefix_bits)
    (hend : buf_start + (rfc_encode_flagged_integer type.flag index type.prefix_bits).length ≤
      buf_end) :
    (mem buf_start &&& 0x40 ≠ 0 ↔ type = HEADER_INDEXING_TYPE.INC_INDEXING) ∧
    (if mem buf_start &&& 0x40 ≠ 0 then decode_integer mem buf_start buf_end 6
      else if mem buf_start &&& 0x10 ≠ 0 then decode_integer mem buf_start buf_end 4
      else decode_integer mem buf_start buf_end 4) =
      (((rfc_encode_flagged_integer type.flag index type.prefix_bits).length : Int), index) := by
  obtain ⟨hn1, hn8⟩ := prefix_bits_le type
  obtain ⟨b, bs, henc, hble, -, -⟩ := rfc_encode_integer_cons index type.prefix_bits
  rw [rfc_encode_flagged_integer_eq type.flag index type.prefix_bits b bs henc] at hb hend ⊢
  simp only [List.length_cons] at hb hend ⊢
  rw [bytesAt_succ] at hb
  injection hb with hfirst hrest
  obtain ⟨-, f2, f3⟩ := literal_flag_bits type b hble
  have hdec := decode_integer_of_rfc mem buf_start buf_end index type.prefix_bits b bs hn1 hn8
    hi henc (by rw [hfirst]; exact f2) hrest (by omega)
  rw [hfirst]
  refine ⟨f3, ?_⟩
  cases type with
  | INC_INDEXING => rw [if_pos (f3.mpr rfl)]; exact hdec
  | WITHOUT_INDEXING =>
    rw [if_neg (fun h => nomatch f3.mp h)]
    split <;> exact hdec
  | NEVER_INDEXED =>
    rw [if_neg (fun h => nomatch f3.mp h)]
    split <;> exact hdec

set_option maxRecDepth 4000 in
/-- Decoding the reference wire form of a literal header field with an indexed
name: `decode_literal_header_field` reports all its bytes consumed and returns
the name that `get_header_from_indexing_tables` leaves for the index, with the
value of the wire form; with incremental indexing the table is the result of
`add_header_field` for that header, otherwise it is unchanged. -/
theorem decode_literal_indexed_name_of_rfc (huffman_decode : HuffmanDecode) (header : MIMEField)
    (mem : Mem) (buf_start buf_end : Nat) (t : Http2HeaderTable) (type : HEADER_INDEXING_TYPE)
    (index : Nat) (value : List Nat) (hi0 : index ≠ 0) (hi : index < 2 ^ 32)
    (hv : value.length ≤ 4096)
    (hb : bytesAt mem buf_start (rfc_literal_indexed_name type index value).length =
      rfc_literal_indexed_name type index value)
    (hend : buf_start + (rfc_literal_indexed_name type index value).length ≤ buf_end) :
    decode_literal_header_field huffman_decode header mem buf_start buf_end t =
      if type = HEADER_INDEXING_TYPE.INC_INDEXING then
        (add_header_field t ⟨(get_header_from_indexing_tables t index header).2.name, value⟩).map
          fun t' => (((rfc_literal_indexed_name type index value).length : Int),
            ⟨(get_header_from_indexing_tables t index header).2.name, value⟩, t')
      else
        some (((rfc_literal_indexed_name type index value).length : Int),
          ⟨(get_header_from_indexing_tables t index header).2.name, value⟩, t) := by
  have henc : rfc_literal_indexed_name type index value =
      rfc_encode_flagged_integer type.flag index type.prefix_bits ++ rfc_encode_string value := by
    unfold rfc_literal_indexed_name
    rw [rfc_literal_pattern_eq]
  rw [henc] at hb hend ⊢
  obtain ⟨hb1, hb2⟩ := bytesAt_append mem buf_start _ _ hb
  rw [List.length_append] at hend ⊢
  obtain ⟨hinc, hidx⟩ := decode_literal_index_of_rfc mem buf_start buf_end index type hi hb1
    (by omega)
  have hstr := decode_string_of_rfc huffman_decode mem
    (buf_start + (rfc_encode_flagged_integer type.flag index type.prefix_bits).length) buf_end
    value hv hb2 (by omega)
  unfold decode_literal_header_field
  dsimp only
  rw [hidx]
  simp only [Int.toNat_ofNat, hi0, ne_eq, not_false_eq_true, if_true, hstr]
  rw [if_neg (by omega), if_neg (by omega)]
  by_cases hty : type = HEADER_INDEXING_TYPE.INC_INDEXING
  · rw [if_pos (hinc.mpr hty), if_pos hty]
    cases add_header_field t ⟨(get_header_from_indexing_tables t index header).2.name, value⟩ with
    | none => rfl
    | some t' =>
      simp only [Option.map_some', Option.some.injEq, Prod.mk.injEq, and_true]
      push_cast
      omega
  · rw [if_neg (fun h => hty (hinc.mp h)), if_neg hty]
    simp only [Option.some.injEq, Prod.mk.injEq, and_true]
    push_cast
    omega

theorem rfc_encode_flagged_integer_zero (type : HEADER_INDEXING_TYPE) :
    rfc_encode_flagged_integer type.flag 0 type.prefix_bits = [type.flag] := by
  cases type <;> rfl

set_option maxRecDepth 4000 in
/-- Decoding the reference wire form of a literal header field with a new name:
`decode_literal_header_field` reports all its bytes consumed and returns the
name and the value of the wire form; with incremental indexing the table is the
result of `add_header_field` for that header, otherwise it is unchanged. -/
theorem decode_literal_new_name_of_rfc (huffman_decode : HuffmanDecode) (header : MIMEField)
    (mem : Mem) (buf_start buf_end : Nat) (t : Http2HeaderTable) (type : HEADER_INDEXING_TYPE)
    (name value : List Nat) (hn : name.length ≤ 4096) (hv : value.length ≤ 4096)
    (hb : bytesAt mem buf_start (rfc_literal_new_name type name value).length =
      rfc_literal_new_name type name value)
    (hend : buf_start + (rfc_literal_new_name type name value).length ≤ buf_end) :
    decode_literal_header_field huffman_decode header mem buf_start buf_end t =
      if type = HEADER_INDEXING_TYPE.INC_INDEXING then
        (add_header_field t ⟨name, value⟩).map
          fun t' => (((rfc_literal_new_name type name value).length : Int), ⟨name, value⟩, t')
      else
        some (((rfc_literal_new_name type name value).length : Int), ⟨name, value⟩, t) := by
  have henc : rfc_literal_new_name type name value =
      rfc_encode_flagged_integer type.flag 0 type.prefix_bits ++
        (rfc_encode_string name ++ rfc_encode_string value) := by
    unfold rfc_literal_new_name
    rw [rfc_literal_pattern_eq, rfc_encode_flagged_integer_zero]
    rfl
  rw [henc] at hb hend ⊢
  obtain ⟨hb1, hb23⟩ := bytesAt_append mem buf_start _ _ hb
  obtain ⟨hb2, hb3⟩ := bytesAt_append mem _ _ _ hb23
  rw [List.length_append, List.length_append] at hend ⊢
  obtain ⟨hinc, hidx⟩ := decode_literal_index_of_rfc mem buf_start buf_end 0 type (by decide) hb1
    (by omega)
  have hname := decode_string_of_rfc huffman_decode mem
    (buf_start + (rfc_encode_flagged_integer type.flag 0 type.prefix_bits).length) buf_end
    name hn hb2 (by omega)
  have hvalue := decode_string_of_rfc huffman_decode mem
    (buf_start + (rfc_encode_flagged_integer type.flag 0 type.prefix_bits).length +
      (rfc_encode_string name).length) buf_end
    value hv hb3 (by omega)
  unfold decode_literal_header_field
  dsimp only
  rw [hidx]
  simp only [Int.toNat_ofNat, ne_eq, not_true_eq_false, if_false, hname]
  rw [if_neg (by omega), if_neg (by omega)]
  simp only [Int.toNat_ofNat, hvalue]
  rw [if_neg (by omega)]
  by_cases hty : type = HEADER_INDEXING_TYPE.INC_INDEXING
  · rw [if_pos (hinc.mpr hty), if_pos hty]
    cases add_header_field t ⟨name, value⟩ with
    | none => rfl
    | some t' =>
      simp only [Option.map_some', Option.some.injEq, Prod.mk.injEq, and_true]
      push_cast
      omega
  · rw [if_neg (fun h => hty (hinc.mp h)), if_neg hty]
    simp only [Option.some.injEq, Prod.mk.injEq, and_true]
    push_cast
    omega

/-! ## The static table, the dynamic indices and the literal fields -/

/-- C11 (static table). For every index `i` in 1..61, every dynamic table and
every content of `field`, `get_header_from_indexing_tables(i)` returns 0 and
leaves in `field` the name and the value that RFC 7541 Appendix A lists at index
`i`; the reference table has 61 entries and `STATIC_TABLE` has 61 entries after
its entry 0. -/
theorem static_table_is_appendix_a (t : Http2HeaderTable) (field : MIMEField) (i : Nat)
    (h1 : 1 ≤ i) (h61 : i ≤ 61) :
    rfc7541_appendix_a.length = 61 ∧ STATIC_TABLE.length = 1 + 61 ∧
    ∃ e, rfc7541_appendix_a.get? (i - 1) = some e ∧
      get_header_from_indexing_tables t i field = (0, ⟨c_str e.1, c_str e.2⟩) := by
  refine ⟨rfl, rfl, ?_⟩
  interval_cases i <;> exact ⟨_, rfl, rfl⟩

/-- Witness of C11: the indices 2, 16 and 61 on a fresh table. -/
theorem static_table_is_appendix_a_witness :
    get_header_from_indexing_tables Http2HeaderTable.fresh 2 ⟨[], []⟩ =
      (0, ⟨c_str ":method", c_str "GET"⟩) ∧
    get_header_from_indexing_tables Http2HeaderTable.fresh 16 ⟨[], []⟩ =
      (0, ⟨c_str "accept-encoding", c_str "gzip, deflate"⟩) ∧
    get_header_from_indexing_tables Http2HeaderTable.fresh 61 ⟨[], []⟩ =
      (0, ⟨c_str "www-authenticate", c_str ""⟩) := by
  obtain ⟨-, -, e2, h2, g2⟩ :=
    static_table_is_appendix_a Http2HeaderTable.fresh ⟨[], []⟩ 2 (by decide) (by decide)
  obtain ⟨-, -, e16, h16, g16⟩ :=
    static_table_is_appendix_a Http2HeaderTable.fresh ⟨[], []⟩ 16 (by decide) (by decide)
  obtain ⟨-, -, e61, h61, g61⟩ :=
    static_table_is_appendix_a Http2HeaderTable.fresh ⟨[], []⟩ 61 (by decide) (by decide)
  have k2 : e2 = (":method", "GET") := by
    have : rfc7541_appendix_a.get? (2 - 1) = some (":method", "GET") := rfl
    rw [this] at h2; exact (Option.some.inj h2).symm
  have k16 : e16 = ("accept-encoding", "gzip, deflate") := by
    have : rfc7541_appendix_a.get? (16 - 1) = some ("accept-encoding", "gzip, deflate") := rfl
    rw [this] at h16; exact (Option.some.inj h16).symm
  have k61 : e61 = ("www-authenticate", "") := by
    have : rfc7541_appendix_a.get? (61 - 1) = some ("www-authenticate", "") := rfl
    rw [this] at h61; exact (Option.some.inj h61).symm
  subst k2 k16 k61
  exact ⟨g2, g16, g61⟩

/-- C13 (incremental indexing). Whenever `decode_literal_header_field` returns a
length (not -1) on a field whose first byte has the pattern 01xxxxxx, the table
it leaves is the result of `add_header_field` on the table it was given, called
with the (name, value) it returns. -/
theorem incremental_indexing_adds (huffman_decode : HuffmanDecode) (header : MIMEField)
    (mem : Mem) (buf_start buf_end : Nat) (t : Http2HeaderTable) (len : Int)
    (header' : MIMEField) (t' : Http2HeaderTable)
    (hpat : mem buf_start &&& 0xC0 = 0x40)
    (hdec : decode_literal_header_field huffman_decode header mem buf_start buf_end t =
      some (len, header', t'))
    (hlen : len ≠ -1) :
    add_header_field t header' = some t' := by
  have h := decode_literal_header_field_table huffman_decode header mem buf_start buf_end t len
    header' t' hdec hlen
  rw [if_pos (and_0x40_of_pattern _ hpat)] at h
  exact h

/-- Witness of C13: the bytes 40 0A "custom-key" 0D "custom-header" against a
fresh table decode to (custom-key, custom-header) with 26 bytes consumed and
leave the table with that one entry and current size 55. -/
theorem incremental_indexing_adds_witness :
    decode_literal_header_field (fun _ _ _ => none) ⟨[], []⟩
        (ofBytes 0 (0x40 :: 0x0A :: (c_str "custom-key" ++ 0x0D :: c_str "custom-header")))
        0 26 Http2HeaderTable.fresh =
      some (26, ⟨c_str "custom-key", c_str "custom-header"⟩,
        ⟨[⟨c_str "custom-key", c_str "custom-header"⟩], 55, 4096⟩) ∧
    add_header_field Http2HeaderTable.fresh ⟨c_str "custom-key", c_str "custom-header"⟩ =
      some ⟨[⟨c_str "custom-key", c_str "custom-header"⟩], 10 + 13 + 32, 4096⟩ :=
  ⟨by decide,
    incremental_indexing_adds (fun _ _ _ => none) ⟨[], []⟩
      (ofBytes 0 (0x40 :: 0x0A :: (c_str "custom-key" ++ 0x0D :: c_str "custom-header")))
      0 26 Http2HeaderTable.fresh 26 ⟨c_str "custom-key", c_str "custom-header"⟩
      ⟨[⟨c_str "custom-key", c_str "custom-header"⟩], 10 + 13 + 32, 4096⟩
      (by decide) (by decide) (by decide)⟩

/-- C14 (invalid name index in a literal field). Against a fresh table (61 static
entries, no dynamic entry) the name index 62 is invalid, yet
`decode_literal_header_field` does not return -1 on the three literal fields
that carry it with the value "a": it returns the number of bytes of the field
and a header whose name is the one `header` had before the call (here the empty
name), and with incremental indexing it adds that header to the table. -/
theorem literal_with_invalid_name_index_is_accepted :
    (get_header_from_indexing_tables Http2HeaderTable.fresh 62 ⟨[], []⟩).1 = -1 ∧
    decode_literal_header_field (fun _ _ _ => none) ⟨[], []⟩ (ofBytes 0 [0x7E, 0x01, 0x61]) 0 3
        Http2HeaderTable.fresh =
      some (3, ⟨[], [0x61]⟩, ⟨[⟨[], [0x61]⟩], 33, 4096⟩) ∧
    decode_literal_header_field (fun _ _ _ => none) ⟨[], []⟩
        (ofBytes 0 [0x0F, 0x2F, 0x01, 0x61]) 0 4 Http2HeaderTable.fresh =
      some (4, ⟨[], [0x61]⟩, Http2HeaderTable.fresh) ∧
    decode_literal_header_field (fun _ _ _ => none) ⟨[], []⟩
        (ofBytes 0 [0x1F, 0x2F, 0x01, 0x61]) 0 4 Http2HeaderTable.fresh =
      some (4, ⟨[], [0x61]⟩, Http2HeaderTable.fresh) := by
  decide

/-- The literal field round trip on a table on which `add_header_field`
completes. For each indexing type, every value of at
most 4096 bytes and every zero-filled buffer:
with an inline name of at most 4096 bytes, `encode_literal_header_field`
succeeds exactly when the buffer has room for the wire form, and then it has
written the flag byte (0x40, 0x00 or 0x10) followed by the name and the value as
strings; with a valid name index `i`, the encoder with an index succeeds exactly
when the buffer has room, and then it has written `i` on the 6-, 4- or 4-bit
prefix under the flag, followed by the value as a string. In both cases
`decode_literal_header_field` over exactly those bytes reports all of them
consumed and returns the same value with the same name (the inline name, or the
name of table entry `i`); the table afterwards is the result of
`add_header_field` for `INC_INDEXING` and is unchanged otherwise. For
`INC_INDEXING` the table is one on which `add_header_field` of the decoded
header completes. -/
theorem literal_field_round_trip (huffman_decode : HuffmanDecode) (mem : Mem)
    (buf_start buf_end : Nat) (type : HEADER_INDEXING_TYPE) (value : List Nat)
    (header : MIMEField) (t : Http2HeaderTable)
    (hvalue : value.length ≤ 4096)
    (hzero : ∀ a, buf_start ≤ a → a < buf_end → mem a = 0) :
    (∀ name : List Nat, name.length ≤ 4096 →
      (type = HEADER_INDEXING_TYPE.INC_INDEXING → add_header_field t ⟨name, value⟩ ≠ none) →
      ((encode_literal_header_field mem buf_start buf_end ⟨name, value⟩ type).1 ≠ -1 ↔
        buf_start + (rfc_literal_new_name type name value).length ≤ buf_end) ∧
      ((encode_literal_header_field mem buf_start buf_end ⟨name, value⟩ type).1 ≠ -1 →
        (encode_literal_header_field mem buf_start buf_end ⟨name, value⟩ type).1 =
          ((rfc_literal_new_name type name value).length : Int) ∧
        bytesAt (encode_literal_header_field mem buf_start buf_end ⟨name, value⟩ type).2
          buf_start (rfc_literal_new_name type name value).length =
          rfc_literal_new_name type name value ∧
        ∃ t', decode_literal_header_field huffman_decode header
            (encode_literal_header_field mem buf_start buf_end ⟨name, value⟩ type).2 buf_start
            (buf_start + (rfc_literal_new_name type name value).length) t =
            some (((rfc_literal_new_name type name value).length : Int), ⟨name, value⟩, t') ∧
          if type = HEADER_INDEXING_TYPE.INC_INDEXING then
            add_header_field t ⟨name, value⟩ = some t'
          else t' = t)) ∧
    (∀ (i : Nat) (name : List Nat), 1 ≤ i → i ≤ 61 + t._headers.length → i < 2 ^ 32 →
      (type = HEADER_INDEXING_TYPE.INC_INDEXING →
        add_header_field t ⟨(get_header_from_indexing_tables t i header).2.name, value⟩ ≠ none) →
      (get_header_from_indexing_tables t i header).1 = 0 ∧
      ((encode_literal_header_field_with_index mem buf_start buf_end ⟨name, value⟩ i type).1 ≠ -1 ↔
        buf_start + (rfc_literal_indexed_name type i value).length ≤ buf_end) ∧
      ((encode_literal_header_field_with_index mem buf_start buf_end ⟨name, value⟩ i type).1 ≠ -1 →
        (encode_literal_header_field_with_index mem buf_start buf_end ⟨name, value⟩ i type).1 =
          ((rfc_literal_indexed_name type i value).length : Int) ∧
        bytesAt
          (encode_literal_header_field_with_index mem buf_start buf_end ⟨name, value⟩ i type).2
          buf_start (rfc_literal_indexed_name type i value).length =
          rfc_literal_indexed_name type i value ∧
        ∃ t', decode_literal_header_field huffman_decode header
            (encode_literal_header_field_with_index mem buf_start buf_end ⟨name, value⟩ i type).2
            buf_start (buf_start + (rfc_literal_indexed_name type i value).length) t =
            some (((rfc_literal_indexed_name type i value).length : Int),
              ⟨(get_header_from_indexing_tables t i header).2.name, value⟩, t') ∧
          if type = HEADER_INDEXING_TYPE.INC_INDEXING then
            add_header_field t
              ⟨(get_header_from_indexing_tables t i header).2.name, value⟩ = some t'
          else t' = t)) := by
  constructor
  · intro name hname hadd_new
    obtain ⟨hfail, hok⟩ := encode_literal_header_field_spec mem buf_start buf_end ⟨name, value⟩
      type (by simp only; omega) (by simp only; omega) hzero
    simp only at hfail hok
    refine ⟨?_, fun hne => ?_⟩
    · rw [ne_eq, hfail]; omega
    · obtain ⟨h1, h2⟩ := hok hne
      refine ⟨h1, h2, ?_⟩
      have hd := decode_literal_new_name_of_rfc huffman_decode header _ buf_start
        (buf_start + (rfc_literal_new_name type name value).length) t type name value hname
        hvalue h2 (le_refl _)
      by_cases hty : type = HEADER_INDEXING_TYPE.INC_INDEXING
      · rw [if_pos hty] at hd
        obtain ⟨t', ht'⟩ := Option.ne_none_iff_exists'.mp (hadd_new hty)
        refine ⟨t', ?_, by rw [if_pos hty]; exact ht'⟩
        rw [hd, ht']
        rfl
      · rw [if_neg hty] at hd
        exact ⟨t, hd, by rw [if_neg hty]⟩
  · intro i name hi1 hi hi32 hadd_idx
    have hget0 : (get_header_from_indexing_tables t i header).1 = 0 := by
      unfold get_header_from_indexing_tables get_current_entry_num
        TS_HPACK_STATIC_TABLE_ENTRY_NUM
      by_cases h1 : i < 62
      · simp only [Nat.ne_of_gt hi1, h1, if_false, dite_true]
      · simp only [Nat.ne_of_gt hi1, h1, if_false, dite_false]
        rw [dif_pos (by omega)]
    obtain ⟨hfail, hok⟩ := encode_literal_header_field_with_index_spec mem buf_start buf_end
      ⟨name, value⟩ i type (by simp only; omega) hzero
    simp only at hfail hok
    refine ⟨hget0, ?_, fun hne => ?_⟩
    · rw [ne_eq, hfail]; omega
    · obtain ⟨h1, h2⟩ := hok hne
      refine ⟨h1, h2, ?_⟩
      have hd := decode_literal_indexed_name_of_rfc huffman_decode header _ buf_start
        (buf_start + (rfc_literal_indexed_name type i value).length) t type i value (by omega)
        hi32 hvalue h2 (le_refl _)
      by_cases hty : type = HEADER_INDEXING_TYPE.INC_INDEXING
      · rw [if_pos hty] at hd
        obtain ⟨t', ht'⟩ := Option.ne_none_iff_exists'.mp (hadd_idx hty)
        refine ⟨t', ?_, by rw [if_pos hty]; exact ht'⟩
        rw [hd, ht']
        rfl
      · rw [if_neg hty] at hd
        exact ⟨t, hd, by rw [if_neg hty]⟩

/-- An instance of the literal field round trip: the value "custom-header" with
incremental indexing in a
zero-filled buffer of 128 bytes and against a fresh table, once with the inline
name "custom-key" (wire form 40 0A "custom-key" 0D "custom-header") and once
with the name index 4, whose name is ":path" (wire form 44 0D
"custom-header"). -/
theorem literal_field_round_trip_witness :
    rfc_literal_new_name HEADER_INDEXING_TYPE.INC_INDEXING (c_str "custom-key")
        (c_str "custom-header") =
      0x40 :: 0x0A :: (c_str "custom-key" ++ 0x0D :: c_str "custom-header") ∧
    (∃ t', decode_literal_header_field (fun _ _ _ => none) ⟨[], []⟩
        (encode_literal_header_field (fun _ => 0) 0 128
          ⟨c_str "custom-key", c_str "custom-header"⟩ HEADER_INDEXING_TYPE.INC_INDEXING).2 0
        (0 + (rfc_literal_new_name HEADER_INDEXING_TYPE.INC_INDEXING (c_str "custom-key")
          (c_str "custom-header")).length) Http2HeaderTable.fresh =
        some (((rfc_literal_new_name HEADER_INDEXING_TYPE.INC_INDEXING (c_str "custom-key")
          (c_str "custom-header")).length : Int),
          ⟨c_str "custom-key", c_str "custom-header"⟩, t') ∧
      if HEADER_INDEXING_TYPE.INC_INDEXING = HEADER_INDEXING_TYPE.INC_INDEXING then
        add_header_field Http2HeaderTable.fresh ⟨c_str "custom-key", c_str "custom-header"⟩ =
          some t'
      else t' = Http2HeaderTable.fresh) ∧
    rfc_literal_indexed_name HEADER_INDEXING_TYPE.INC_INDEXING 4 (c_str "custom-header") =
      0x44 :: 0x0D :: c_str "custom-header" ∧
    (get_header_from_indexing_tables Http2HeaderTable.fresh 4 ⟨[], []⟩).2.name = c_str ":path" ∧
    (∃ t', decode_literal_header_field (fun _ _ _ => none) ⟨[], []⟩
        (encode_literal_header_field_with_index (fun _ => 0) 0 128
          ⟨[], c_str "custom-header"⟩ 4 HEADER_INDEXING_TYPE.INC_INDEXING).2 0
        (0 + (rfc_literal_indexed_name HEADER_INDEXING_TYPE.INC_INDEXING 4
          (c_str "custom-header")).length) Http2HeaderTable.fresh =
        some (((rfc_literal_indexed_name HEADER_INDEXING_TYPE.INC_INDEXING 4
          (c_str "custom-header")).length : Int),
          ⟨(get_header_from_indexing_tables Http2HeaderTable.fresh 4 ⟨[], []⟩).2.name,
            c_str "custom-header"⟩, t') ∧
      if HEADER_INDEXING_TYPE.INC_INDEXING = HEADER_INDEXING_TYPE.INC_INDEXING then
        add_header_field Http2HeaderTable.fresh
          ⟨(get_header_from_indexing_tables Http2HeaderTable.fresh 4 ⟨[], []⟩).2.name,
            c_str "custom-header"⟩ = some t'
      else t' = Http2HeaderTable.fresh) :=
  have h := literal_field_round_trip (fun _ _ _ => none) (fun _ => 0) 0 128
    HEADER_INDEXING_TYPE.INC_INDEXING (c_str "custom-header") ⟨[], []⟩
    Http2HeaderTable.fresh (by decide) (fun _ _ _ => rfl)
  ⟨by decide,
    ((h.1 (c_str "custom-key") (by decide) (fun _ => by decide)).2 (by decide)).2.2,
    by decide, by decide,
    ((h.2 4 [] (by decide) (by decide) (by decide) (fun _ => by decide)).2.2 (by decide)).2.2⟩

/-- C15 (literal field round trip). A fresh table that receives a field of size
4096 (a name of 4064 bytes) and then a field of size 4097 (a name of 4065 bytes)
is left without entries and with `_current_size` 4096. The field ("a", "b")
with incremental indexing is encoded, in a zero-filled buffer of 128 bytes, on
the five bytes 40 01 61 01 62; against that table `decode_literal_header_field`
over exactly those bytes does not return: `add_header_field` raises
`_current_size` to 4130, above the maximum size 4096, and its loop reads the
last entry of the empty `_headers`. -/
theorem literal_round_trip_stops_on_stale_size :
    (add_header_field Http2HeaderTable.fresh ⟨List.replicate 4064 97, []⟩).bind
        (fun t => add_header_field t ⟨List.replicate 4065 97, []⟩) = some ⟨[], 4096, 4096⟩ ∧
    (encode_literal_header_field (fun _ => 0) 0 128 ⟨[0x61], [0x62]⟩
      HEADER_INDEXING_TYPE.INC_INDEXING).1 = 5 ∧
    bytesAt (encode_literal_header_field (fun _ => 0) 0 128 ⟨[0x61], [0x62]⟩
      HEADER_INDEXING_TYPE.INC_INDEXING).2 0 5 = [0x40, 0x01, 0x61, 0x01, 0x62] ∧
    decode_literal_header_field (fun _ _ _ => none) ⟨[], []⟩
      (encode_literal_header_field (fun _ => 0) 0 128 ⟨[0x61], [0x62]⟩
        HEADER_INDEXING_TYPE.INC_INDEXING).2 0 (0 + 5) ⟨[], 4096, 4096⟩ = none ∧
    decode_literal_header_field (fun _ _ _ => none) ⟨[], []⟩
      (encode_literal_header_field (fun _ => 0) 0 128 ⟨[0x61], [0x62]⟩
        HEADER_INDEXING_TYPE.INC_INDEXING).2 0 (0 + 5) Http2HeaderTable.fresh =
      some (5, ⟨[0x61], [0x62]⟩, ⟨[⟨[0x61], [0x62]⟩], 34, 4096⟩) := by
  refine ⟨?_, by decide, by decide, by decide, by decide⟩
  have hs1 := header_size_replicate 4064 97 (by decide)
  have hs2 := header_size_replicate 4065 97 (by decide)
  have h1 := add_header_field_empty 0 4096 4096 ⟨List.replicate 4064 97, []⟩ hs1
    (by decide) (by decide)
  show (add_header_field ⟨[], 0, 4096⟩ _).bind _ = _
  rw [h1, Option.some_bind]
  exact add_header_field_of_gt _ _ 4097 hs2 (by decide)

/-! ## The indexed field and the string codec -/

/-- C16, as stated, fails: the index 62 is encoded on the single byte BE, and
`decode_indexed_header_field` over exactly that byte, against a fresh table
(whose combined index space ends at 61), returns -1: it does not report the byte
as consumed. -/
theorem indexed_field_round_trip_counterexample :
    (encode_indexed_header_field (fun _ => 0) 0 128 62).1 = 1 ∧
    bytesAt (encode_indexed_header_field (fun _ => 0) 0 128 62).2 0 1 = [0xBE] ∧
    (decode_indexed_header_field ⟨[], []⟩ (encode_indexed_header_field (fun _ => 0) 0 128 62).2
      0 (0 + 1) Http2HeaderTable.fresh).1 = -1 ∧
    ¬ (decode_indexed_header_field ⟨[], []⟩ (encode_indexed_header_field (fun _ => 0) 0 128 62).2
      0 (0 + 1) Http2HeaderTable.fresh).1 = 1 := by
  decide

/-- C16, amended (indexed field round trip). For every index `i >= 1` (a
`uint32_t`) and every zero-filled buffer: `encode_indexed_header_field` succeeds
when the buffer is larger than the wire form, and whenever it succeeds it
returns the length of, and has written, the 7-bit-prefix integer encoding of `i`
with the bit 0x80 of the first byte set. Over exactly those bytes
`decode_integer` reads the index `i` from all of them; when `i` is within the
combined index space, `decode_indexed_header_field` reports all of them consumed
and returns the table entry at index `i`, and when `i` is outside it,
`decode_indexed_header_field` returns -1. -/
theorem indexed_field_round_trip (mem : Mem) (buf_start buf_end i : Nat) (header : MIMEField)
    (t : Http2HeaderTable) (hi1 : 1 ≤ i) (hi32 : i < 2 ^ 32)
    (hzero : ∀ a, buf_start ≤ a → a < buf_end → mem a = 0) :
    (buf_start + (rfc_indexed_header_field i).length < buf_end →
      (encode_indexed_header_field mem buf_start buf_end i).1 ≠ -1) ∧
    ((encode_indexed_header_field mem buf_start buf_end i).1 ≠ -1 →
      (encode_indexed_header_field mem buf_start buf_end i).1 =
        ((rfc_indexed_header_field i).length : Int) ∧
      bytesAt (encode_indexed_header_field mem buf_start buf_end i).2 buf_start
        (rfc_indexed_header_field i).length = rfc_indexed_header_field i ∧
      decode_integer (encode_indexed_header_field mem buf_start buf_end i).2 buf_start
        (buf_start + (rfc_indexed_header_field i).length) 7 =
        (((rfc_indexed_header_field i).length : Int), i) ∧
      (i ≤ 61 + t._headers.length →
        (get_header_from_indexing_tables t i header).1 = 0 ∧
        decode_indexed_header_field header
          (encode_indexed_header_field mem buf_start buf_end i).2 buf_start
          (buf_start + (rfc_indexed_header_field i).length) t =
          (((rfc_indexed_header_field i).length : Int),
            (get_header_from_indexing_tables t i header).2, t)) ∧
      (61 + t._headers.length < i →
        (decode_indexed_header_field header
          (encode_indexed_header_field mem buf_start buf_end i).2 buf_start
          (buf_start + (rfc_indexed_header_field i).length) t).1 = -1)) := by
  have hget0 : (get_header_from_indexing_tables t i header).1 = 0 ↔
      1 ≤ i ∧ i ≤ 61 + t._headers.length := by
    unfold get_header_from_indexing_tables get_current_entry_num TS_HPACK_STATIC_TABLE_ENTRY_NUM
    by_cases h1 : i < 62
    · simp only [Nat.ne_of_gt hi1, h1, if_false, dite_true]
      simp; omega
    · by_cases h2 : i < 62 + t._headers.length
      · simp only [Nat.ne_of_gt hi1, h1, h2, if_false, dite_true, dite_false]
        simp; omega
      · simp only [Nat.ne_of_gt hi1, h1, h2, if_false, dite_false]
        simp; omega
  have hgetm : (get_header_from_indexing_tables t i header).1 = -1 ↔
      61 + t._headers.length < i := by
    unfold get_header_from_indexing_tables get_current_entry_num TS_HPACK_STATIC_TABLE_ENTRY_NUM
    by_cases h1 : i < 62
    · simp only [Nat.ne_of_gt hi1, h1, if_false, dite_true]
      simp; omega
    · by_cases h2 : i < 62 + t._headers.length
      · simp only [Nat.ne_of_gt hi1, h1, h2, if_false, dite_true, dite_false]
        simp; omega
      · simp only [Nat.ne_of_gt hi1, h1, h2, if_false, dite_false]
        simp; omega
  by_cases hb : buf_start < buf_end
  · obtain ⟨hfail, hok⟩ :=
      encode_indexed_header_field_spec mem buf_start buf_end i (hzero _ (le_refl _) hb)
    refine ⟨?_, fun hne => ?_⟩
    · intro hroom
      rw [ne_eq, hfail]; omega
    · obtain ⟨h1, h2, -⟩ := hok hne
      obtain ⟨d1, d2⟩ := decode_indexed_header_field_of_rfc header _ buf_start
        (buf_start + (rfc_indexed_header_field i).length) i t hi32 h2 (le_refl _)
      refine ⟨h1, h2, d1, fun hin => ?_, fun hout => ?_⟩
      · have h0 := hget0.mpr ⟨hi1, hin⟩
        refine ⟨h0, ?_⟩
        rw [d2, if_neg (by rw [h0]; decide)]
      · rw [d2, if_pos (hgetm.mpr hout)]
  · have hr : encode_indexed_header_field mem buf_start buf_end i = (-1, mem) := by
      unfold encode_indexed_header_field
      rw [if_pos (by omega)]
    rw [hr]
    refine ⟨fun hroom => ?_, fun hne => absurd rfl hne⟩
    omega

/-- Witness of C16, amended: the index 2 in a zero-filled buffer of 128 bytes is
encoded on the single byte 82, which decodes to (:method, GET) with one byte
consumed. -/
theorem indexed_field_round_trip_witness :
    rfc_indexed_header_field 2 = [0x82] ∧
    (encode_indexed_header_field (fun _ => 0) 0 128 2).1 = 1 ∧
    bytesAt (encode_indexed_header_field (fun _ => 0) 0 128 2).2 0 1 = [0x82] ∧
    get_header_from_indexing_tables Http2HeaderTable.fresh 2 ⟨[], []⟩ =
      (0, ⟨c_str ":method", c_str "GET"⟩) ∧
    decode_indexed_header_field ⟨[], []⟩ (encode_indexed_header_field (fun _ => 0) 0 128 2).2 0
        (0 + (rfc_indexed_header_field 2).length) Http2HeaderTable.fresh =
      (((rfc_indexed_header_field 2).length : Int),
        (get_header_from_indexing_tables Http2HeaderTable.fresh 2 ⟨[], []⟩).2,
        Http2HeaderTable.fresh) :=
  ⟨by decide, by decide, by decide, by decide,
    (((indexed_field_round_trip (fun _ => 0) 0 128 2 ⟨[], []⟩ Http2HeaderTable.fresh (by decide)
      (by decide) (fun _ _ _ => rfl)).2 (by decide)).2.2.2.1 (by decide)).2⟩

/-- C17 (string round trip with H=0). For every byte string `s` of at most 4096
bytes and every zero-filled buffer: `encode_string` succeeds exactly when the
buffer has room for the wire form, and then it returns the length of, and has
written, the 7-bit-prefix integer encoding of `len(s)` followed by the bytes of
`s`, with the bit 0x80 of the first byte clear; `decode_string` over exactly
those bytes returns `s` and reports all of them consumed. -/
theorem string_round_trip (huffman_decode : HuffmanDecode) (mem : Mem)
    (buf_start buf_end : Nat) (s : List Nat) (hs : s.length ≤ 4096)
    (hzero : ∀ a, buf_start ≤ a → a < buf_end → mem a = 0) :
    ((encode_string mem buf_start buf_end s).1 ≠ -1 ↔
      buf_start + (rfc_encode_integer s.length 7 ++ s).length ≤ buf_end) ∧
    ((encode_string mem buf_start buf_end s).1 ≠ -1 →
      (encode_string mem buf_start buf_end s).1 = ((rfc_encode_integer s.length 7 ++ s).length : Int) ∧
      bytesAt (encode_string mem buf_start buf_end s).2 buf_start
        (rfc_encode_integer s.length 7 ++ s).length = rfc_encode_integer s.length 7 ++ s ∧
      (encode_string mem buf_start buf_end s).2 buf_start &&& 0x80 = 0 ∧
      decode_string huffman_decode (encode_string mem buf_start buf_end s).2 buf_start
        (buf_start + (rfc_encode_integer s.length 7 ++ s).length) =
        (((rfc_encode_integer s.length 7 ++ s).length : Int), s)) := by
  obtain ⟨hfail, hok⟩ := encode_string_zero_filled mem buf_start buf_end s (by omega) hzero
  have hdef : rfc_encode_string s = rfc_encode_integer s.length 7 ++ s := rfl
  rw [hdef] at hfail hok
  refine ⟨?_, fun hne => ?_⟩
  · rw [ne_eq, hfail]; omega
  · obtain ⟨h1, h2, -⟩ := hok hne
    refine ⟨h1, h2, ?_, ?_⟩
    · obtain ⟨b, bs, henc, hble, -, -⟩ := rfc_encode_integer_cons s.length 7
      rw [henc] at h2
      simp only [List.cons_append, List.length_cons] at h2
      rw [bytesAt_succ] at h2
      injection h2 with hfirst _
      rw [hfirst]
      exact (byte_bits b (by norm_num at hble; omega)).2.2.2
    · exact decode_string_of_rfc huffman_decode _ buf_start _ s hs h2 (le_refl _)

/-- Witness of C17: the string "custom-key" in a zero-filled buffer of 128
bytes; the wire form is 0A "custom-key". -/
theorem string_round_trip_witness :
    rfc_encode_integer (c_str "custom-key").length 7 ++ c_str "custom-key" =
      0x0A :: c_str "custom-key" ∧
    decode_string (fun _ _ _ => none)
        (encode_string (fun _ => 0) 0 128 (c_str "custom-key")).2 0
        (0 + (rfc_encode_integer (c_str "custom-key").length 7 ++ c_str "custom-key").length) =
      (((rfc_encode_integer (c_str "custom-key").length 7 ++ c_str "custom-key").length : Int),
        c_str "custom-key") :=
  ⟨by decide,
    ((string_round_trip (fun _ _ _ => none) (fun _ => 0) 0 128 (c_str "custom-key")
      (by decide) (fun _ _ _ => rfl)).2 (by decide)).2.2.2⟩

set_option maxRecDepth 20000 in
/-- C18 (truncated string). The buffer of 128 bytes 7F 00 followed by 126 bytes
"a" declares a raw string of 127 bytes after a length prefix of 2 bytes, so only
126 bytes of it are in the buffer; `decode_string` does not return -1: it
returns 129, more than the 128 bytes of the buffer, and a string whose last byte
is the one at `buf_end` (here 58), which is outside the buffer. -/
theorem decode_string_accepts_truncated_string :
    decode_integer (ofBytes 0 (0x7F :: 0x00 :: (List.replicate 126 0x61 ++ [0x58]))) 0 128 7 =
      (2, 127) ∧
    decode_string (fun _ _ _ => none)
        (ofBytes 0 (0x7F :: 0x00 :: (List.replicate 126 0x61 ++ [0x58]))) 0 128 =
      (129, List.replicate 126 0x61 ++ [0x58]) := by
  decide

/-- C19 (exact-fit string). For every buffer whose first byte has the bit 0x80
clear (a raw string), whose length prefix decodes to `L <= 4096` on `k` bytes and
which ends right after the `L` bytes that follow the prefix, `decode_string`
returns `k + L` and the `L` bytes that follow the length prefix. -/
theorem decode_string_exact_fit (huffman_decode : HuffmanDecode) (mem : Mem)
    (buf_start buf_end k L : Nat)
    (hraw : mem buf_start &&& 0x80 = 0)
    (hpre : decode_integer mem buf_start buf_end 7 = ((k : Int), L))
    (hL : L ≤ 4096)
    (hend : buf_end = buf_start + k + L) :
    decode_string huffman_decode mem buf_start buf_end =
      (((k + L : Nat) : Int), bytesAt mem (buf_start + k) L) := by
  have hk : 1 ≤ k := by
    rcases decode_integer_result mem buf_start buf_end 7 with h | ⟨k', h, hk', -⟩
    · rw [hpre] at h; simp only at h; omega
    · rw [hpre] at h; simp only at h; omega
  unfold decode_string
  simp only [hpre, hraw, HEADER_FIELD_LIMIT_LENGTH]
  rw [if_neg (by omega), if_neg (by omega)]
  simp only [ne_eq, not_true_eq_false, if_false, Int.toNat_ofNat]
  congr 1
  push_cast
  ring

/-- Witness of C19: the 11 bytes 0A "custom-key". -/
theorem decode_string_exact_fit_witness :
    decode_string (fun _ _ _ => none) (ofBytes 0 (0x0A :: c_str "custom-key")) 0 11 =
      (((1 + 10 : Nat) : Int), bytesAt (ofBytes 0 (0x0A :: c_str "custom-key")) (0 + 1) 10) ∧
    bytesAt (ofBytes 0 (0x0A :: c_str "custom-key")) (0 + 1) 10 = c_str "custom-key" :=
  ⟨decode_string_exact_fit (fun _ _ _ => none) (ofBytes 0 (0x0A :: c_str "custom-key")) 0 11 1 10
    (by decide) (by decide) (by decide) (by decide), by decide⟩

/-- The length ceiling of `decode_string`, on the length that `decode_integer`
reads. For every buffer and every Huffman decoder: when the value
`decode_integer` reads on a 7-bit prefix is greater than 4096, `decode_string`
returns -1,
whether or not the bit 0x80 of the first byte is set; and when `decode_string`
returns a length for a raw string (bit 0x80 clear), the string it returns has at
most 4096 bytes. -/
theorem decode_string_length_ceiling (huffman_decode : HuffmanDecode) (mem : Mem)
    (buf_start buf_end : Nat) :
    (HEADER_FIELD_LIMIT_LENGTH < (decode_integer mem buf_start buf_end 7).2 →
      (decode_string huffman_decode mem buf_start buf_end).1 = -1) ∧
    ((decode_string huffman_decode mem buf_start buf_end).1 ≠ -1 →
      mem buf_start &&& 0x80 = 0 →
      (decode_string huffman_decode mem buf_start buf_end).2.length ≤ 4096) := by
  unfold decode_string
  simp only
  constructor
  · intro h
    split
    · rfl
    · rw [if_pos (Or.inl h)]
  · intro hne hraw
    split
    · simp
    · split
      · simp
      · rename_i hc
        simp only [HEADER_FIELD_LIMIT_LENGTH] at hc
        rw [if_neg (by simp [hraw])]
        simp only [bytesAt_length]
        omega

/-- An instance of the length ceiling: the length prefix 7F 82 1F declares 4097
bytes; in a buffer of 8192 bytes `decode_string` returns -1. -/
theorem decode_string_length_ceiling_witness :
    (decode_integer (ofBytes 0 [0x7F, 0x82, 0x1F]) 0 8192 7).2 = 4097 ∧
    (decode_string (fun _ _ _ => none) (ofBytes 0 [0x7F, 0x82, 0x1F]) 0 8192).1 = -1 :=
  ⟨by decide,
    (decode_string_length_ceiling (fun _ _ _ => none) (ofBytes 0 [0x7F, 0x82, 0x1F]) 0 8192).1
      (by decide)⟩

set_option maxRecDepth 20000 in
/-- C20 (string length ceiling). The length prefix 7F FF FF FF FF 0F declares a
string of 4294967422 bytes, more than 4096; `decode_integer` wraps the length to
126, and `decode_string` over the buffer of 132 bytes that holds the prefix and
126 bytes "a" does not return -1: it returns 132 and a string of 126 bytes. With
the Huffman bit set (first byte FF) the same buffer is not refused either: the
126 bytes are handed to `huffman_decode`, and 132 is returned when it returns a
string. -/
theorem decode_string_accepts_wrapped_length :
    rfc_integer_value 7 [0x7F, 0xFF, 0xFF, 0xFF, 0xFF, 0x0F] = 4294967422 ∧
    HEADER_FIELD_LIMIT_LENGTH < rfc_integer_value 7 [0x7F, 0xFF, 0xFF, 0xFF, 0xFF, 0x0F] ∧
    decode_string (fun _ _ _ => none)
      (ofBytes 0 ([0x7F, 0xFF, 0xFF, 0xFF, 0xFF, 0x0F] ++ List.replicate 126 0x61)) 0 132 =
      (132, List.replicate 126 0x61) ∧
    decode_string (fun _ _ l => some [l])
      (ofBytes 0 ([0xFF, 0xFF, 0xFF, 0xFF, 0xFF, 0x0F] ++ List.replicate 126 0x61)) 0 132 =
      (132, [126]) := by
  decide

/-! ## The integer codec on truncated, over-long and exactly fitting input -/

/-- The loop of `decode_integer` returns -1 when every byte after `p` and
before `buf_end` has the bit 0x80 set. -/
theorem decode_integer_loop_truncated (mem : Mem) (buf_end : Nat) :
    ∀ (counter p dst m : Nat), (∀ a, p < a → a < buf_end → mem a &&& 0x80 ≠ 0) →
      (decode_integer_loop mem buf_end counter p dst m).1 = none := by
  intro counter
  induction counter with
  | zero => intro p dst m _; rfl
  | succ k ih =>
    intro p dst m h
    unfold decode_integer_loop
    dsimp only
    split
    · rfl
    · split
      · rfl
      · rw [if_pos (h (p + 1) (by omega) (by omega))]
        exact ih _ _ _ (fun a ha hb => h a (by omega) hb)

/-- C21 (truncated integer). For every `n` in 1..8 and every non-empty buffer
whose first byte has all `n` prefix bits set and in which every byte after the
first has the bit 0x80 set (the buffer ends before a continuation byte with the
bit 0x80 clear is reached), `decode_integer` returns -1. -/
theorem decode_integer_truncated (mem : Mem) (buf_start buf_end n : Nat)
    (_hn1 : 1 ≤ n) (_hn8 : n ≤ 8) (_hne : buf_start < buf_end)
    (hfirst : mem buf_start &&& (2 ^ n - 1) = 2 ^ n - 1)
    (hcont : ∀ a, buf_start < a → a < buf_end → mem a &&& 0x80 ≠ 0) :
    (decode_integer mem buf_start buf_end n).1 = -1 := by
  have h := decode_integer_loop_truncated mem buf_end (buf_end - buf_start) buf_start
    (2 ^ n - 1) 0 hcont
  simp only [decode_integer, Nat.one_shiftLeft, hfirst, if_true]
  split
  · rfl
  · rename_i p dst heq
    rw [heq] at h
    simp at h

/-- Witness of C21: the first two bytes 1F 9A of the encoding 1F 9A 0A of 1337
on a 5-bit prefix, and the single byte 1F. -/
theorem decode_integer_truncated_witness :
    (decode_integer (ofBytes 0 [0x1F, 0x9A]) 0 2 5).1 = -1 ∧
    (decode_integer (ofBytes 0 [0x1F]) 0 1 5).1 = -1 :=
  ⟨decode_integer_truncated (ofBytes 0 [0x1F, 0x9A]) 0 2 5 (by decide) (by decide) (by decide)
      (by decide) (by
        intro a h1 h2
        have ha : a = 1 := by omega
        subst ha
        decide),
    by decide⟩

/-- C22 (over-long integer). Over the 11 bytes 7F 80 80 80 80 80 80 80 80 80 00
(a saturated 7-bit prefix, nine continuation bytes 0x80 and a final 0x00: ten
continuation bytes) `decode_integer` returns the length 11 and the value 127,
not -1: a continuation byte that carries the value 0 passes the test
`(UINT32_MAX >> m) < added_value` for every `m`. -/
theorem decode_integer_accepts_overlong_integer :
    decode_integer
      (ofBytes 0 [0x7F, 0x80, 0x80, 0x80, 0x80, 0x80, 0x80, 0x80, 0x80, 0x80, 0x00]) 0 11 7 =
      (11, 127) := by
  decide

/-- The bits of `b ||| v` below and from bit `n` on, for `v` of at most `n`
bits. -/
theorem or_low_bits (b v n : Nat) (hv : v < 2 ^ n) :
    (b ||| v) / 2 ^ n = b / 2 ^ n ∧ (b ||| v) % 2 ^ n = (b % 2 ^ n) ||| v := by
  constructor
  · rw [← Nat.shiftRight_eq_div_pow, ← Nat.shiftRight_eq_div_pow]
    apply Nat.eq_of_testBit_eq
    intro i
    simp only [Nat.testBit_shiftRight, Nat.testBit_or]
    rw [Nat.testBit_lt_two_pow (lt_of_lt_of_le hv (Nat.pow_le_pow_right (by decide) (by omega)))]
    simp
  · apply Nat.eq_of_testBit_eq
    intro i
    simp only [Nat.testBit_mod_two_pow, Nat.testBit_or]
    by_cases hi : i < n
    · simp [hi]
    · rw [Nat.testBit_lt_two_pow (lt_of_lt_of_le hv (Nat.pow_le_pow_right (by decide) (by omega)))]
      simp [hi]

/-- C23, as stated, fails: with n = 5, value = 2 and a first byte that holds 1,
`encode_integer` returns 1 and leaves 3 in the byte: its low 5 bits are 3, not
the value 2. -/
theorem encode_integer_small_value_counterexample :
    (2 : Nat) < 2 ^ 5 - 1 ∧
    (encode_integer (store (fun _ => 0) 0 1) 0 1 2 5).1 = 1 ∧
    (encode_integer (store (fun _ => 0) 0 1) 0 1 2 5).2 0 = 3 ∧
    ¬ ((encode_integer (store (fun _ => 0) 0 1) 0 1 2 5).2 0 % 2 ^ 5 = 2) := by
  decide

/-- C23, amended (small-value integer encode on an arbitrary destination byte).
For every `n` in 1..8, every `value < 2 ^ n - 1` and every initial content `b`
of the first byte of a non-empty buffer: `encode_integer` returns 1, leaves
`b ||| value` in the first byte and leaves every other byte as it was; the high
`8 - n` bits of the byte are those of `b`, and its low `n` bits are those of `b`
or-ed with `value`, so that they equal `value` when the low `n` bits of `b` are
clear. -/
theorem encode_integer_small_value (mem : Mem) (buf_start buf_end value n : Nat)
    (_hn1 : 1 ≤ n) (hn8 : n ≤ 8) (hv : value < 2 ^ n - 1) (hne : buf_start < buf_end)
    (hb : mem buf_start < 256) :
    (encode_integer mem buf_start buf_end value n).1 = 1 ∧
    (encode_integer mem buf_start buf_end value n).2 buf_start = mem buf_start ||| value ∧
    (encode_integer mem buf_start buf_end value n).2 buf_start / 2 ^ n = mem buf_start / 2 ^ n ∧
    (encode_integer mem buf_start buf_end value n).2 buf_start % 2 ^ n =
      (mem buf_start % 2 ^ n) ||| value ∧
    (mem buf_start % 2 ^ n = 0 →
      (encode_integer mem buf_start buf_end value n).2 buf_start % 2 ^ n = value) ∧
    (∀ a, a ≠ buf_start → (encode_integer mem buf_start buf_end value n).2 a = mem a) := by
  have hv' : value < 2 ^ n := by omega
  have h256 : 2 ^ n ≤ 256 := pow_le_256 n hn8
  have hor : mem buf_start ||| value < 256 :=
    Nat.or_lt_two_pow (n := 8) hb (by omega)
  have hbits := or_low_bits (mem buf_start) value n hv'
  have henc : encode_integer mem buf_start buf_end value n =
      (1, store mem buf_start (mem buf_start ||| value)) := by
    simp only [encode_integer, Nat.one_shiftLeft]
    rw [if_neg (by omega), if_pos hv, Nat.mod_eq_of_lt hor]
    simp
  rw [henc]
  simp only [store_same]
  refine ⟨trivial, trivial, hbits.1, hbits.2, ?_, ?_⟩
  · intro h0
    rw [hbits.2, h0, Nat.zero_or]
  · intro a ha
    exact store_other _ _ _ _ ha

/-- Witness of C23: the value 10 on a 5-bit prefix into a first byte that holds
0x80; the byte becomes 0x8A. -/
theorem encode_integer_small_value_witness :
    (encode_integer (store (fun _ => 0) 0 0x80) 0 1 10 5).1 = 1 ∧
    (encode_integer (store (fun _ => 0) 0 0x80) 0 1 10 5).2 0 = 0x8A :=
  ⟨(encode_integer_small_value (store (fun _ => 0) 0 0x80) 0 1 10 5 (by decide) (by decide)
      (by decide) (by decide) (by decide)).1,
    by decide⟩

/-- A multi-byte encoding is refused in a buffer that holds exactly its bytes:
for `value ≥ 2 ^ n - 1` and a buffer of as many bytes as the reference encoding
has, `encode_integer` returns -1. -/
theorem encode_integer_exact_fit_fails (mem : Mem) (buf_start buf_end value n : Nat) (hn : n ≤ 8)
    (h0 : mem buf_start = 0) (hv : 2 ^ n - 1 ≤ value)
    (hend : buf_end = buf_start + (rfc_encode_integer value n).length) :
    (encode_integer mem buf_start buf_end value n).1 = -1 := by
  have h := (encode_integer_spec mem buf_start buf_end value n hn h0).1
  exact h.2 (Or.inr ⟨hv, by omega⟩)

/-- C24 (exact-fit integer encode). The encoding of 1337 on a 5-bit prefix is
the three bytes 1F 9A 0A; in a zero-filled buffer of exactly three bytes
`encode_integer` returns -1 (the final test `p + 1 >= buf_end` asks for a byte
after the last one), in a buffer of four bytes it returns 3. -/
theorem encode_integer_rejects_exact_fit :
    rfc_encode_integer 1337 5 = [0x1F, 0x9A, 0x0A] ∧
    (encode_integer (fun _ => 0) 0 3 1337 5).1 = -1 ∧
    (encode_integer (fun _ => 0) 0 4 1337 5).1 = 3 ∧
    bytesAt (encode_integer (fun _ => 0) 0 4 1337 5).2 0 3 = [0x1F, 0x9A, 0x0A] := by
  refine ⟨by simp [rfc_encode_integer, rfc_digits], by decide, by decide, by decide⟩

/-! ## The table size update and the table under the decoders -/

theorem flag_bits_5 : ∀ b, b < 32 →
    (b ||| 0x20) &&& 0xe0 = 0x20 ∧ (b ||| 0x20) &&& (2 ^ 5 - 1) = b := by
  decide

/-- A new maximum size that is not below the old one evicts nothing:
`set_header_table_size` only records it. -/
theorem set_header_table_size_of_le (t : Http2HeaderTable) (new_size : Nat)
    (h : t._settings_header_table_size ≤ new_size) :
    set_header_table_size t new_size = some ⟨t._headers, t._current_size, new_size⟩ := by
  unfold set_header_table_size
  have hev : evict_loop new_size t._headers.length t._headers t._settings_header_table_size =
      some (t._headers, t._settings_header_table_size) := by
    cases t._headers.length <;> simp [evict_loop, Nat.not_lt.mpr h]
  simp only [hev]

/-- What `update_header_table_size` returns, in terms of what
`set_header_table_size` does. For an empty buffer `update_header_table_size`
returns -1 and leaves the table unchanged. For a non-empty buffer whose first
byte does not have the pattern 001xxxxx it returns 0 and leaves the table
unchanged. For a non-empty buffer whose first byte has the pattern 001xxxxx: if
`decode_integer` on a 5-bit prefix returns -1, it returns -1 and leaves the
table unchanged; otherwise, where `set_header_table_size` completes for the
value `decode_integer` reads, it returns the length `decode_integer` returns and
the table `set_header_table_size` makes, and where `set_header_table_size` does
not complete, it does not return. In particular, when the buffer starts with the table size update of RFC
7541 for a 32-bit `v`, the length is that of the update and the table is the one
`set_header_table_size` makes for `v`; when `v` is not below the maximum size of
the table, that is the table with the same entries and the maximum size `v`. -/
theorem update_header_table_size_spec (mem : Mem) (buf_start buf_end : Nat)
    (t : Http2HeaderTable) :
    (buf_start = buf_end → update_header_table_size mem buf_start buf_end t = some (-1, t)) ∧
    (buf_start < buf_end → mem buf_start &&& 0xe0 ≠ 0x20 →
      update_header_table_size mem buf_start buf_end t = some (0, t)) ∧
    (buf_start < buf_end → mem buf_start &&& 0xe0 = 0x20 →
      (decode_integer mem buf_start buf_end 5).1 = -1 →
      update_header_table_size mem buf_start buf_end t = some (-1, t)) ∧
    (buf_start < buf_end → mem buf_start &&& 0xe0 = 0x20 →
      (decode_integer mem buf_start buf_end 5).1 ≠ -1 →
      update_header_table_size mem buf_start buf_end t =
        (set_header_table_size t (decode_integer mem buf_start buf_end 5).2).map
          (fun t' => ((decode_integer mem buf_start buf_end 5).1, t'))) ∧
    (∀ v, v < 2 ^ 32 →
      bytesAt mem buf_start (rfc_table_size_update v).length = rfc_table_size_update v →
      buf_start + (rfc_table_size_update v).length ≤ buf_end →
      update_header_table_size mem buf_start buf_end t =
        (set_header_table_size t v).map
          (fun t' => (((rfc_table_size_update v).length : Int), t'))) ∧
    (∀ v, v < 2 ^ 32 →
      bytesAt mem buf_start (rfc_table_size_update v).length = rfc_table_size_update v →
      buf_start + (rfc_table_size_update v).length ≤ buf_end →
      t._settings_header_table_size ≤ v →
      update_header_table_size mem buf_start buf_end t =
        some (((rfc_table_size_update v).length : Int), ⟨t._headers, t._current_size, v⟩)) := by
  have hgen : buf_start ≠ buf_end → mem buf_start &&& 0xe0 = 0x20 →
      (decode_integer mem buf_start buf_end 5).1 ≠ -1 →
      update_header_table_size mem buf_start buf_end t =
        (set_header_table_size t (decode_integer mem buf_start buf_end 5).2).map
          (fun t' => ((decode_integer mem buf_start buf_end 5).1, t')) := by
    intro hne hpat hlen
    unfold update_header_table_size
    rw [if_neg hne]
    simp only [hpat, if_true]
    rw [if_neg hlen]
    cases set_header_table_size t (decode_integer mem buf_start buf_end 5).2 <;> rfl
  have href : ∀ v, v < 2 ^ 32 →
      bytesAt mem buf_start (rfc_table_size_update v).length = rfc_table_size_update v →
      buf_start + (rfc_table_size_update v).length ≤ buf_end →
      update_header_table_size mem buf_start buf_end t =
        (set_header_table_size t v).map
          (fun t' => (((rfc_table_size_update v).length : Int), t')) := by
    intro v hv hb hend
    obtain ⟨b, bs, henc, hble, -, -⟩ := rfc_encode_integer_cons v 5
    have heq : rfc_table_size_update v = (b ||| 0x20) :: bs :=
      rfc_encode_flagged_integer_eq 0x20 v 5 b bs henc
    rw [heq] at hb hend ⊢
    simp only [List.length_cons] at hb hend ⊢
    rw [bytesAt_succ] at hb
    injection hb with hfirst hrest
    have hb32 : b < 32 := by norm_num at hble; omega
    have hdec := decode_integer_of_rfc mem buf_start buf_end v 5 b bs (by decide) (by decide)
      hv henc (by rw [hfirst]; exact (flag_bits_5 b hb32).2) hrest (by omega)
    have hpat : mem buf_start &&& 0xe0 = 0x20 := by rw [hfirst]; exact (flag_bits_5 b hb32).1
    rw [hgen (by omega) hpat (by rw [hdec]; simp only; omega), hdec]
  refine ⟨?_, ?_, ?_, ?_, href, ?_⟩
  · intro h
    unfold update_header_table_size
    rw [if_pos h]
  · intro hne hpat
    unfold update_header_table_size
    rw [if_neg (by omega)]
    simp only [hpat, if_false]
  · intro hne hpat hlen
    unfold update_header_table_size
    rw [if_neg (by omega)]
    simp only [hpat, if_true]
    rw [if_pos hlen]
  · intro hne hpat hlen
    exact hgen (by omega) hpat hlen
  · intro v hv hb hend hle
    rw [href v hv hb hend, set_header_table_size_of_le t v hle]
    rfl

/-- Instances of the table size update: the update 3F E1 1F (new maximum size
4096) on a fresh table takes three bytes and leaves the table as it was; the byte 82 is no update;
the empty buffer gives -1. -/
theorem update_header_table_size_spec_witness :
    rfc_table_size_update 4096 = [0x3F, 0xE1, 0x1F] ∧
    update_header_table_size (ofBytes 0 [0x3F, 0xE1, 0x1F]) 0 3 Http2HeaderTable.fresh =
      some (3, Http2HeaderTable.fresh) ∧
    update_header_table_size (ofBytes 0 [0x82]) 0 1 Http2HeaderTable.fresh =
      some (0, Http2HeaderTable.fresh) ∧
    update_header_table_size (ofBytes 0 []) 0 0 Http2HeaderTable.fresh =
      some (-1, Http2HeaderTable.fresh) :=
  ⟨by simp [rfc_table_size_update, rfc_encode_flagged_integer, rfc_encode_integer, rfc_digits],
    by decide,
    (update_header_table_size_spec (ofBytes 0 [0x82]) 0 1 Http2HeaderTable.fresh).2.1
      (by decide) (by decide),
    (update_header_table_size_spec (ofBytes 0 []) 0 0 Http2HeaderTable.fresh).1 rfl⟩

/-- C25 (table size update). The byte 20 is the size update for the maximum
size 0; on a fresh table `update_header_table_size` over that byte does not
return the length 1: `set_header_table_size(0)` starts its loop on `old_size`
4096 and reads the last entry of the empty `_headers`. Likewise for the update
3E (maximum size 30) on the table that holds one entry of size 34, which a fresh
table holds after one `add_header_field`: the entry is evicted, `old_size` is
4062, and the loop reads the last entry of the empty `_headers`. -/
theorem update_header_table_size_does_not_return :
    rfc_table_size_update 0 = [0x20] ∧
    decode_integer (ofBytes 0 [0x20]) 0 1 5 = (1, 0) ∧
    update_header_table_size (ofBytes 0 [0x20]) 0 1 Http2HeaderTable.fresh = none ∧
    add_header_field Http2HeaderTable.fresh ⟨[0x61], [0x62]⟩ =
      some ⟨[⟨[0x61], [0x62]⟩], 34, 4096⟩ ∧
    rfc_table_size_update 30 = [0x3E] ∧
    decode_integer (ofBytes 0 [0x3E]) 0 1 5 = (1, 30) ∧
    update_header_table_size (ofBytes 0 [0x3E]) 0 1 ⟨[⟨[0x61], [0x62]⟩], 34, 4096⟩ = none := by
  refine ⟨?_, by decide, by decide, by decide, ?_, by decide, by decide⟩
  · simp [rfc_table_size_update, rfc_encode_flagged_integer, rfc_encode_integer]
  · simp [rfc_table_size_update, rfc_encode_flagged_integer, rfc_encode_integer]

/-- A length `decode_literal_header_field` computes from the bytes it has read
is not -1. -/
theorem ofNat_sub_ne_neg_one (p buf_start : Nat) (h : buf_start ≤ p) :
    (p : Int) - buf_start ≠ -1 := by
  omega

/-- C30 (decoding leaves the table alone unless it indexes). For every input
and table: `decode_indexed_header_field` returns the table unchanged;
`decode_literal_header_field` on a first byte without the bit 0x40 returns, and
the table it returns is unchanged; and whenever `decode_literal_header_field`
returns -1, the table it returns is unchanged. -/
theorem decoding_leaves_table (huffman_decode : HuffmanDecode) (header : MIMEField)
    (mem : Mem) (buf_start buf_end : Nat) (t : Http2HeaderTable) :
    (decode_indexed_header_field header mem buf_start buf_end t).2.2 = t ∧
    (mem buf_start &&& 0x40 = 0 →
      ∃ len header', decode_literal_header_field huffman_decode header mem buf_start buf_end t =
        some (len, header', t)) ∧
    (∀ header' t', decode_literal_header_field huffman_decode header mem buf_start buf_end t =
        some (-1, header', t') → t' = t) := by
  refine ⟨?_, ?_, ?_⟩
  · unfold decode_indexed_header_field
    simp only
    split
    · rfl
    · split <;> rfl
  · intro hbit
    unfold decode_literal_header_field
    simp only [hbit, ne_eq, not_true_eq_false, if_false]
    generalize (if mem buf_start &&& 0x10 ≠ 0 then decode_integer mem buf_start buf_end 4
      else decode_integer mem buf_start buf_end 4) = di
    obtain ⟨len0, index⟩ := di
    simp only
    split
    · exact ⟨_, _, rfl⟩
    · split
      · exact ⟨_, _, rfl⟩
      · split
        · exact ⟨_, _, rfl⟩
        · exact ⟨_, _, rfl⟩
  · intro header' t' hdec
    unfold decode_literal_header_field at hdec
    simp only at hdec
    generalize (if mem buf_start &&& 0x40 ≠ 0 then decode_integer mem buf_start buf_end 6
      else if mem buf_start &&& 0x10 ≠ 0 then decode_integer mem buf_start buf_end 4
      else decode_integer mem buf_start buf_end 4) = di at hdec
    obtain ⟨len0, index⟩ := di
    simp only at hdec
    split at hdec
    · simp only [Option.some.injEq, Prod.mk.injEq] at hdec
      exact hdec.2.2.symm
    · split at hdec
      · simp only [Option.some.injEq, Prod.mk.injEq] at hdec
        exact hdec.2.2.symm
      · rename_i p1 header1 hnamed
        have hp1 : buf_start ≤ p1 := by
          split at hnamed
          · simp only [Option.some.injEq, Prod.mk.injEq] at hnamed
            omega
          · split at hnamed
            · simp at hnamed
            · simp only [Option.some.injEq, Prod.mk.injEq] at hnamed
              omega
        split at hdec
        · simp only [Option.some.injEq, Prod.mk.injEq] at hdec
          exact hdec.2.2.symm
        · split at hdec
          · split at hdec
            · simp at hdec
            · simp only [Option.some.injEq, Prod.mk.injEq] at hdec
              exact absurd hdec.1 (ofNat_sub_ne_neg_one _ _ (by omega))
          · simp only [Option.some.injEq, Prod.mk.injEq] at hdec
            exact hdec.2.2.symm

/-- Witness of C30: over the single byte 40 (incremental indexing, new name, and
nothing after it) `decode_literal_header_field` returns -1 and the table it was
given; over the bytes 10 01 61 01 62 (never indexed, name "a", value "b") it
returns 5 and the table it was given. -/
theorem decoding_leaves_table_witness :
    decode_literal_header_field (fun _ _ _ => none) ⟨[], []⟩ (ofBytes 0 [0x40]) 0 1
      Http2HeaderTable.fresh = some (-1, ⟨[], []⟩, Http2HeaderTable.fresh) ∧
    decode_literal_header_field (fun _ _ _ => none) ⟨[], []⟩
      (ofBytes 0 [0x10, 0x01, 0x61, 0x01, 0x62]) 0 6 Http2HeaderTable.fresh =
      some (5, ⟨[0x61], [0x62]⟩, Http2HeaderTable.fresh) ∧
    (∀ header' t', decode_literal_header_field (fun _ _ _ => none) ⟨[], []⟩ (ofBytes 0 [0x40]) 0 1
        Http2HeaderTable.fresh = some (-1, header', t') → t' = Http2HeaderTable.fresh) :=
  ⟨by decide, by decide,
    (decoding_leaves_table (fun _ _ _ => none) ⟨[], []⟩ (ofBytes 0 [0x40]) 0 1
      Http2HeaderTable.fresh).2.2⟩

/-! ## Safety of the eviction loop and of the reads of the decoders -/

/-- The eviction loop does not read the last entry of an empty list when its
size variable is, modulo 2^32, the sum of the sizes of the entries plus a number
`s` that is at most the limit: with no entry left the size variable is `s`. -/
theorem evict_loop_safe (limit s : Nat) (hs : s ≤ limit) (hs32 : s < 2 ^ 32) :
    ∀ (fuel : Nat) (headers : List MIMEField) (size : Nat),
      headers.length ≤ fuel → size = (entries_size headers + s) % 2 ^ 32 →
      ∃ k size', k ≤ headers.length ∧
        evict_loop limit fuel headers size = some (headers.take k, size') ∧ size' ≤ limit := by
  intro fuel
  induction fuel with
  | zero =>
    intro headers size hlen hsize
    have hnil : headers = [] := List.length_eq_zero.mp (by omega)
    subst hnil
    rw [entries_size_nil, Nat.zero_add, Nat.mod_eq_of_lt hs32] at hsize
    refine ⟨0, size, le_refl _, ?_, by omega⟩
    rw [evict_loop, if_neg (by omega)]
    rfl
  | succ fuel ih =>
    intro headers size hlen hsize
    by_cases hgt : size > limit
    · have hne : headers ≠ [] := by
        intro h
        rw [h, entries_size_nil, Nat.zero_add, Nat.mod_eq_of_lt hs32] at hsize
        omega
      have hsplit := List.dropLast_append_getLast hne
      have hlast : headers.getLast? = some (headers.getLast hne) := List.getLast?_eq_getLast _ hne
      have hes : entries_size headers =
          entries_size headers.dropLast + entry_size (headers.getLast hne) := by
        conv_lhs => rw [← hsplit]
        rw [entries_size_append, entries_size_singleton]
      have hhs : header_size (headers.getLast hne) = entry_size (headers.getLast hne) % 2 ^ 32 := by
        simp only [header_size, entry_size, ADDITIONAL_OCTETS]
        congr 1
        omega
      have hsize' : (size + 2 ^ 32 - header_size (headers.getLast hne)) % 2 ^ 32 =
          (entries_size headers.dropLast + s) % 2 ^ 32 := by
        rw [hhs, hsize, hes]
        omega
      have hdl : headers.dropLast.length ≤ fuel := by
        rw [List.length_dropLast]; omega
      obtain ⟨k, size', hk, hev, hle⟩ := ih headers.dropLast _ hdl hsize'
      have htake : headers.take k = headers.dropLast.take k := by
        conv_lhs => rw [← hsplit]
        rw [List.take_append_of_le_length hk]
      have hk' : k ≤ headers.length := by
        rw [List.length_dropLast] at hk; omega
      refine ⟨k, size', hk', ?_, hle⟩
      rw [evict_loop, if_pos hgt, hlast]
      simp only
      rw [hev, htake]
    · refine ⟨headers.length, size, le_refl _, ?_, by omega⟩
      rw [evict_loop, if_neg hgt, List.take_length]

/-- C31 (eviction safety in `add_header_field`). For every table whose current
size is the sum of the sizes of its entries and every field whose size is at
most the maximum size: the eviction loop of `add_header_field`, started on the
entries of the table with the current size plus the size of the field (in
`uint32_t`), stops after at most as many rounds as there are entries, without
reading the last entry of an empty list; it keeps the `k` newest entries for
some `k` and leaves a size that is at most the maximum size; and
`add_header_field` completes, with the field in front of those entries. -/
theorem add_header_field_eviction_safe (t : Http2HeaderTable) (field : MIMEField)
    (hacc : t._current_size = entries_size t._headers)
    (hfit : entry_size field ≤ t._settings_header_table_size) :
    ∃ k size', k ≤ t._headers.length ∧
      evict_loop t._settings_header_table_size t._headers.length t._headers
        ((t._current_size + header_size field) % 2 ^ 32) = some (t._headers.take k, size') ∧
      size' ≤ t._settings_header_table_size ∧
      (∀ counter, t._headers.length ≤ counter →
        evict_loop t._settings_header_table_size counter t._headers
          ((t._current_size + header_size field) % 2 ^ 32) = some (t._headers.take k, size')) ∧
      add_header_field t field =
        some ⟨field :: t._headers.take k, size', t._settings_header_table_size⟩ := by
  have hhs : header_size field = entry_size field % 2 ^ 32 := by
    simp only [header_size, entry_size, ADDITIONAL_OCTETS]
    congr 1
    omega
  have hle : header_size field ≤ t._settings_header_table_size := by
    rw [hhs]
    exact le_trans (Nat.mod_le _ _) hfit
  have h32 : header_size field < 2 ^ 32 := by
    rw [hhs]
    exact Nat.mod_lt _ (by decide)
  obtain ⟨k, size', hk, hev, hsz⟩ :=
    evict_loop_safe t._settings_header_table_size (header_size field) hle h32
      t._headers.length t._headers ((t._current_size + header_size field) % 2 ^ 32)
      (le_refl _) (by rw [hacc])
  refine ⟨k, size', hk, hev, hsz, ?_, ?_⟩
  · intro counter hc
    rw [evict_loop_counter t._settings_header_table_size counter t._headers.length t._headers _
      hc (le_refl _)]
    exact hev
  · unfold add_header_field
    simp only
    rw [if_neg (by omega), hev]

/-- Witness of C31: a table with maximum size 100 holding two entries of size 34
receives a field of size 55; the older entry is evicted and the call
completes. -/
theorem add_header_field_eviction_safe_witness :
    add_header_field ⟨[⟨[1], [2]⟩, ⟨[3], [4]⟩], 68, 100⟩
      ⟨c_str "custom-key", c_str "custom-header"⟩ =
      some ⟨[⟨c_str "custom-key", c_str "custom-header"⟩, ⟨[1], [2]⟩], 89, 100⟩ ∧
    ∃ k size', k ≤ 2 ∧
      evict_loop 100 2 [⟨[1], [2]⟩, ⟨[3], [4]⟩] ((68 + header_size ⟨c_str "custom-key",
        c_str "custom-header"⟩) % 2 ^ 32) = some ([⟨[1], [2]⟩, ⟨[3], [4]⟩].take k, size') ∧
      size' ≤ 100 ∧
      (∀ counter, 2 ≤ counter →
        evict_loop 100 counter [⟨[1], [2]⟩, ⟨[3], [4]⟩] ((68 + header_size ⟨c_str "custom-key",
          c_str "custom-header"⟩) % 2 ^ 32) = some ([⟨[1], [2]⟩, ⟨[3], [4]⟩].take k, size')) ∧
      add_header_field ⟨[⟨[1], [2]⟩, ⟨[3], [4]⟩], 68, 100⟩
        ⟨c_str "custom-key", c_str "custom-header"⟩ =
        some ⟨⟨c_str "custom-key", c_str "custom-header"⟩ :: [⟨[1], [2]⟩, ⟨[3], [4]⟩].take k,
          size', 100⟩ :=
  ⟨by decide,
    add_header_field_eviction_safe ⟨[⟨[1], [2]⟩, ⟨[3], [4]⟩], 68, 100⟩
      ⟨c_str "custom-key", c_str "custom-header"⟩ (by decide) (by decide)⟩

/-- The loop of `decode_integer` looks at the memory only at the addresses of
`decode_integer_loop_reads`: on a memory that agrees with `mem` there, it
returns the same and reads the same. -/
theorem decode_integer_loop_reads_sound (mem mem' : Mem) (buf_end : Nat) :
    ∀ (counter p dst m : Nat),
      (∀ a ∈ decode_integer_loop_reads mem buf_end counter p m, mem' a = mem a) →
      decode_integer_loop mem' buf_end counter p dst m =
        decode_integer_loop mem buf_end counter p dst m ∧
      decode_integer_loop_reads mem' buf_end counter p m =
        decode_integer_loop_reads mem buf_end counter p m := by
  intro counter
  induction counter with
  | zero => intro p dst m _; exact ⟨rfl, rfl⟩
  | succ k ih =>
    intro p dst m h
    simp only [decode_integer_loop, decode_integer_loop_reads] at h ⊢
    by_cases hp : p + 1 ≥ buf_end
    · simp only [if_pos hp]
      exact ⟨trivial, trivial⟩
    · simp only [if_neg hp] at h ⊢
      have hmem : mem' (p + 1) = mem (p + 1) := by
        apply h
        split
        · simp
        · split <;> simp
      rw [hmem]
      by_cases hov : UINT32_MAX >>> m < mem (p + 1) &&& 0x7f
      · simp only [if_pos hov]
        exact ⟨trivial, trivial⟩
      · simp only [if_neg hov] at h ⊢
        by_cases hc : mem (p + 1) &&& 0x80 ≠ 0
        · simp only [if_pos hc] at h ⊢
          obtain ⟨h1, h2⟩ := ih (p + 1) ((dst + (mem (p + 1) &&& 0x7f) <<< m) % 2 ^ 32) (m + 7)
            (fun a ha => h a (List.mem_cons_of_mem _ ha))
          exact ⟨h1, by rw [h2]⟩
        · simp only [if_neg hc]
          exact ⟨trivial, trivial⟩

/-- The function `decode_integer` looks at the memory only at the addresses of
`decode_integer_reads`. -/
theorem decode_integer_reads_sound (mem mem' : Mem) (buf_start buf_end n : Nat)
    (h : ∀ a ∈ decode_integer_reads mem buf_start buf_end n, mem' a = mem a) :
    decode_integer mem' buf_start buf_end n = decode_integer mem buf_start buf_end n ∧
    decode_integer_reads mem' buf_start buf_end n = decode_integer_reads mem buf_start buf_end n := by
  unfold decode_integer decode_integer_reads at *
  dsimp only at *
  have hmem : mem' buf_start = mem buf_start := by
    apply h
    split <;> simp
  rw [hmem]
  by_cases hsat : mem buf_start &&& (1 <<< n - 1) = 1 <<< n - 1
  · simp only [if_pos hsat] at h ⊢
    obtain ⟨h1, h2⟩ := decode_integer_loop_reads_sound mem mem' buf_end (buf_end - buf_start)
      buf_start (mem buf_start &&& (1 <<< n - 1)) 0 (fun a ha => h a (List.mem_cons_of_mem _ ha))
    rw [h1, h2]
    exact ⟨rfl, rfl⟩
  · simp only [if_neg hsat]
    exact ⟨trivial, trivial⟩

/-- The loop of `decode_integer` reads inside the buffer only. -/
theorem decode_integer_loop_reads_bounds (mem : Mem) (buf_end : Nat) :
    ∀ (counter p m : Nat), ∀ a ∈ decode_integer_loop_reads mem buf_end counter p m,
      p < a ∧ a < buf_end := by
  intro counter
  induction counter with
  | zero => intro p m a ha; simp [decode_integer_loop_reads] at ha
  | succ k ih =>
    intro p m a ha
    unfold decode_integer_loop_reads at ha
    dsimp only at ha
    split at ha
    · simp at ha
    · split at ha
      · simp only [List.mem_singleton] at ha
        omega
      · split at ha
        · rcases List.mem_cons.mp ha with h | h
          · omega
          · have := ih (p + 1) (m + 7) a h
            omega
        · simp only [List.mem_singleton] at ha
          omega

/-- On a buffer that is not empty, `decode_integer` reads inside the buffer
only; on every buffer, its only read that can be outside is the first, at
`buf_start`. -/
theorem decode_integer_reads_bounds (mem : Mem) (buf_start buf_end n : Nat) :
    (∀ a ∈ decode_integer_reads mem buf_start buf_end n,
      a = buf_start ∨ (buf_start < a ∧ a < buf_end)) ∧
    (buf_start < buf_end →
      ∀ a ∈ decode_integer_reads mem buf_start buf_end n, buf_start ≤ a ∧ a < buf_end) := by
  have h1 : ∀ a ∈ decode_integer_reads mem buf_start buf_end n,
      a = buf_start ∨ (buf_start < a ∧ a < buf_end) := by
    intro a ha
    unfold decode_integer_reads at ha
    dsimp only at ha
    split at ha
    · rcases List.mem_cons.mp ha with h | h
      · exact Or.inl h
      · exact Or.inr (decode_integer_loop_reads_bounds mem buf_end _ _ _ a h)
    · simp only [List.mem_singleton] at ha
      exact Or.inl ha
  refine ⟨h1, ?_⟩
  intro hne a ha
  rcases h1 a ha with h | h <;> omega

/-- The function `decode_string` looks at the memory only at the addresses of
`decode_string_reads`, for a `huffman_decode` that looks only at the bytes it is
handed. -/
theorem decode_string_reads_sound (huffman_decode : HuffmanDecode) (mem mem' : Mem)
    (buf_start buf_end : Nat)
    (hhuff : ∀ p l, (∀ i, i < l → mem' (p + i) = mem (p + i)) →
      huffman_decode mem' p l = huffman_decode mem p l)
    (h : ∀ a ∈ decode_string_reads mem buf_start buf_end, mem' a = mem a) :
    decode_string huffman_decode mem' buf_start buf_end =
      decode_string huffman_decode mem buf_start buf_end := by
  unfold decode_string_reads at h
  unfold decode_string
  dsimp only at h ⊢
  have hfirst : mem' buf_start = mem buf_start := by
    apply h
    split
    · simp
    · split <;> simp
  have hint : decode_integer mem' buf_start buf_end 7 = decode_integer mem buf_start buf_end 7 := by
    apply (decode_integer_reads_sound mem mem' buf_start buf_end 7 _).1
    intro a ha
    apply h
    split
    · simp [ha]
    · split <;> simp [ha]
  rw [hfirst, hint]
  rcases hdi : decode_integer mem buf_start buf_end 7 with ⟨len, L⟩
  rw [hdi] at h
  dsimp only at h ⊢
  by_cases hlen : len = -1
  · simp only [if_pos hlen]
  · simp only [if_neg hlen] at h ⊢
    by_cases hchk : L > HEADER_FIELD_LIMIT_LENGTH ∨ buf_start + L ≥ buf_end
    · simp only [if_pos hchk]
    · simp only [if_neg hchk] at h ⊢
      have hrange : ∀ i, i < L → mem' (buf_start + len.toNat + i) = mem (buf_start + len.toNat + i) := by
        intro i hi
        apply h
        simp only [List.mem_append, List.mem_map, List.mem_range]
        exact Or.inr ⟨i, hi, rfl⟩
      have hb : bytesAt mem' (buf_start + len.toNat) L = bytesAt mem (buf_start + len.toNat) L :=
        bytesAt_congr mem mem' _ _ (fun a h1 h2 => by
          have e := hrange (a - (buf_start + len.toNat)) (by omega)
          rwa [Nat.add_sub_cancel' h1] at e)
      rw [hhuff _ _ hrange, hb]

set_option maxRecDepth 20000 in
/-- C32 (bounded reads while decoding). The decoders read at and beyond
`buf_end`. On the empty buffer at address 5, `decode_integer` reads the byte at
address 5, and what it returns is that byte: length 1 and the value 0 on a
memory of zeros, length 1 and the value 42 when the byte at address 5 is 42. On
the one-byte buffer 01 (a literal field without indexing that ends right after
its index byte, name index 1) `decode_literal_header_field` reads the addresses
0, 0, 1, 1: the `decode_string` for the value starts at `buf_end` = 1 and reads
the byte there twice, for the Huffman bit and for the length. On the buffer of
128 bytes 7F 00 followed by 126 bytes "a", `decode_string` reads the address 128
= `buf_end` and returns the byte there as the last byte of the string. -/
theorem decoders_read_beyond_buf_end :
    decode_integer_reads (fun _ => 0) 5 5 7 = [5] ∧
    decode_integer (fun _ => 0) 5 5 7 = (1, 0) ∧
    decode_integer (store (fun _ => 0) 5 42) 5 5 7 = (1, 42) ∧
    decode_string_reads (fun _ => 0) 5 5 = [5, 5] ∧
    decode_literal_header_field_reads (fun _ _ _ => none) (ofBytes 0 [0x01]) 0 1 = [0, 0, 1, 1] ∧
    128 ∈ decode_string_reads (ofBytes 0 (0x7F :: 0x00 :: (List.replicate 126 0x61 ++ [0x58])))
      0 128 ∧
    (decode_string (fun _ _ _ => none)
      (ofBytes 0 (0x7F :: 0x00 :: (List.replicate 126 0x61 ++ [0x58]))) 0 128).2.getLast? =
      some 0x58 := by
  decide

end HPACK

namespace QUIC


/-! ## The stateless reset, the new connection and the dispatch -/

/-- C26 (stateless-reset decision). When the lookup finds no connection and the
first byte of the packet has the bit 0x80 clear, or when it finds a connection
whose `in_closed_queue` is set, `_recv_packet` sends one stateless reset packet,
made of the destination connection ID of the packet and of the token generated
from it, to the source address of the datagram on the connection the datagram
came in on, frees the datagram and does nothing else: it creates no connection,
pushes no poll event and leaves the collaborators as they were. In every other
case `_recv_packet` sends nothing and frees nothing. -/
theorem stateless_reset_decision {W : Type} (P : Collaborators W) (handler : QUICPacketHandlerIn)
    (w : W) (udp_packet : UDPPacket) :
    (((P.lookup w udp_packet.buf udp_packet.from_ udp_packet.to_ = none ∧
        udp_packet.buf.getD 0 0 &&& 0x80 = 0) ∨
      (∃ vc, P.lookup w udp_packet.buf udp_packet.from_ udp_packet.to_ = some vc ∧
        vc.in_closed_queue ≠ 0)) →
      QUICPacketHandlerIn._recv_packet P handler w udp_packet =
        ([Action.send udp_packet.getConnection udp_packet.from_
            (QUICPacket.stateless_reset (P.destination_connection_id udp_packet.buf)
              (P.generate (P.destination_connection_id udp_packet.buf) P.server_id)) 1200,
          Action.free udp_packet], w)) ∧
    (¬ ((P.lookup w udp_packet.buf udp_packet.from_ udp_packet.to_ = none ∧
        udp_packet.buf.getD 0 0 &&& 0x80 = 0) ∨
      (∃ vc, P.lookup w udp_packet.buf udp_packet.from_ udp_packet.to_ = some vc ∧
        vc.in_closed_queue ≠ 0)) →
      ∀ a ∈ (QUICPacketHandlerIn._recv_packet P handler w udp_packet).1,
        (∃ vc, a = Action.create vc) ∨ (∃ eth vc, a = Action.push eth vc udp_packet)) := by
  unfold QUICPacketHandlerIn._recv_packet
  simp only [has_long_header, QUICPacketHandler._send_packet]
  generalize udp_packet.buf.getD 0 0 &&& 0x80 = b
  cases hl : P.lookup w udp_packet.buf udp_packet.from_ udp_packet.to_ with
  | none =>
    by_cases hb : b = 0
    · simp [hb]
    · simp [hb]
  | some vc =>
    by_cases hc : vc.in_closed_queue = 0
    · simp [hc]
    · simp [hc]

/-- Witness of C26: a short-header packet (first byte 0x40) that the table does
not know is answered by one stateless reset for its destination connection ID
01 02, sent to the source address. -/
theorem stateless_reset_decision_witness :
    QUICPacketHandlerIn._recv_packet sample_collaborators ⟨false, false⟩ 0
        ⟨⟨2, 77⟩, ⟨2, 78⟩, 3, [0x40, 1, 2, 3, 4]⟩ =
      ([Action.send 3 ⟨2, 77⟩ (QUICPacket.stateless_reset [1, 2] [11, 1, 2]) 1200,
        Action.free ⟨⟨2, 77⟩, ⟨2, 78⟩, 3, [0x40, 1, 2, 3, 4]⟩], 0) :=
  (stateless_reset_decision sample_collaborators ⟨false, false⟩ 0
    ⟨⟨2, 77⟩, ⟨2, 78⟩, 3, [0x40, 1, 2, 3, 4]⟩).1 (Or.inl ⟨by decide, by decide⟩)

/-- C27 (new-connection and dispatch path). When the lookup finds no connection
and the first byte of the packet has the bit 0x80 set, `_recv_packet` creates one
connection, whose peer connection ID is the source connection ID of the packet,
whose original connection ID is its destination connection ID and whose thread
is the one `assign_thread` returns, and pushes one poll event, with that
connection and the datagram, onto the queue of that thread; it does nothing
else. When the lookup finds a connection whose `in_closed_queue` is 0,
`_recv_packet` pushes one poll event, with that connection and the datagram, onto
the queue of the thread of that connection, and does nothing else. -/
theorem new_connection_and_dispatch {W : Type} (P : Collaborators W)
    (handler : QUICPacketHandlerIn) (w : W) (udp_packet : UDPPacket) :
    (P.lookup w udp_packet.buf udp_packet.from_ udp_packet.to_ = none →
      udp_packet.buf.getD 0 0 &&& 0x80 ≠ 0 →
      ∃ vc, (QUICPacketHandlerIn._recv_packet P handler w udp_packet).1 =
          [Action.create vc, Action.push (P.assign_thread w).1 vc udp_packet] ∧
        vc.peer_cid = P.source_connection_id udp_packet.buf ∧
        vc.original_cid = P.destination_connection_id udp_packet.buf ∧
        vc.thread = (P.assign_thread w).1 ∧
        vc.in_closed_queue = (P.allocate_vc (P.assign_thread w).2).1.in_closed_queue) ∧
    (∀ vc, P.lookup w udp_packet.buf udp_packet.from_ udp_packet.to_ = some vc →
      vc.in_closed_queue = 0 →
      QUICPacketHandlerIn._recv_packet P handler w udp_packet =
        ([Action.push vc.thread vc udp_packet], w)) := by
  unfold QUICPacketHandlerIn._recv_packet
  simp only [has_long_header]
  generalize udp_packet.buf.getD 0 0 &&& 0x80 = b
  constructor
  · intro hl hb
    simp only [hl]
    rw [if_neg (by simp [hb])]
    exact ⟨_, rfl, rfl, rfl, rfl, rfl⟩
  · intro vc hl hc
    simp [hl, hc]

/-- Witness of C27: a packet of the open connection of the table (second byte 7)
is pushed, with that connection, to thread 9, the thread of the connection; a
long-header packet (first byte 0xC0) that the table does not know makes one
connection, with peer connection ID 03 04 and original connection ID 01 02, on
the thread 40 that is assigned. -/
theorem new_connection_and_dispatch_witness :
    QUICPacketHandlerIn._recv_packet sample_collaborators ⟨false, false⟩ 0
        ⟨⟨2, 77⟩, ⟨2, 78⟩, 3, [0x40, 7, 2, 3, 4]⟩ =
      ([Action.push 9 { sample_connection with thread := 9 }
        ⟨⟨2, 77⟩, ⟨2, 78⟩, 3, [0x40, 7, 2, 3, 4]⟩], 0) ∧
    (QUICPacketHandlerIn._recv_packet sample_collaborators ⟨false, false⟩ 0
        ⟨⟨2, 77⟩, ⟨2, 78⟩, 3, [0xC0, 1, 2, 3, 4]⟩).1 =
      [Action.create ⟨[3, 4], [1, 2], 3, 101, ⟨2, 77⟩, 1001, 40, false,
          NetVConnectionContext_t.NET_VCONNECTION_IN, true, ip_protocol_t.USE_UDP, 2, 0⟩,
        Action.push 40 ⟨[3, 4], [1, 2], 3, 101, ⟨2, 77⟩, 1001, 40, false,
          NetVConnectionContext_t.NET_VCONNECTION_IN, true, ip_protocol_t.USE_UDP, 2, 0⟩
          ⟨⟨2, 77⟩, ⟨2, 78⟩, 3, [0xC0, 1, 2, 3, 4]⟩] :=
  ⟨(new_connection_and_dispatch sample_collaborators ⟨false, false⟩ 0
      ⟨⟨2, 77⟩, ⟨2, 78⟩, 3, [0x40, 7, 2, 3, 4]⟩).2 { sample_connection with thread := 9 }
      (by decide) (by decide),
    by decide⟩

/-- C28 (accept error policy). For the event `NET_EVENT_DATAGRAM_ERROR`,
`acceptEvent` calls `ink_abort` whatever `data` holds; with `data` equal to
`-ECONNABORTED` it calls `ink_abort` too, with `errno = ECONNABORTED`: the branch
for `-ECONNABORTED` is empty and falls through to `ink_abort`. -/
theorem acceptEvent_aborts_on_ECONNABORTED {W : Type} (P : Collaborators W)
    (handler : QUICPacketHandlerIn) (w : W) (queue : List UDPPacket) :
    QUICPacketHandlerIn.acceptEvent P handler w NetEvent.NET_EVENT_DATAGRAM_ERROR
      ⟨-ECONNABORTED, queue⟩ = AcceptResult.ink_abort ECONNABORTED ∧
    ∀ data, QUICPacketHandlerIn.acceptEvent P handler w NetEvent.NET_EVENT_DATAGRAM_ERROR data =
      AcceptResult.ink_abort (-(int_of_intptr data.value)) := by
  constructor
  · simp [QUICPacketHandlerIn.acceptEvent, int_of_intptr, ECONNABORTED]
  · intro data
    simp [QUICPacketHandlerIn.acceptEvent]


/-! ## The closed queue -/

theorem close_conenction_flag (h : QUICPacketHandler) (d c : Nat) :
    ((h.close_conenction d).conns c).in_closed_queue =
      if c = d then 1 else (h.conns c).in_closed_queue := by
  unfold QUICPacketHandler.close_conenction ink_atomic_swap
  dsimp only
  by_cases hc : c = d
  · subst hc
    split <;> simp
  · split <;> simp [hc]

theorem close_conenction_queue (h : QUICPacketHandler) (d : Nat) :
    (h.close_conenction d).closedQueue =
      if (h.conns d).in_closed_queue = 0 then d :: h.closedQueue else h.closedQueue := by
  unfold QUICPacketHandler.close_conenction ink_atomic_swap
  dsimp only
  split <;> rfl

/-- Once the flag of a connection is 1, calls of `close_conenction` push it no
more and leave its flag at 1. -/
theorem close_conenction_closed (c : Nat) :
    ∀ (calls : List Nat) (h : QUICPacketHandler), (h.conns c).in_closed_queue = 1 →
      (calls.foldl QUICPacketHandler.close_conenction h).closedQueue.count c =
        h.closedQueue.count c ∧
      ((calls.foldl QUICPacketHandler.close_conenction h).conns c).in_closed_queue = 1 := by
  intro calls
  induction calls with
  | nil => intro h hf; exact ⟨rfl, hf⟩
  | cons d rest ih =>
    intro h hf
    simp only [List.foldl_cons]
    have hf' : ((h.close_conenction d).conns c).in_closed_queue = 1 := by
      rw [close_conenction_flag]
      split
      · rfl
      · exact hf
    have hq' : (h.close_conenction d).closedQueue.count c = h.closedQueue.count c := by
      rw [close_conenction_queue]
      split
      · rename_i h0
        have hne : d ≠ c := by
          intro hdc
          rw [hdc, hf] at h0
          exact absurd h0 (by decide)
        rw [List.count_cons_of_ne (Ne.symm hne)]
      · rfl
    obtain ⟨h1, h2⟩ := ih (h.close_conenction d) hf'
    exact ⟨h1.trans hq', h2⟩

/-- While the flag of a connection is 0, calls of `close_conenction` push it
once if one of them is for it, and not at all otherwise. -/
theorem close_conenction_open (c : Nat) :
    ∀ (calls : List Nat) (h : QUICPacketHandler), (h.conns c).in_closed_queue = 0 →
      (calls.foldl QUICPacketHandler.close_conenction h).closedQueue.count c =
        h.closedQueue.count c + (if c ∈ calls then 1 else 0) ∧
      ((calls.foldl QUICPacketHandler.close_conenction h).conns c).in_closed_queue =
        (if c ∈ calls then 1 else 0) := by
  intro calls
  induction calls with
  | nil => intro h hf; exact ⟨by simp, by simpa using hf⟩
  | cons d rest ih =>
    intro h hf
    simp only [List.foldl_cons]
    by_cases hdc : d = c
    · subst hdc
      have hf' : ((h.close_conenction d).conns d).in_closed_queue = 1 := by
        rw [close_conenction_flag, if_pos rfl]
      have hq' : (h.close_conenction d).closedQueue.count d = h.closedQueue.count d + 1 := by
        rw [close_conenction_queue, if_pos hf, List.count_cons_self]
      obtain ⟨h1, h2⟩ := close_conenction_closed d rest (h.close_conenction d) hf'
      simp only [List.mem_cons, true_or, if_true]
      exact ⟨h1.trans hq', h2⟩
    · have hf' : ((h.close_conenction d).conns c).in_closed_queue = 0 := by
        rw [close_conenction_flag, if_neg (fun e => hdc e.symm)]
        exact hf
      have hq' : (h.close_conenction d).closedQueue.count c = h.closedQueue.count c := by
        rw [close_conenction_queue]
        split
        · rw [List.count_cons_of_ne (fun e => hdc e.symm)]
        · rfl
      obtain ⟨h1, h2⟩ := ih (h.close_conenction d) hf'
      have hmem : (c ∈ d :: rest) ↔ c ∈ rest := by
        simp only [List.mem_cons]
        constructor
        · rintro (e | e)
          · exact absurd e.symm hdc
          · exact e
        · exact Or.inr
      simp only [hmem]
      exact ⟨by rw [h1, hq'], h2⟩

/-- C29 (at-most-once close). For every connection `c` whose `in_closed_queue`
is 0 and which is not in the closed queue, and every sequence of calls of
`close_conenction`: afterwards `c` is in the closed queue exactly once if one of
the calls was for `c` and not at all otherwise (so it has been pushed at most
once), its flag is 1 if one of the calls was for `c` and 0 otherwise, and so `c`
is in the queue only if its flag is 1. -/
theorem close_at_most_once (h : QUICPacketHandler) (calls : List Nat) (c : Nat)
    (hflag : (h.conns c).in_closed_queue = 0) (hqueue : c ∉ h.closedQueue) :
    (calls.foldl QUICPacketHandler.close_conenction h).closedQueue.count c =
      (if c ∈ calls then 1 else 0) ∧
    (calls.foldl QUICPacketHandler.close_conenction h).closedQueue.count c ≤ 1 ∧
    ((calls.foldl QUICPacketHandler.close_conenction h).conns c).in_closed_queue =
      (if c ∈ calls then 1 else 0) ∧
    (c ∈ (calls.foldl QUICPacketHandler.close_conenction h).closedQueue →
      ((calls.foldl QUICPacketHandler.close_conenction h).conns c).in_closed_queue = 1) := by
  obtain ⟨h1, h2⟩ := close_conenction_open c calls h hflag
  rw [List.count_eq_zero_of_not_mem hqueue, Nat.zero_add] at h1
  refine ⟨h1, ?_, h2, ?_⟩
  · rw [h1]; split <;> omega
  · intro hmem
    have hpos := List.count_pos_iff.mpr hmem
    rw [h1] at hpos
    rw [h2]
    split
    · rfl
    · rename_i hn
      rw [if_neg hn] at hpos
      omega

/-- Witness of C29: three calls, for the connections 5, 7 and 5 again, on an
empty queue: the queue holds 7 and 5, each once. -/
theorem close_at_most_once_witness :
    ([5, 7, 5].foldl QUICPacketHandler.close_conenction
      ⟨fun _ => sample_connection, []⟩).closedQueue = [7, 5] ∧
    ([5, 7, 5].foldl QUICPacketHandler.close_conenction
      ⟨fun _ => sample_connection, []⟩).closedQueue.count 5 = (if 5 ∈ [5, 7, 5] then 1 else 0) :=
  ⟨by decide,
    (close_at_most_once ⟨fun _ => sample_connection, []⟩ [5, 7, 5] 5 (by decide) (by decide)).1⟩


/-! ## The closed queue under calls that run at the same time -/

/-- The two steps of a call, one after the other, are `close_conenction`. -/
theorem close_conenction_steps (h : QUICPacketHandler) (conn : Nat) :
    ((CloseCall.called conn).step h).2 =
      CloseCall.swapped conn (h.conns conn).in_closed_queue ∧
    (((CloseCall.called conn).step h).2.step ((CloseCall.called conn).step h).1) =
      (h.close_conenction conn, CloseCall.returned) := by
  unfold QUICPacketHandler.close_conenction
  simp only [CloseCall.step, ink_atomic_swap]
  refine ⟨trivial, ?_⟩
  split <;> rfl

theorem count_set_add (l : List CloseCall) (i : Nat) (hi : i < l.length) (x b : CloseCall) :
    (l.set i x).count b + (if l[i] = b then 1 else 0) =
      l.count b + (if x = b then 1 else 0) := by
  have h := List.count_set x b l i hi
  simp only [beq_iff_eq] at h
  rw [h]
  by_cases e : l[i] = b
  · have hpos : 0 < l.count b := List.count_pos_iff.mpr (e ▸ List.getElem_mem hi)
    simp only [e, if_true]
    omega
  · simp only [e, if_false]
    omega

theorem closing_inv_step (conns : List Nat) (c : Nat) (s : Closing) (i : Nat)
    (hinv : closing_inv conns c s) : closing_inv conns c (s.step i) := by
  obtain ⟨h01, hcount, hcalled, hshape, hin⟩ := hinv
  unfold Closing.step
  cases hget : s.calls[i]? with
  | none => exact ⟨h01, hcount, hcalled, hshape, hin⟩
  | some x =>
    obtain ⟨hi, hx⟩ := List.getElem?_eq_some_iff.mp hget
    have hmemset : ∀ y, y ∈ s.calls.set i (x.step s.handler).2 →
        y ∈ s.calls ∨ y = (x.step s.handler).2 := fun y hy => List.mem_or_eq_of_mem_set hy
    have hsw := count_set_add s.calls i hi (x.step s.handler).2 (CloseCall.swapped c 0)
    have hca := count_set_add s.calls i hi (x.step s.handler).2 (CloseCall.called c)
    rw [hx] at hsw hca
    cases x with
    | called d =>
      simp only [CloseCall.step, ink_atomic_swap] at hsw hca hmemset ⊢
      have hd : d ∈ conns := hshape d (hx ▸ List.getElem_mem hi)
      by_cases hdc : d = c
      · subst hdc
        simp only [closing_inv, if_true]
        refine ⟨Or.inr trivial, ?_, ?_, ?_, fun _ => hd⟩
        · rw [if_neg (by decide)]
          rcases h01 with h0 | h1
          · rw [h0] at hsw ⊢
            rw [if_pos h0] at hcount
            simp only [reduceCtorEq, if_false, if_true, Nat.add_zero] at hsw
            omega
          · rw [h1] at hsw ⊢
            rw [if_neg (by rw [h1]; decide)] at hcount
            simp only [CloseCall.swapped.injEq, reduceCtorEq, true_and, one_ne_zero, if_false,
              Nat.add_zero] at hsw
            omega
        · intro h; exact absurd h (by decide)
        · intro e he
          rcases hmemset _ he with h | h
          · exact hshape e h
          · exact absurd h (by simp)
      · have hcd : ¬ c = d := fun e => hdc e.symm
        simp only [closing_inv, if_neg hcd]
        simp only [CloseCall.called.injEq, CloseCall.swapped.injEq, hdc, false_and, if_false,
          reduceCtorEq, Nat.add_zero] at hsw hca
        refine ⟨h01, ?_, ?_, ?_, hin⟩
        · rw [hsw]; exact hcount
        · intro h0; rw [hca]; exact hcalled h0
        · intro e he
          rcases hmemset _ he with h | h
          · exact hshape e h
          · exact absurd h (by simp)
    | swapped d isin =>
      by_cases h0 : isin = 0
      · subst h0
        simp only [CloseCall.step, if_true] at hsw hca hmemset ⊢
        simp only [closing_inv]
        by_cases hdc : d = c
        · subst hdc
          simp only [List.count_cons_self, if_true, reduceCtorEq, if_false, Nat.add_zero]
            at hsw hca ⊢
          refine ⟨h01, ?_, ?_, ?_, hin⟩
          · omega
          · intro h; rw [hca]; exact hcalled h
          · intro e he
            rcases hmemset _ he with h | h
            · exact hshape e h
            · exact absurd h (by simp)
        · simp only [CloseCall.swapped.injEq, hdc, false_and, if_false, reduceCtorEq, Nat.add_zero]
            at hsw hca
          rw [List.count_cons_of_ne (fun e => hdc e.symm)]
          refine ⟨h01, ?_, ?_, ?_, hin⟩
          · rw [hsw]; exact hcount
          · intro h; rw [hca]; exact hcalled h
          · intro e he
            rcases hmemset _ he with h | h
            · exact hshape e h
            · exact absurd h (by simp)
      · simp only [CloseCall.step, if_neg h0] at hsw hca hmemset ⊢
        simp only [CloseCall.swapped.injEq, h0, and_false, if_false, reduceCtorEq, Nat.add_zero]
          at hsw hca
        simp only [closing_inv]
        refine ⟨h01, ?_, ?_, ?_, hin⟩
        · rw [hsw]; exact hcount
        · intro h; rw [hca]; exact hcalled h
        · intro e he
          rcases hmemset _ he with h | h
          · exact hshape e h
          · exact absurd h (by simp)
    | returned =>
      simp only [CloseCall.step] at hsw hca hmemset ⊢
      simp only [reduceCtorEq, if_false, Nat.add_zero] at hsw hca
      simp only [closing_inv]
      refine ⟨h01, ?_, ?_, ?_, hin⟩
      · rw [hsw]; exact hcount
      · intro h; rw [hca]; exact hcalled h
      · intro e he
        rcases hmemset _ he with h | h
        · exact hshape e h
        · exact absurd h (by simp)

theorem closing_inv_run (conns : List Nat) (c : Nat) (schedule : List Nat) :
    ∀ s : Closing, closing_inv conns c s → closing_inv conns c (s.run schedule) := by
  induction schedule with
  | nil => intro s h; exact h
  | cons i rest ih =>
    intro s h
    exact ih (s.step i) (closing_inv_step conns c s i h)

theorem closing_inv_start (h : QUICPacketHandler) (conns : List Nat) (c : Nat)
    (hflag : (h.conns c).in_closed_queue = 0) (hqueue : c ∉ h.closedQueue) :
    closing_inv conns c ⟨h, conns.map CloseCall.called⟩ := by
  have hinj : Function.Injective CloseCall.called := fun a b e => by injection e
  refine ⟨Or.inl hflag, ?_, ?_, ?_, ?_⟩
  · simp only [if_pos hflag]
    rw [List.count_eq_zero_of_not_mem hqueue, List.count_eq_zero_of_not_mem]
    simp
  · intro _
    exact List.count_map_of_injective conns CloseCall.called hinj c
  · intro d hd
    simp only [List.mem_map] at hd
    obtain ⟨e, he, heq⟩ := hd
    injection heq with heq
    exact heq ▸ he
  · intro h1
    rw [hflag] at h1
    exact absurd h1 (by decide)

/-- The property of C29 when the calls of `close_conenction` run at the same
time, each call taking its two steps (the swap, and the test with the push) at
any time between the steps of the others: for every connection `c` whose
`in_closed_queue` is 0 and which is not in the closed queue, every list of calls
and every order of their steps, `c` is in the closed queue at most once, and
only if its flag is 1; once all calls have returned, `c` is in the queue exactly
once if one of the calls was for `c`, and not at all otherwise. -/
theorem concurrent_closes_push_once (h : QUICPacketHandler) (conns : List Nat)
    (schedule : List Nat) (c : Nat)
    (hflag : (h.conns c).in_closed_queue = 0) (hqueue : c ∉ h.closedQueue) :
    ((Closing.mk h (conns.map CloseCall.called)).run schedule).handler.closedQueue.count c ≤ 1 ∧
    (c ∈ ((Closing.mk h (conns.map CloseCall.called)).run schedule).handler.closedQueue →
      (((Closing.mk h (conns.map CloseCall.called)).run schedule).handler.conns c).in_closed_queue
        = 1) ∧
    ((∀ x ∈ ((Closing.mk h (conns.map CloseCall.called)).run schedule).calls,
        x = CloseCall.returned) →
      ((Closing.mk h (conns.map CloseCall.called)).run schedule).handler.closedQueue.count c =
        (if c ∈ conns then 1 else 0)) := by
  have hinv := closing_inv_run conns c schedule _ (closing_inv_start h conns c hflag hqueue)
  generalize (Closing.mk h (conns.map CloseCall.called)).run schedule = s at hinv
  obtain ⟨h01, hcount, hcalled, hshape, hin⟩ := hinv
  refine ⟨?_, ?_, ?_⟩
  · split at hcount <;> omega
  · intro hmem
    have hpos := List.count_pos_iff.mpr hmem
    rcases h01 with h0 | h1
    · rw [if_pos h0] at hcount; omega
    · exact h1
  · intro hall
    have hsw : s.calls.count (CloseCall.swapped c 0) = 0 :=
      List.count_eq_zero_of_not_mem (fun hm => by simpa using hall _ hm)
    have hca : s.calls.count (CloseCall.called c) = 0 :=
      List.count_eq_zero_of_not_mem (fun hm => by simpa using hall _ hm)
    rw [hsw] at hcount
    rcases h01 with h0 | h1
    · have hc := hcalled h0
      rw [hca] at hc
      have hnot : c ∉ conns := fun hm => by
        have := List.count_pos_iff.mpr hm
        omega
      rw [if_pos h0] at hcount
      rw [if_neg hnot]
      omega
    · rw [if_neg (by rw [h1]; decide)] at hcount
      rw [if_pos (hin h1)]
      omega

/-- An example of calls that run at the same time: two calls for the connection
5 both swap before either tests what its swap returned; the first pushes, the
second does not, and both have returned. -/
theorem concurrent_closes_example :
    ((Closing.mk ⟨fun _ => sample_connection, []⟩
        ([5, 5].map CloseCall.called)).run [0, 1, 1, 0]).handler.closedQueue = [5] ∧
    ((Closing.mk ⟨fun _ => sample_connection, []⟩
        ([5, 5].map CloseCall.called)).run [0, 1, 1, 0]).calls =
      [CloseCall.returned, CloseCall.returned] ∧
    ((Closing.mk ⟨fun _ => sample_connection, []⟩
        ([5, 5].map CloseCall.called)).run [0, 1]).calls =
      [CloseCall.swapped 5 0, CloseCall.swapped 5 1] := by
  decide

end QUIC
